import Mathlib

/-! Point quadtree (`quadtree.c`): embedding and verified properties.

Modelling conventions.

* Coordinates (`float` in the source) are the finite `float` values, as rationals;
  comparisons are exact. The arithmetic the source performs on them, namely `halfway`,
  the query box `x ± radius` and the test `getdistance(..) <= radius`, is a parameter
  of the embedding (classes `Midpoint` and `Distance`) with two readings:
  `exactMidpoint` / `exactDistance`, where no operation rounds (the default
  instances), and `binary32Midpoint` / `binary32Distance`, where every operation is
  rounded to nearest, ties to even, as IEEE 754 prescribes for `float` and `double`
  (each operation rounded on its own; a result that overflows to an infinity in the
  source is outside the range of this reading). A statement with a `[Midpoint]` or
  `[Distance]` binder holds for every reading of that arithmetic; where the binder is
  absent, the arithmetic is the exact one.
* `unsigned int` fields (`size`, `depth`, `maxsize`, `maxdepth`) are natural
  numbers. `size` is only decremented behind a non-zero test and `depth + 1` is only
  computed below `maxdepth`, so the only wrap-around would need `2^32` records in a
  single bucket.
* `malloc` / `calloc` always succeed.
* The payload pointer `void *data` is a natural number (an address).
* A `Leaf` is one quadrant slot `{extents, size, contents}`. The union `contents`
  is either a record chain (`payload`, the empty chain being `NULL`) or a pointer
  to a child `Qnode` (`leaf`, with the child's `depth` and four slots in place).
  The source decides between the two readings with the test
  `size == 0 && contents.leaf`; whenever that test would make the source read one
  union member as the other, the embedded function returns `none`.
* A `Leaf *` into the tree is the list of corners leading to it from the root node.
* A visitor callback is represented by the list of records it is called on, in
  call order.
-/

namespace Quadtree

/-- Axis-aligned rectangle `struct Extent`. -/
structure Extent where
  xmin : ℚ
  ymin : ℚ
  xmax : ℚ
  ymax : ℚ
  deriving DecidableEq

/-- One stored record `struct LeafData` (the `next` link is the list structure). -/
structure LeafData where
  x : ℚ
  y : ℚ
  data : Nat
  deriving DecidableEq

/-- Quadrant slot `struct Leaf`; the `leaf` constructor carries the child `Qnode`
fields `depth, ul, ur, ll, lr`. -/
inductive Leaf where
  | payload (extents : Extent) (size : Nat) (cells : List LeafData)
  | leaf (extents : Extent) (size : Nat) (depth : Nat) (ul ur ll lr : Leaf)
  deriving DecidableEq

/-- Branch point `struct Qnode`. -/
structure Qnode where
  depth : Nat
  ul : Leaf
  ur : Leaf
  ll : Leaf
  lr : Leaf
  deriving DecidableEq

/-- The tree handle `struct QuadTree`; `head = none` is the `NULL` root. -/
structure QuadTree where
  head : Option Qnode
  maxsize : Nat
  maxdepth : Nat
  extents : Extent
  deriving DecidableEq

/-- The four corners of a node. -/
inductive Corner where
  | ul
  | ur
  | ll
  | lr
  deriving DecidableEq

/-- Field `extents` of a slot. -/
def Leaf.extents : Leaf → Extent
  | .payload e _ _ => e
  | .leaf e _ _ _ _ _ _ => e

/-- Field `size` of a slot. -/
def Leaf.size : Leaf → Nat
  | .payload _ s _ => s
  | .leaf _ s _ _ _ _ _ => s

/-- The slot whose `contents.leaf` points to node `q`. -/
def Leaf.ofNode (e : Extent) (s : Nat) (q : Qnode) : Leaf :=
  .leaf e s q.depth q.ul q.ur q.ll q.lr

/-- Slot of a node at a corner. -/
def Qnode.corner (q : Qnode) : Corner → Leaf
  | .ul => q.ul
  | .ur => q.ur
  | .ll => q.ll
  | .lr => q.lr

/-- Overwrite the slot of a node at a corner. -/
def Qnode.setCorner (q : Qnode) (c : Corner) (l : Leaf) : Qnode :=
  match c with
  | .ul => { q with ul := l }
  | .ur => { q with ur := l }
  | .ll => { q with ll := l }
  | .lr => { q with lr := l }

/-- The midpoint arithmetic of the source. -/
class Midpoint where
  /-- Source `halfway`: the value of `min + ((max-min)/2.0)` returned as a `float`. -/
  halfway : ℚ → ℚ → ℚ

export Midpoint (halfway)

/-- The arithmetic of the radius query. -/
class Distance where
  /-- The `float` difference `x - radius` of the query box. -/
  fsub : ℚ → ℚ → ℚ
  /-- The `float` sum `x + radius` of the query box. -/
  fadd : ℚ → ℚ → ℚ
  /-- The test `getdistance(x1,y1,x2,y2) <= radius`. -/
  getdistance_le : ℚ → ℚ → ℚ → ℚ → ℚ → Bool

export Distance (fsub fadd getdistance_le)

/-- The radicand of source `getdistance`, without rounding. -/
def getdistanceSq (x1 y1 x2 y2 : ℚ) : ℚ :=
  (x1 - x2) * (x1 - x2) + (y1 - y2) * (y1 - y2)

/-- Source `halfway` without rounding. -/
instance exactMidpoint : Midpoint where
  halfway min max := min + (max - min) / 2

/-- The query arithmetic without rounding; the test `getdistance(..) <= radius` is
`sqrt(d) <= radius` for the exact radicand `d`. -/
instance exactDistance : Distance where
  fsub x radius := x - radius
  fadd x radius := x + radius
  getdistance_le x1 y1 x2 y2 radius :=
    decide (0 ≤ radius) && decide (getdistanceSq x1 y1 x2 y2 ≤ radius * radius)

/-- Power of two with an integer exponent. -/
def pow2 (k : ℤ) : ℚ := if 0 ≤ k then (2 : ℚ) ^ k.toNat else 1 / (2 : ℚ) ^ (-k).toNat

/-- Absolute value of a rational. -/
def absq (q : ℚ) : ℚ := if q < 0 then -q else q

/-- Loop of `log2`. -/
def log2Aux : Nat → Nat → Nat
  | 0, _ => 0
  | fuel + 1, n => if n < 2 then 0 else log2Aux fuel (n / 2) + 1

/-- Position of the leading bit of a natural number. -/
def log2 (n : Nat) : Nat := log2Aux n n

/-- Binade of a non-zero rational: the `k` with `2^k ≤ |q| < 2^(k+1)`. -/
def ilog2 (q : ℚ) : ℤ :=
  let k : ℤ := (log2 q.num.natAbs : ℤ) - (log2 q.den : ℤ)
  if pow2 k ≤ absq q then k else k - 1

/-- Nearest integer, ties to even. -/
def roundNE (q : ℚ) : ℤ :=
  let f := Rat.floor q
  if q - f < 1 / 2 then f
  else if 1 / 2 < q - f then f + 1
  else if f % 2 = 0 then f else f + 1

/-- Nearest multiple of `2^g`, ties to even. -/
def roundGrid (g : ℤ) (q : ℚ) : ℚ := (roundNE (q / pow2 g) : ℚ) * pow2 g

/-- Rounding to `float` (binary32): 24 significant bits, least binade `-126`
(subnormal numbers below it). -/
def fl32 (q : ℚ) : ℚ := if q = 0 then 0 else roundGrid (max (ilog2 q) (-126) - 23) q

/-- Rounding to `double` (binary64): 53 significant bits, least binade `-1022`. -/
def fl64 (q : ℚ) : ℚ := if q = 0 then 0 else roundGrid (max (ilog2 q) (-1022) - 52) q

/-- Loop of `isqrt`: the bits of the root from bit `b - 1` down. -/
def isqrtAux (n : Nat) : Nat → Nat → Nat
  | 0, r => r
  | b + 1, r =>
    if (r + 2 ^ b) * (r + 2 ^ b) ≤ n then isqrtAux n b (r + 2 ^ b) else isqrtAux n b r

/-- Integer square root, rounded down. -/
def isqrt (n : Nat) : Nat := isqrtAux n (log2 n / 2 + 1) 0

/-- Library `sqrt` on a `double`: the square root rounded to binary64 (the argument
is never negative here). -/
def fsqrt64 (q : ℚ) : ℚ :=
  if q ≤ 0 then 0
  else
    let g : ℤ := ilog2 q / 2 - 52
    let s : ℚ := q / pow2 (2 * g)
    let m : Nat := isqrt (Rat.floor s).toNat
    let t : ℚ := (m : ℚ) * m + m + 1 / 4
    if s < t then (m : ℚ) * pow2 g
    else if t < s then ((m : ℚ) + 1) * pow2 g
    else if m % 2 = 0 then (m : ℚ) * pow2 g else ((m : ℚ) + 1) * pow2 g

/-- Source `halfway` in binary32: `max-min` is a `float` difference, the division by
`2.0` and the sum are `double` operations, and the result is returned as a `float`. -/
def halfway32 (min max : ℚ) : ℚ := fl32 (fl64 (min + fl64 (fl32 (max - min) / 2)))

/-- Source `getdistance` in binary32: the differences, products and the sum are
`float` operations, `sqrt` is the `double` one, and the result is returned as a
`float`. -/
def getdistance32 (x1 y1 x2 y2 : ℚ) : ℚ :=
  fl32 (fsqrt64 (fl32 (fl32 (fl32 (x1 - x2) * fl32 (x1 - x2)) +
    fl32 (fl32 (y1 - y2) * fl32 (y1 - y2)))))

/-- Source `halfway` as the source computes it. -/
def binary32Midpoint : Midpoint where
  halfway := halfway32

/-- The query arithmetic as the source computes it. -/
def binary32Distance : Distance where
  fsub x radius := fl32 (x - radius)
  fadd x radius := fl32 (x + radius)
  getdistance_le x1 y1 x2 y2 radius := decide (getdistance32 x1 y1 x2 y2 ≤ radius)

/-- Source `pointinside`: strict containment in an extent. -/
def pointinside (x y : ℚ) (extent : Extent) : Bool :=
  decide (x > extent.xmin) && decide (x < extent.xmax) &&
    decide (y > extent.ymin) && decide (y < extent.ymax)

/-- Macro `DO_CORNERS`: the corner selected for `(x, y)` at midpoint `(xmid, ymid)`. -/
def DO_CORNERS (x y xmid ymid : ℚ) : Corner :=
  if x < xmid then
    if y < ymid then .ul else .ll
  else
    if y < ymid then .ur else .lr

/-- Macro `MOVE_CORNER`: push `cur` on the front of slot `dst` and bump its size. -/
def MOVE_CORNER (dst : Leaf) (cur : LeafData) : Option Leaf :=
  match dst with
  | .payload e size cells => some (.payload e (size + 1) (cur :: cells))
  | .leaf _ _ _ _ _ _ _ => none

/-- The `while(cur)` loop of `leafpushdown`. -/
def pushloop (xmid ymid : ℚ) : List LeafData → Qnode → Option Qnode
  | [], newnode => some newnode
  | cur :: next, newnode =>
    match DO_CORNERS cur.x cur.y xmid ymid with
    | .ul => (MOVE_CORNER newnode.ul cur).bind fun t =>
        pushloop xmid ymid next { newnode with ul := t }
    | .ll => (MOVE_CORNER newnode.ll cur).bind fun t =>
        pushloop xmid ymid next { newnode with ll := t }
    | .ur => (MOVE_CORNER newnode.ur cur).bind fun t =>
        pushloop xmid ymid next { newnode with ur := t }
    | .lr => (MOVE_CORNER newnode.lr cur).bind fun t =>
        pushloop xmid ymid next { newnode with lr := t }

/-- Source `leafpushdown`: replace an over-full bucket by a branch to a fresh node
of the given depth and redistribute its records. -/
def leafpushdown [Midpoint] (leaf : Leaf) (depth : Nat) : Option Leaf :=
  match leaf with
  | .payload e _ cells =>
    let xmid := halfway e.xmin e.xmax
    let ymid := halfway e.ymin e.ymax
    let newnode : Qnode :=
      { depth := depth
        ul := .payload ⟨e.xmin, e.ymin, xmid, ymid⟩ 0 []
        ur := .payload ⟨xmid, e.ymin, e.xmax, ymid⟩ 0 []
        ll := .payload ⟨e.xmin, ymid, xmid, e.ymax⟩ 0 []
        lr := .payload ⟨xmid, ymid, e.xmax, e.ymax⟩ 0 [] }
    (pushloop xmid ymid cells newnode).map fun n => Leaf.ofNode e 0 n
  | .leaf _ _ _ _ _ _ _ => none

/-- Source `newtree`. -/
def newtree [Midpoint] (maxsize maxdepth : Nat) (extents : Extent) : QuadTree :=
  let xmid := halfway extents.xmin extents.xmax
  let ymid := halfway extents.ymin extents.ymax
  { head := some
      { depth := 1
        ul := .payload ⟨extents.xmin, extents.ymin, xmid, ymid⟩ 0 []
        ur := .payload ⟨xmid, extents.ymin, extents.xmax, ymid⟩ 0 []
        ll := .payload ⟨extents.xmin, ymid, xmid, extents.ymax⟩ 0 []
        lr := .payload ⟨xmid, ymid, extents.xmax, extents.ymax⟩ 0 [] }
    maxsize := maxsize
    maxdepth := maxdepth
    extents := extents }

/-- Source `addleafdata`, with `curdepth = curnode->depth`. -/
def addleafdata [Midpoint] (maxsize maxdepth curdepth : Nat) (leaf : Leaf) (newnode : LeafData) :
    Option Leaf :=
  match leaf with
  | .payload e size cells =>
    if size + 1 ≥ maxsize ∧ curdepth < maxdepth then
      leafpushdown (.payload e (size + 1) (newnode :: cells)) (curdepth + 1)
    else
      some (.payload e (size + 1) (newnode :: cells))
  | .leaf _ _ _ _ _ _ _ => none

/-- Macro `ADD_CORNER` applied to a slot owned by a node of depth `curdepth`; the
recursive call is `addpointx` on the child node. -/
def ADD_CORNER [Midpoint] (maxsize maxdepth : Nat) (x y : ℚ) (newnode : LeafData) :
    Nat → Leaf → Option Leaf
  | curdepth, .payload e size cells =>
    if size = 0 ∧ cells ≠ [] then none
    else addleafdata maxsize maxdepth curdepth (.payload e size cells) newnode
  | _, .leaf e size d ul ur ll lr =>
    if size = 0 then
      match DO_CORNERS x y ul.extents.xmax ul.extents.ymax with
      | .ul => (ADD_CORNER maxsize maxdepth x y newnode d ul).map
          fun t => .leaf e size d t ur ll lr
      | .ll => (ADD_CORNER maxsize maxdepth x y newnode d ll).map
          fun t => .leaf e size d ul ur t lr
      | .ur => (ADD_CORNER maxsize maxdepth x y newnode d ur).map
          fun t => .leaf e size d ul t ll lr
      | .lr => (ADD_CORNER maxsize maxdepth x y newnode d lr).map
          fun t => .leaf e size d ul ur ll t
    else none

/-- Source `addpointx`. -/
def addpointx [Midpoint] (maxsize maxdepth : Nat) (cur : Qnode) (x y : ℚ) (newnode : LeafData) :
    Option Qnode :=
  let c := DO_CORNERS x y cur.ul.extents.xmax cur.ul.extents.ymax
  (ADD_CORNER maxsize maxdepth x y newnode cur.depth (cur.corner c)).map
    fun t => cur.setCorner c t

/-- Source `addpoint`: the updated tree and the returned flag. -/
def addpoint [Midpoint] (qt : QuadTree) (x y : ℚ) (data : Nat) : Option (QuadTree × Bool) :=
  match qt.head with
  | none => none
  | some h =>
    (addpointx qt.maxsize qt.maxdepth h x y ⟨x, y, data⟩).map
      fun h' => ({ qt with head := some h' }, true)

/-- Macro `FIND_CORNER` applied to a slot: the corners leading from this slot to the
returned one (`[]` when the slot itself is returned). -/
def FIND_CORNER (x y : ℚ) : Leaf → Option (List Corner)
  | .payload _ size cells => if size = 0 ∧ cells ≠ [] then none else some []
  | .leaf _ size _ ul ur ll lr =>
    if size = 0 then
      match DO_CORNERS x y ul.extents.xmax ul.extents.ymax with
      | .ul => (FIND_CORNER x y ul).map fun p => Corner.ul :: p
      | .ll => (FIND_CORNER x y ll).map fun p => Corner.ll :: p
      | .ur => (FIND_CORNER x y ur).map fun p => Corner.ur :: p
      | .lr => (FIND_CORNER x y lr).map fun p => Corner.lr :: p
    else some []

/-- Source `findleafx`. -/
def findleafx (cur : Qnode) (x y : ℚ) : Option (List Corner) :=
  let c := DO_CORNERS x y cur.ul.extents.xmax cur.ul.extents.ymax
  (FIND_CORNER x y (cur.corner c)).map fun p => c :: p

/-- Source `findleaf`: `some none` is the `NULL` result. -/
def findleaf (qt : QuadTree) (x y : ℚ) : Option (Option (List Corner)) :=
  match qt.head with
  | none => some none
  | some h => (findleafx h x y).map some

/-- Dereference: the slot reached from a slot along a list of corners. -/
def Leaf.sub : Leaf → List Corner → Option Leaf
  | l, [] => some l
  | .payload _ _ _, _ :: _ => none
  | .leaf _ _ _ ul ur ll lr, c :: p =>
    match c with
    | .ul => ul.sub p
    | .ur => ur.sub p
    | .ll => ll.sub p
    | .lr => lr.sub p

/-- Store through a pointer: overwrite the slot reached along a list of corners. -/
def Leaf.setSub : Leaf → List Corner → Leaf → Leaf
  | _, [], v => v
  | .payload e s cells, _ :: _, _ => .payload e s cells
  | .leaf e s d ul ur ll lr, c :: p, v =>
    match c with
    | .ul => .leaf e s d (ul.setSub p v) ur ll lr
    | .ur => .leaf e s d ul (ur.setSub p v) ll lr
    | .ll => .leaf e s d ul ur (ll.setSub p v) lr
    | .lr => .leaf e s d ul ur ll (lr.setSub p v)

/-- Dereference a `Leaf *` of the tree rooted at `q`. -/
def Qnode.leafAt (q : Qnode) : List Corner → Option Leaf
  | [] => none
  | c :: p => (q.corner c).sub p

/-- Store a slot through a `Leaf *` of the tree rooted at `q`. -/
def Qnode.setLeafAt (q : Qnode) : List Corner → Leaf → Qnode
  | [], _ => q
  | c :: p, v => q.setCorner c ((q.corner c).setSub p v)

/-- The `while(cur)` loop of `movepoint` over the chain of the old bucket, whose
extent is `ext`: the chain left in the bucket, and the record unlinked for
re-insertion when the loop leaves through `return true`. -/
def movescan (ext : Extent) (oldx oldy newx newy : ℚ) (data : Nat) :
    List LeafData → List LeafData × Option LeafData
  | [] => ([], none)
  | cur :: next =>
    if data = cur.data ∧ oldx = cur.x ∧ oldy = cur.y then
      if !pointinside newx newy ext then
        (next, some ⟨newx, newy, cur.data⟩)
      else
        let r := movescan ext oldx oldy newx newy data next
        (⟨newx, newy, cur.data⟩ :: r.1, r.2)
    else
      let r := movescan ext oldx oldy newx newy data next
      (cur :: r.1, r.2)

/-- Source `movepoint`: the updated tree and the returned flag. -/
def movepoint [Midpoint] (qt : QuadTree) (oldx oldy newx newy : ℚ) (data : Nat) :
    Option (QuadTree × Bool) :=
  match qt.head with
  | none => none
  | some h =>
    match findleafx h oldx oldy with
    | none => none
    | some p =>
      match h.leafAt p with
      | none => none
      | some (.leaf _ size _ _ _ _ _) => if size = 0 then some (qt, false) else none
      | some (.payload e size cells) =>
        if size = 0 then some (qt, false)
        else
          match movescan e oldx oldy newx newy data cells with
          | (cells', some cur) =>
            (addpointx qt.maxsize qt.maxdepth
                (h.setLeafAt p (.payload e (size - 1) cells')) newx newy cur).map
              fun h' => ({ qt with head := some h' }, true)
          | (cells', none) =>
            some ({ qt with head := some (h.setLeafAt p (.payload e size cells')) }, false)

/-- The `while(cur)` loop of `deletepoint`: the chain with the first record whose
payload is `data` unlinked, or `none` when the loop runs off the end. -/
def delscan (data : Nat) : List LeafData → Option (List LeafData)
  | [] => none
  | cur :: next =>
    if cur.data = data then some next
    else (delscan data next).map fun r => cur :: r

/-- Source `deletepoint`: the updated tree and the returned flag. -/
def deletepoint (qt : QuadTree) (x y : ℚ) (data : Nat) : Option (QuadTree × Bool) :=
  match qt.head with
  | none => none
  | some h =>
    match findleafx h x y with
    | none => none
    | some p =>
      match h.leafAt p with
      | none => none
      | some (.leaf _ size _ _ _ _ _) => if size ≠ 0 then none else some (qt, false)
      | some (.payload e size cells) =>
        if size ≠ 0 then
          match delscan data cells with
          | some cells' =>
            some ({ qt with head := some (h.setLeafAt p (.payload e (size - 1) cells')) }, true)
          | none => some (qt, false)
        else some (qt, false)

/-- Source `overlap`. -/
def overlap (ext1 ext2 : Extent) : Bool :=
  !(decide (ext1.xmin > ext2.xmax) || decide (ext2.xmin > ext1.xmax) ||
    decide (ext1.ymin > ext2.ymax) || decide (ext2.ymin > ext1.ymax))

/-- Macro `FIND_IN_CORNER` applied to a slot: the records passed to the visitor, in
call order; the recursive call is `maptonearbyx` on the child node. -/
def FIND_IN_CORNER [Distance] (x y radius : ℚ) : Leaf → Option (List LeafData)
  | .payload e size cells =>
    if overlap e ⟨fsub x radius, fsub y radius, fadd x radius, fadd y radius⟩ then
      if cells ≠ [] ∧ size = 0 then none
      else if cells ≠ [] ∧ size > 0 then
        some (cells.filter fun cur => getdistance_le x y cur.x cur.y radius)
      else some []
    else some []
  | .leaf e size _ ul ur ll lr =>
    if overlap e ⟨fsub x radius, fsub y radius, fadd x radius, fadd y radius⟩ then
      if size = 0 then
        (FIND_IN_CORNER x y radius ul).bind fun a =>
        (FIND_IN_CORNER x y radius ur).bind fun b =>
        (FIND_IN_CORNER x y radius ll).bind fun c =>
        (FIND_IN_CORNER x y radius lr).bind fun d => some (a ++ b ++ c ++ d)
      else none
    else some []

/-- Source `maptonearbyx` (its `extents` argument is unused by the source). -/
def maptonearbyx [Distance] (node : Qnode) (x y radius : ℚ) : Option (List LeafData) :=
  (FIND_IN_CORNER x y radius node.ul).bind fun a =>
  (FIND_IN_CORNER x y radius node.ur).bind fun b =>
  (FIND_IN_CORNER x y radius node.ll).bind fun c =>
  (FIND_IN_CORNER x y radius node.lr).bind fun d => some (a ++ b ++ c ++ d)

/-- Source `maptonearby`: the records the visitor is called on. -/
def maptonearby [Distance] (qt : QuadTree) (x y radius : ℚ) : Option (List LeafData) :=
  match qt.head with
  | none => none
  | some h => maptonearbyx h x y radius

/-- The universe `(0,0,100,100)` used in the worked examples. -/
def u100 : Extent := ⟨0, 0, 100, 100⟩



/-! ## Notions used to state the properties -/

/-- Records routed to corner `c` by `DO_CORNERS` at midpoint `(xmid, ymid)`. -/
def routed (xmid ymid : ℚ) (c : Corner) (cells : List LeafData) : List LeafData :=
  cells.filter fun cur => decide (DO_CORNERS cur.x cur.y xmid ymid = c)

/-- The four extents `leafpushdown` and `newtree` build from an extent. -/
def Extent.quarter [Midpoint] (e : Extent) : Corner → Extent
  | .ul => ⟨e.xmin, e.ymin, halfway e.xmin e.xmax, halfway e.ymin e.ymax⟩
  | .ur => ⟨halfway e.xmin e.xmax, e.ymin, e.xmax, halfway e.ymin e.ymax⟩
  | .ll => ⟨e.xmin, halfway e.ymin e.ymax, halfway e.xmin e.xmax, e.ymax⟩
  | .lr => ⟨halfway e.xmin e.xmax, halfway e.ymin e.ymax, e.xmax, e.ymax⟩

/-- Result of a split, in closed form. -/
def splitOf [Midpoint] (e : Extent) (cells : List LeafData) (depth : Nat) : Leaf :=
  .leaf e 0 depth
    (.payload (e.quarter .ul)
      (routed (halfway e.xmin e.xmax) (halfway e.ymin e.ymax) .ul cells).length
      (routed (halfway e.xmin e.xmax) (halfway e.ymin e.ymax) .ul cells).reverse)
    (.payload (e.quarter .ur)
      (routed (halfway e.xmin e.xmax) (halfway e.ymin e.ymax) .ur cells).length
      (routed (halfway e.xmin e.xmax) (halfway e.ymin e.ymax) .ur cells).reverse)
    (.payload (e.quarter .ll)
      (routed (halfway e.xmin e.xmax) (halfway e.ymin e.ymax) .ll cells).length
      (routed (halfway e.xmin e.xmax) (halfway e.ymin e.ymax) .ll cells).reverse)
    (.payload (e.quarter .lr)
      (routed (halfway e.xmin e.xmax) (halfway e.ymin e.ymax) .lr cells).length
      (routed (halfway e.xmin e.xmax) (halfway e.ymin e.ymax) .lr cells).reverse)

/-- Closed containment of a point in an extent. -/
def Extent.contains (e : Extent) (x y : ℚ) : Prop :=
  e.xmin ≤ x ∧ x ≤ e.xmax ∧ e.ymin ≤ y ∧ y ≤ e.ymax

/-- All records stored below a slot, in the order UL, UR, LL, LR. -/
def Leaf.records : Leaf → List LeafData
  | .payload _ _ cells => cells
  | .leaf _ _ _ ul ur ll lr => ul.records ++ ur.records ++ ll.records ++ lr.records

/-- Number of `Qnode`s below a slot. -/
def Leaf.nodes : Leaf → Nat
  | .payload _ _ _ => 0
  | .leaf _ _ _ ul ur ll lr => 1 + ul.nodes + ur.nodes + ll.nodes + lr.nodes

/-- Structural well-formedness of a slot: a bucket's `size` is the length of its
chain, a branch has `size = 0`, and the four slots of every node quarter the extent
of the slot pointing to the node. -/
def Leaf.WF [Midpoint] : Leaf → Prop
  | .payload _ s cells => s = cells.length
  | .leaf e s _ ul ur ll lr =>
    s = 0 ∧ ul.extents = e.quarter .ul ∧ ur.extents = e.quarter .ur ∧
      ll.extents = e.quarter .ll ∧ lr.extents = e.quarter .lr ∧
      ul.WF ∧ ur.WF ∧ ll.WF ∧ lr.WF

/-- Every record lies in the closed extent of its bucket. -/
def Leaf.Within : Leaf → Prop
  | .payload e _ cells => ∀ c ∈ cells, e.contains c.x c.y
  | .leaf _ _ _ ul ur ll lr => ul.Within ∧ ur.Within ∧ ll.Within ∧ lr.Within

/-- Every record below a corner of a node is selected into that corner by
`DO_CORNERS` at the midpoint the node's descent reads. -/
def Leaf.Loc : Leaf → Prop
  | .payload _ _ _ => True
  | .leaf _ _ _ ul ur ll lr =>
    (∀ c ∈ ul.records, DO_CORNERS c.x c.y ul.extents.xmax ul.extents.ymax = .ul) ∧
    (∀ c ∈ ur.records, DO_CORNERS c.x c.y ul.extents.xmax ul.extents.ymax = .ur) ∧
    (∀ c ∈ ll.records, DO_CORNERS c.x c.y ul.extents.xmax ul.extents.ymax = .ll) ∧
    (∀ c ∈ lr.records, DO_CORNERS c.x c.y ul.extents.xmax ul.extents.ymax = .lr) ∧
    ul.Loc ∧ ur.Loc ∧ ll.Loc ∧ lr.Loc

/-- Quadrant selection as the specification words it. -/
def selectQuadrant (x y xmid ymid : ℚ) : Corner :=
  if x < xmid ∧ y < ymid then .ul
  else if x < xmid ∧ y ≥ ymid then .ll
  else if x ≥ xmid ∧ y < ymid then .ur
  else .lr

/-- Point location as the specification words it: from a slot, while the slot is a
Branch, select a quadrant at the node's midpoint and continue in that child. -/
def Leaf.locate (x y : ℚ) : Leaf → List Corner
  | .payload _ _ _ => []
  | .leaf _ _ _ ul ur ll lr =>
    match selectQuadrant x y ul.extents.xmax ul.extents.ymax with
    | .ul => Corner.ul :: ul.locate x y
    | .ur => Corner.ur :: ur.locate x y
    | .ll => Corner.ll :: ll.locate x y
    | .lr => Corner.lr :: lr.locate x y

/-- Depth of the node owning the slot reached along a list of corners, `d` being the
depth of the node owning the starting slot. -/
def Leaf.ownerDepth : Nat → Leaf → List Corner → Nat
  | d, _, [] => d
  | d, .payload _ _ _, _ :: _ => d
  | _, .leaf _ _ d ul ur ll lr, c :: p =>
    match c with
    | .ul => ul.ownerDepth d p
    | .ur => ur.ownerDepth d p
    | .ll => ll.ownerDepth d p
    | .lr => lr.ownerDepth d p

/-- The root node seen as the slot pointing to it, with the universe extent. -/
def QuadTree.root (qt : QuadTree) (h : Qnode) : Leaf :=
  Leaf.ofNode qt.extents 0 h

/-- The node a branch slot points to. -/
def Leaf.toNode : Leaf → Option Qnode
  | .payload _ _ _ => none
  | .leaf _ _ d ul ur ll lr => some ⟨d, ul, ur, ll, lr⟩

/-- All records stored in a tree. -/
def QuadTree.records (qt : QuadTree) : List LeafData :=
  match qt.head with
  | none => []
  | some h => (qt.root h).records

/-- One call of the public mutating interface. -/
inductive Op where
  | add (x y : ℚ) (data : Nat)
  | move (oldx oldy newx newy : ℚ) (data : Nat)
  | del (x y : ℚ) (data : Nat)
  deriving DecidableEq

/-- Perform one call. -/
def step [Midpoint] (qt : QuadTree) : Op → Option (QuadTree × Bool)
  | .add x y data => addpoint qt x y data
  | .move oldx oldy newx newy data => movepoint qt oldx oldy newx newy data
  | .del x y data => deletepoint qt x y data

/-- Perform a sequence of calls, collecting the returned flags. -/
def run [Midpoint] (qt : QuadTree) : List Op → Option (QuadTree × List Bool)
  | [] => some (qt, [])
  | op :: ops =>
    (step qt op).bind fun r =>
      (run r.1 ops).map fun r' => (r'.1, r.2 :: r'.2)

/-- The coordinates an operation stores lie in the closed extent `e`. -/
def Op.inside (e : Extent) : Op → Prop
  | .add x y _ => e.contains x y
  | .move _ _ newx newy _ => e.contains newx newy
  | .del _ _ _ => True

/-- Along a list of corners from a slot, every corner is the one `DO_CORNERS` selects
for `(x, y)` at the node passed. -/
def Leaf.follows : Leaf → List Corner → ℚ → ℚ → Prop
  | _, [], _, _ => True
  | .payload _ _ _, _ :: _, _, _ => False
  | .leaf _ _ _ ul ur ll lr, c :: p, x, y =>
    DO_CORNERS x y ul.extents.xmax ul.extents.ymax = c ∧
      match c with
      | .ul => ul.follows p x y
      | .ur => ur.follows p x y
      | .ll => ll.follows p x y
      | .lr => lr.follows p x y

/-- The slot `addleafdata` leaves behind for a bucket `(e, s, cells)` owned by a
node of depth `d`. -/
def grown [Midpoint] (maxsize maxdepth d : Nat) (e : Extent) (s : Nat) (cells : List LeafData)
    (r : LeafData) : Leaf :=
  if s + 1 ≥ maxsize ∧ d < maxdepth then splitOf e (r :: cells) (d + 1)
  else .payload e (s + 1) (r :: cells)

/-- Structural invariant of a live tree: the root is present, sizes and union tags
agree, extents are quartered, and every record sits where the descent for its own
coordinates ends. -/
def QuadTree.Inv [Midpoint] (qt : QuadTree) : Prop :=
  ∃ h, qt.head = some h ∧ (qt.root h).WF ∧ (qt.root h).Loc

/-- Every record of the tree lies in the closed extent of its bucket. -/
def QuadTree.Bounded (qt : QuadTree) : Prop :=
  ∃ h, qt.head = some h ∧ (qt.root h).Within

/-- The record update made by the loop of `movepoint` on a matching record. -/
def moved (oldx oldy newx newy : ℚ) (data : Nat) (cur : LeafData) : LeafData :=
  if data = cur.data ∧ oldx = cur.x ∧ oldy = cur.y then ⟨newx, newy, cur.data⟩ else cur

instance (e : Extent) (x y : ℚ) : Decidable (e.contains x y) :=
  inferInstanceAs (Decidable (e.xmin ≤ x ∧ x ≤ e.xmax ∧ e.ymin ≤ y ∧ y ≤ e.ymax))

instance (e : Extent) : DecidablePred (Op.inside e) := fun op =>
  match op with
  | .add x y _ => inferInstanceAs (Decidable (e.contains x y))
  | .move _ _ newx newy _ => inferInstanceAs (Decidable (e.contains newx newy))
  | .del _ _ _ => inferInstanceAs (Decidable True)

/-- Number of `addpoint` calls in a sequence of calls. -/
def addCalls : List Op → Nat
  | [] => 0
  | .add _ _ _ :: ops => addCalls ops + 1
  | .move _ _ _ _ _ :: ops => addCalls ops
  | .del _ _ _ :: ops => addCalls ops

/-- Number of `deletepoint` calls in a sequence that returned `true`, given the flags
returned by the calls. -/
def delHits : List Op → List Bool → Nat
  | .del _ _ _ :: ops, true :: res => delHits ops res + 1
  | .del _ _ _ :: ops, false :: res => delHits ops res
  | .add _ _ _ :: ops, _ :: res => delHits ops res
  | .move _ _ _ _ _ :: ops, _ :: res => delHits ops res
  | _, _ => 0

/-- The calls inserting a list of points in order. -/
def addAll (pts : List LeafData) : List Op :=
  pts.map fun p => Op.add p.x p.y p.data

/-- The root node `newtree` builds for a universe extent. -/
def freshRoot [Midpoint] (e : Extent) : Qnode :=
  { depth := 1
    ul := .payload (e.quarter .ul) 0 []
    ur := .payload (e.quarter .ur) 0 []
    ll := .payload (e.quarter .ll) 0 []
    lr := .payload (e.quarter .lr) 0 [] }

/-- A sample tree: universe `(0,0,100,100)`, `maxsize = maxdepth = 4`, one record
`(20, 20, 2)` in the root's UL bucket. -/
def sampleTree : QuadTree :=
  { head := some ((freshRoot u100).setCorner .ul
      (.payload (u100.quarter .ul) 1 [⟨20, 20, 2⟩]))
    maxsize := 4
    maxdepth := 4
    extents := u100 }

/-- Source `deleteleaf`: the records passed to the visitor (none when the visitor is
`NULL`), in call order; the recursive call is `deleteqnode` on the child node. -/
def deleteleaf (visitor : Bool) : Leaf → Option (List LeafData)
  | .payload _ size cells =>
    if size ≠ 0 then some (if visitor then cells else [])
    else if cells ≠ [] then none
    else some []
  | .leaf _ size _ ul ur ll lr =>
    if size ≠ 0 then none
    else
      (deleteleaf visitor ul).bind fun a =>
      (deleteleaf visitor ur).bind fun b =>
      (deleteleaf visitor ll).bind fun c =>
      (deleteleaf visitor lr).bind fun d => some (a ++ b ++ c ++ d)

/-- Source `deleteqnode`. -/
def deleteqnode (visitor : Bool) (node : Qnode) : Option (List LeafData) :=
  (deleteleaf visitor node.ul).bind fun a =>
  (deleteleaf visitor node.ur).bind fun b =>
  (deleteleaf visitor node.ll).bind fun c =>
  (deleteleaf visitor node.lr).bind fun d => some (a ++ b ++ c ++ d)

/-- Source `deletetree`: the tree left behind and the records the visitor was called
on. -/
def deletetree (qt : QuadTree) (visitor : Bool) : Option (QuadTree × List LeafData) :=
  match qt.head with
  | none => none
  | some h => (deleteqnode visitor h).map fun vis => ({ qt with head := none }, vis)

/-- The test `contents.leaf` (equally `contents.payload`): the union holds a
non-null pointer. -/
def Leaf.contentsNonNull : Leaf → Bool
  | .payload _ _ cells => !cells.isEmpty
  | .leaf _ _ _ _ _ _ _ => true

/-- The source's Branch test `size == 0 && contents.leaf`. -/
def Leaf.branchTest (l : Leaf) : Bool :=
  decide (l.size = 0) && l.contentsNonNull

/-- The slot is a Branch: its union holds a child node. -/
def Leaf.isBranch : Leaf → Bool
  | .payload _ _ _ => false
  | .leaf _ _ _ _ _ _ _ => true

/-- The shape of a slot: kinds, extents and node depths, with sizes and records
forgotten. -/
def Leaf.skeleton : Leaf → Leaf
  | .payload e _ _ => .payload e 0 []
  | .leaf e _ d ul ur ll lr => .leaf e 0 d ul.skeleton ur.skeleton ll.skeleton lr.skeleton

/-- The second slot continues the first: extents are kept, a Branch stays a Branch to
a node of the same depth whose slots continue the old ones; a bucket may have become
a Branch. -/
def Leaf.Grows : Leaf → Leaf → Prop
  | .payload e _ _, l' => l'.extents = e
  | .leaf _ _ _ _ _ _ _, .payload _ _ _ => False
  | .leaf e _ d ul ur ll lr, .leaf e' _ d' ul' ur' ll' lr' =>
    e' = e ∧ d' = d ∧ ul.Grows ul' ∧ ur.Grows ur' ∧ ll.Grows ll' ∧ lr.Grows lr'

/-- Depth discipline below a slot owned by a node of depth `d`: the child node of a
Branch has depth `d + 1`, which is at most `maxdepth`. -/
def Leaf.DepthOK (maxdepth : Nat) : Nat → Leaf → Prop
  | _, .payload _ _ _ => True
  | d, .leaf _ _ d' ul ur ll lr =>
    d' = d + 1 ∧ d' ≤ maxdepth ∧ ul.DepthOK maxdepth d' ∧ ur.DepthOK maxdepth d' ∧
      ll.DepthOK maxdepth d' ∧ lr.DepthOK maxdepth d'

/-- The two elementary mutations every call is made of: a store of a new chain into
a bucket, and `addleafdata` on a bucket. -/
inductive Mut [Midpoint] : QuadTree → QuadTree → Prop where
  | bucket (qt : QuadTree) (h : Qnode) (c : Corner) (p : List Corner) (e : Extent) (s : Nat)
      (cells cells' : List LeafData) :
      qt.head = some h → (qt.root h).sub (c :: p) = some (.payload e s cells) →
      Mut qt { qt with head := some (h.setLeafAt (c :: p) (.payload e cells'.length cells')) }
  | grow (qt : QuadTree) (h : Qnode) (c : Corner) (p : List Corner) (e : Extent) (s : Nat)
      (cells : List LeafData) (r : LeafData) :
      qt.head = some h → (qt.root h).sub (c :: p) = some (.payload e s cells) →
      Mut qt { qt with head := some (h.setLeafAt (c :: p)
        (grown qt.maxsize qt.maxdepth ((qt.root h).ownerDepth 0 (c :: p)) e s cells r)) }

/-- The tree of the worked scenario after `addpoint(10,10,1)` and `addpoint(20,20,2)`
with `maxsize = 2`, `maxdepth = 4`. -/
def scenarioAB : QuadTree :=
  { head := some ((freshRoot u100).setCorner .ul
      (.leaf ⟨0, 0, 50, 50⟩ 0 2
        (.payload ⟨0, 0, 25, 25⟩ 2 [⟨10, 10, 1⟩, ⟨20, 20, 2⟩])
        (.payload ⟨25, 0, 50, 25⟩ 0 [])
        (.payload ⟨0, 25, 25, 50⟩ 0 [])
        (.payload ⟨25, 25, 50, 50⟩ 0 [])))
    maxsize := 2
    maxdepth := 4
    extents := u100 }

/-- The scenario tree after `deletepoint(10,10,1)`. -/
def scenarioB : QuadTree :=
  { head := some ((freshRoot u100).setCorner .ul
      (.leaf ⟨0, 0, 50, 50⟩ 0 2
        (.payload ⟨0, 0, 25, 25⟩ 1 [⟨20, 20, 2⟩])
        (.payload ⟨25, 0, 50, 25⟩ 0 [])
        (.payload ⟨0, 25, 25, 50⟩ 0 [])
        (.payload ⟨25, 25, 50, 50⟩ 0 [])))
    maxsize := 2
    maxdepth := 4
    extents := u100 }

/-- The scenario tree after `movepoint(20,20,60,60,2)`. -/
def scenarioMoved : QuadTree :=
  { head := some
      { depth := 1
        ul := .leaf ⟨0, 0, 50, 50⟩ 0 2
          (.payload ⟨0, 0, 25, 25⟩ 0 [])
          (.payload ⟨25, 0, 50, 25⟩ 0 [])
          (.payload ⟨0, 25, 25, 50⟩ 0 [])
          (.payload ⟨25, 25, 50, 50⟩ 0 [])
        ur := .payload ⟨50, 0, 100, 50⟩ 0 []
        ll := .payload ⟨0, 50, 50, 100⟩ 0 []
        lr := .payload ⟨50, 50, 100, 100⟩ 1 [⟨60, 60, 2⟩] }
    maxsize := 2
    maxdepth := 4
    extents := u100 }

/-- Depth discipline of a tree: the root node has depth 1 and the nodes below obey
`Leaf.DepthOK` with bound `max maxdepth 1`. -/
def QuadTree.DepthInv (qt : QuadTree) : Prop :=
  ∃ h, qt.head = some h ∧ (qt.root h).DepthOK (max qt.maxdepth 1) 0

/-- The scenario tree after both records have been deleted. -/
def scenarioEmptied : QuadTree :=
  { head := some ((freshRoot u100).setCorner .ul
      (.leaf ⟨0, 0, 50, 50⟩ 0 2
        (.payload ⟨0, 0, 25, 25⟩ 0 [])
        (.payload ⟨25, 0, 50, 25⟩ 0 [])
        (.payload ⟨0, 25, 25, 50⟩ 0 [])
        (.payload ⟨25, 25, 50, 50⟩ 0 [])))
    maxsize := 2
    maxdepth := 4
    extents := u100 }

/-- The four slots quarter the extent `ext` at its midpoint
`(xmin + (xmax - xmin)/2, ymin + (ymax - ymin)/2)`. -/
def Quartered (ext : Extent) (ul ur ll lr : Leaf) : Prop :=
  ul.extents = ⟨ext.xmin, ext.ymin, ext.xmin + (ext.xmax - ext.xmin) / 2,
    ext.ymin + (ext.ymax - ext.ymin) / 2⟩ ∧
  ur.extents = ⟨ext.xmin + (ext.xmax - ext.xmin) / 2, ext.ymin, ext.xmax,
    ext.ymin + (ext.ymax - ext.ymin) / 2⟩ ∧
  ll.extents = ⟨ext.xmin, ext.ymin + (ext.ymax - ext.ymin) / 2,
    ext.xmin + (ext.xmax - ext.xmin) / 2, ext.ymax⟩ ∧
  lr.extents = ⟨ext.xmin + (ext.xmax - ext.xmin) / 2,
    ext.ymin + (ext.ymax - ext.ymin) / 2, ext.xmax, ext.ymax⟩

/-- The tree after `addpoint(-10,-10,1)` on the fresh scenario universe. -/
def outsideTree : QuadTree :=
  { head := some ((freshRoot u100).setCorner .ul
      (.payload ⟨0, 0, 50, 50⟩ 1 [⟨-10, -10, 1⟩]))
    maxsize := 2
    maxdepth := 4
    extents := u100 }

/-- The tree after `addpoint(50,50,7)` on the fresh scenario universe: the point lies
on both midlines of the root node. -/
def boundaryTree : QuadTree :=
  { head := some ((freshRoot u100).setCorner .lr
      (.payload ⟨50, 50, 100, 100⟩ 1 [⟨50, 50, 7⟩]))
    maxsize := 2
    maxdepth := 4
    extents := u100 }

/-- The structural part of `QuadTree.Inv`: the root is present, sizes and union tags
agree, and the four slots of every node have the extents `Extent.quarter` builds from
the extent of the slot pointing to the node. -/
def QuadTree.Live [Midpoint] (qt : QuadTree) : Prop :=
  ∃ h, qt.head = some h ∧ (qt.root h).WF

/-- Records of the buckets the traversal of `FIND_IN_CORNER` reaches from a slot for
the query box `box`: a slot is entered when its extent overlaps the box. -/
def Leaf.seen (box : Extent) : Leaf → List LeafData
  | .payload e _ cells => if overlap e box then cells else []
  | .leaf e _ _ ul ur ll lr =>
    if overlap e box then ul.seen box ++ ur.seen box ++ ll.seen box ++ lr.seen box
    else []

/-- Records of the buckets `maptonearbyx` reaches from a node for the query box. -/
def Qnode.seen (box : Extent) (node : Qnode) : List LeafData :=
  node.ul.seen box ++ node.ur.seen box ++ node.ll.seen box ++ node.lr.seen box

/-- The four slots cut the extent `ext` at the point `(xm, ym)`. -/
def QuarteredAt (xm ym : ℚ) (ext : Extent) (ul ur ll lr : Leaf) : Prop :=
  ul.extents = ⟨ext.xmin, ext.ymin, xm, ym⟩ ∧ ur.extents = ⟨xm, ext.ymin, ext.xmax, ym⟩ ∧
  ll.extents = ⟨ext.xmin, ym, xm, ext.ymax⟩ ∧ lr.extents = ⟨xm, ym, ext.xmax, ext.ymax⟩

/-- The tree with universe `(0,0,4,4)`, `maxsize = 2`, `maxdepth = 4` after
`addpoint(1,1,7)`. -/
def roundedQueryTree : QuadTree :=
  { head := some
      { depth := 1
        ul := .payload ⟨0, 0, 2, 2⟩ 1 [⟨1, 1, 7⟩]
        ur := .payload ⟨2, 0, 4, 2⟩ 0 []
        ll := .payload ⟨0, 2, 2, 4⟩ 0 []
        lr := .payload ⟨2, 2, 4, 4⟩ 0 [] }
    maxsize := 2
    maxdepth := 4
    extents := ⟨0, 0, 4, 4⟩ }

/-- The extent between the adjacent `float` values `1` and `1 + 2^-23` on both axes. -/
def adjacentExtent : Extent := ⟨1, 1, 1 + 1 / 8388608, 1 + 1 / 8388608⟩

/-- The universe `(1, 1, 1 + 2^-22, 1 + 2^-22)`; its UL quadrant is `adjacentExtent`. -/
def narrowUniverse : Extent := ⟨1, 1, 1 + 1 / 4194304, 1 + 1 / 4194304⟩

/-- The tree with universe `narrowUniverse`, `maxsize = 1`, `maxdepth = 4` after
`addpoint(1,1,5)` in binary32: the root's UL slot has been split at `(1, 1)`. -/
def narrowSplitTree : QuadTree :=
  { head := some
      { depth := 1
        ul := .leaf adjacentExtent 0 2
          (.payload ⟨1, 1, 1, 1⟩ 0 [])
          (.payload ⟨1, 1, 1 + 1 / 8388608, 1⟩ 0 [])
          (.payload ⟨1, 1, 1, 1 + 1 / 8388608⟩ 0 [])
          (.payload ⟨1, 1, 1 + 1 / 8388608, 1 + 1 / 8388608⟩ 1 [⟨1, 1, 5⟩])
        ur := .payload ⟨1 + 1 / 8388608, 1, 1 + 1 / 4194304, 1 + 1 / 8388608⟩ 0 []
        ll := .payload ⟨1, 1 + 1 / 8388608, 1 + 1 / 8388608, 1 + 1 / 4194304⟩ 0 []
        lr := .payload ⟨1 + 1 / 8388608, 1 + 1 / 8388608, 1 + 1 / 4194304,
          1 + 1 / 4194304⟩ 0 [] }
    maxsize := 1
    maxdepth := 4
    extents := narrowUniverse }

/-- The tree with universe `(-100,-100,100,100)`, `maxsize = maxdepth = 4` after
`addpoint(0,10,1)`: the record is in the root's LR bucket `(0,0,100,100)`. -/
def underflowBefore : QuadTree :=
  { head := some
      { depth := 1
        ul := .payload ⟨-100, -100, 0, 0⟩ 0 []
        ur := .payload ⟨0, -100, 100, 0⟩ 0 []
        ll := .payload ⟨-100, 0, 0, 100⟩ 0 []
        lr := .payload ⟨0, 0, 100, 100⟩ 1 [⟨0, 10, 1⟩] }
    maxsize := 4
    maxdepth := 4
    extents := ⟨-100, -100, 100, 100⟩ }

/-- The tree `underflowBefore` after `movepoint(0, 10, -2^-100, 10, 1)`: the record
has gone to the root's LL bucket `(-100,0,0,100)`. -/
def underflowAfter : QuadTree :=
  { head := some
      { depth := 1
        ul := .payload ⟨-100, -100, 0, 0⟩ 0 []
        ur := .payload ⟨0, -100, 100, 0⟩ 0 []
        ll := .payload ⟨-100, 0, 0, 100⟩ 1 [⟨-(1 / 2 ^ 100), 10, 1⟩]
        lr := .payload ⟨0, 0, 100, 100⟩ 0 [] }
    maxsize := 4
    maxdepth := 4
    extents := ⟨-100, -100, 100, 100⟩ }

/-! ## Basic facts -/

theorem selectQuadrant_eq (x y xmid ymid : ℚ) :
    selectQuadrant x y xmid ymid = DO_CORNERS x y xmid ymid := by
  unfold selectQuadrant DO_CORNERS
  by_cases hx : x < xmid <;> by_cases hy : y < ymid <;> simp [hx, hy, not_lt.mp]

theorem pushloop_eq (xm ym : ℚ) (cells : List LeafData) :
    ∀ (d : Nat) (e1 e2 e3 e4 : Extent) (s1 s2 s3 s4 : Nat) (l1 l2 l3 l4 : List LeafData),
    pushloop xm ym cells ⟨d, .payload e1 s1 l1, .payload e2 s2 l2, .payload e3 s3 l3,
        .payload e4 s4 l4⟩ =
      some ⟨d,
        .payload e1 (s1 + (routed xm ym .ul cells).length)
          ((routed xm ym .ul cells).reverse ++ l1),
        .payload e2 (s2 + (routed xm ym .ur cells).length)
          ((routed xm ym .ur cells).reverse ++ l2),
        .payload e3 (s3 + (routed xm ym .ll cells).length)
          ((routed xm ym .ll cells).reverse ++ l3),
        .payload e4 (s4 + (routed xm ym .lr cells).length)
          ((routed xm ym .lr cells).reverse ++ l4)⟩ := by
  induction cells with
  | nil => intros; simp [pushloop, routed]
  | cons cur next ih =>
    intro d e1 e2 e3 e4 s1 s2 s3 s4 l1 l2 l3 l4
    cases hc : DO_CORNERS cur.x cur.y xm ym <;>
      simp [pushloop, hc, MOVE_CORNER, ih, routed, List.filter_cons] <;> omega

theorem leafpushdown_eq [Midpoint] (e : Extent) (s : Nat) (cells : List LeafData) (depth : Nat) :
    leafpushdown (.payload e s cells) depth = some (splitOf e cells depth) := by
  simp [leafpushdown, pushloop_eq, Leaf.ofNode, splitOf, Extent.quarter]

theorem locate_payload (x y : ℚ) (l : Leaf) :
    ∃ e s cells, l.sub (l.locate x y) = some (.payload e s cells) := by
  induction l with
  | payload e s cells => exact ⟨e, s, cells, rfl⟩
  | leaf e s d ul ur ll lr h1 h2 h3 h4 =>
    unfold Leaf.locate
    cases selectQuadrant x y ul.extents.xmax ul.extents.ymax <;> simpa [Leaf.sub]

theorem FIND_CORNER_eq [Midpoint] (x y : ℚ) (l : Leaf) (h : l.WF) :
    FIND_CORNER x y l = some (l.locate x y) := by
  induction l with
  | payload e s cells =>
    simp only [Leaf.WF] at h
    simp [FIND_CORNER, Leaf.locate, h]
  | leaf e s d ul ur ll lr h1 h2 h3 h4 =>
    obtain ⟨hs, -, -, -, -, w1, w2, w3, w4⟩ := h
    simp only [FIND_CORNER, hs, if_true, Leaf.locate, selectQuadrant_eq]
    cases DO_CORNERS x y ul.extents.xmax ul.extents.ymax <;> simp [h1 w1, h2 w2, h3 w3, h4 w4]


/-! ## Stores through a slot pointer -/

theorem extents_setSub (v : Leaf) : ∀ (p : List Corner) (l b : Leaf),
    l.sub p = some b → v.extents = b.extents → (l.setSub p v).extents = l.extents := by
  intro p l b hb hv
  cases p with
  | nil => simp [Leaf.sub] at hb; subst hb; simpa [Leaf.setSub] using hv
  | cons c p =>
    cases l with
    | payload e s cells => simp [Leaf.sub] at hb
    | leaf e s d ul ur ll lr => cases c <;> simp [Leaf.setSub, Leaf.extents]

theorem WF_setSub [Midpoint] (v : Leaf) (hv : v.WF) : ∀ (p : List Corner) (l b : Leaf),
    l.sub p = some b → v.extents = b.extents → l.WF → (l.setSub p v).WF := by
  intro p
  induction p with
  | nil => intro l b _ _ _; simpa [Leaf.setSub] using hv
  | cons c p ih =>
    intro l b hb he hl
    cases l with
    | payload e s cells => simp [Leaf.sub] at hb
    | leaf e s d ul ur ll lr =>
      obtain ⟨hs, e1, e2, e3, e4, w1, w2, w3, w4⟩ := hl
      cases c <;> simp only [Leaf.sub] at hb <;> simp only [Leaf.setSub, Leaf.WF]
      · exact ⟨hs, by rw [extents_setSub v p ul b hb he]; exact e1, e2, e3, e4,
          ih ul b hb he w1, w2, w3, w4⟩
      · exact ⟨hs, e1, by rw [extents_setSub v p ur b hb he]; exact e2, e3, e4,
          w1, ih ur b hb he w2, w3, w4⟩
      · exact ⟨hs, e1, e2, by rw [extents_setSub v p ll b hb he]; exact e3, e4,
          w1, w2, ih ll b hb he w3, w4⟩
      · exact ⟨hs, e1, e2, e3, by rw [extents_setSub v p lr b hb he]; exact e4,
          w1, w2, w3, ih lr b hb he w4⟩

theorem sub_setSub (v : Leaf) : ∀ (p : List Corner) (l b : Leaf),
    l.sub p = some b → (l.setSub p v).sub p = some v := by
  intro p
  induction p with
  | nil => intro l b _; simp [Leaf.setSub, Leaf.sub]
  | cons c p ih =>
    intro l b hb
    cases l with
    | payload e s cells => simp [Leaf.sub] at hb
    | leaf e s d ul ur ll lr =>
      cases c <;> simp only [Leaf.sub] at hb <;> simp only [Leaf.setSub, Leaf.sub] <;>
        exact ih _ b hb

theorem records_setSub : ∀ (p : List Corner) (l b : Leaf), l.sub p = some b →
    ∃ pre post, l.records = pre ++ b.records ++ post ∧
      ∀ v : Leaf, (l.setSub p v).records = pre ++ v.records ++ post := by
  intro p
  induction p with
  | nil =>
    intro l b hb
    simp [Leaf.sub] at hb; subst hb
    exact ⟨[], [], by simp, fun v => by simp [Leaf.setSub]⟩
  | cons c p ih =>
    intro l b hb
    cases l with
    | payload e s cells => simp [Leaf.sub] at hb
    | leaf e s d ul ur ll lr =>
      cases c <;> simp only [Leaf.sub] at hb <;> obtain ⟨pre, post, h1, h2⟩ := ih _ b hb
      · exact ⟨pre, post ++ ur.records ++ ll.records ++ lr.records,
          by simp [Leaf.records, h1], fun v => by simp [Leaf.setSub, Leaf.records, h2]⟩
      · exact ⟨ul.records ++ pre, post ++ ll.records ++ lr.records,
          by simp [Leaf.records, h1], fun v => by simp [Leaf.setSub, Leaf.records, h2]⟩
      · exact ⟨ul.records ++ ur.records ++ pre, post ++ lr.records,
          by simp [Leaf.records, h1], fun v => by simp [Leaf.setSub, Leaf.records, h2]⟩
      · exact ⟨ul.records ++ ur.records ++ ll.records ++ pre, post,
          by simp [Leaf.records, h1], fun v => by simp [Leaf.setSub, Leaf.records, h2]⟩

theorem Within_setSub (v : Leaf) (hv : v.Within) : ∀ (p : List Corner) (l : Leaf),
    l.Within → (l.setSub p v).Within := by
  intro p
  induction p with
  | nil => intro l _; simpa [Leaf.setSub] using hv
  | cons c p ih =>
    intro l hl
    cases l with
    | payload e s cells => simpa [Leaf.setSub] using hl
    | leaf e s d ul ur ll lr =>
      obtain ⟨w1, w2, w3, w4⟩ := hl
      cases c <;> simp only [Leaf.setSub, Leaf.Within]
      · exact ⟨ih ul w1, w2, w3, w4⟩
      · exact ⟨w1, ih ur w2, w3, w4⟩
      · exact ⟨w1, w2, ih ll w3, w4⟩
      · exact ⟨w1, w2, w3, ih lr w4⟩

theorem mem_records_sub : ∀ (p : List Corner) (l b : Leaf), l.sub p = some b →
    ∀ c ∈ b.records, c ∈ l.records := by
  intro p l b hb c hc
  obtain ⟨pre, post, h1, -⟩ := records_setSub p l b hb
  rw [h1]; simp [hc]

theorem follows_of_Loc : ∀ (p : List Corner) (l b : Leaf), l.sub p = some b → l.Loc →
    ∀ c ∈ b.records, l.follows p c.x c.y := by
  intro p
  induction p with
  | nil => intro l b _ _ c _; simp [Leaf.follows]
  | cons k p ih =>
    intro l b hb hl c hc
    cases l with
    | payload e s cells => simp [Leaf.sub] at hb
    | leaf e s d ul ur ll lr =>
      obtain ⟨r1, r2, r3, r4, w1, w2, w3, w4⟩ := hl
      cases k <;> simp only [Leaf.sub] at hb <;> simp only [Leaf.follows]
      · exact ⟨r1 c (mem_records_sub p _ b hb c hc), ih _ b hb w1 c hc⟩
      · exact ⟨r2 c (mem_records_sub p _ b hb c hc), ih _ b hb w2 c hc⟩
      · exact ⟨r3 c (mem_records_sub p _ b hb c hc), ih _ b hb w3 c hc⟩
      · exact ⟨r4 c (mem_records_sub p _ b hb c hc), ih _ b hb w4 c hc⟩

theorem Loc_setSub (v : Leaf) (hv : v.Loc) : ∀ (p : List Corner) (l b : Leaf),
    l.sub p = some b → v.extents = b.extents → l.Loc →
    (∀ c ∈ v.records, l.follows p c.x c.y) → (l.setSub p v).Loc := by
  intro p
  induction p with
  | nil => intro l b _ _ _ _; simpa [Leaf.setSub] using hv
  | cons k p ih =>
    intro l b hb he hl hf
    cases l with
    | payload e s cells => simp [Leaf.sub] at hb
    | leaf e s d ul ur ll lr =>
      obtain ⟨r1, r2, r3, r4, w1, w2, w3, w4⟩ := hl
      cases k <;> simp only [Leaf.sub] at hb <;> simp only [Leaf.follows] at hf <;>
        simp only [Leaf.setSub, Leaf.Loc] <;>
        obtain ⟨pre, post, h1, h2⟩ := records_setSub p _ b hb
      · rw [extents_setSub v p ul b hb he]
        refine ⟨?_, r2, r3, r4, ih _ b hb he w1 fun c hc => (hf c hc).2, w2, w3, w4⟩
        intro c hc
        rw [h2 v] at hc
        simp only [List.mem_append] at hc
        rcases hc with (hc | hc) | hc
        · exact r1 c (by rw [h1]; simp [hc])
        · exact (hf c hc).1
        · exact r1 c (by rw [h1]; simp [hc])
      · refine ⟨r1, ?_, r3, r4, w1, ih _ b hb he w2 fun c hc => (hf c hc).2, w3, w4⟩
        intro c hc
        rw [h2 v] at hc
        simp only [List.mem_append] at hc
        rcases hc with (hc | hc) | hc
        · exact r2 c (by rw [h1]; simp [hc])
        · exact (hf c hc).1
        · exact r2 c (by rw [h1]; simp [hc])
      · refine ⟨r1, r2, ?_, r4, w1, w2, ih _ b hb he w3 fun c hc => (hf c hc).2, w4⟩
        intro c hc
        rw [h2 v] at hc
        simp only [List.mem_append] at hc
        rcases hc with (hc | hc) | hc
        · exact r3 c (by rw [h1]; simp [hc])
        · exact (hf c hc).1
        · exact r3 c (by rw [h1]; simp [hc])
      · refine ⟨r1, r2, r3, ?_, w1, w2, w3, ih _ b hb he w4 fun c hc => (hf c hc).2⟩
        intro c hc
        rw [h2 v] at hc
        simp only [List.mem_append] at hc
        rcases hc with (hc | hc) | hc
        · exact r4 c (by rw [h1]; simp [hc])
        · exact (hf c hc).1
        · exact r4 c (by rw [h1]; simp [hc])

/-! ## Descent paths -/

theorem follows_locate (x y : ℚ) (l : Leaf) : l.follows (l.locate x y) x y := by
  induction l with
  | payload e s cells => simp [Leaf.locate, Leaf.follows]
  | leaf e s d ul ur ll lr h1 h2 h3 h4 =>
    unfold Leaf.locate
    cases hc : selectQuadrant x y ul.extents.xmax ul.extents.ymax <;>
      simp only [Leaf.follows] <;> rw [selectQuadrant_eq] at hc
    · exact ⟨hc, h1⟩
    · exact ⟨hc, h2⟩
    · exact ⟨hc, h3⟩
    · exact ⟨hc, h4⟩

theorem locate_of_follows (x y : ℚ) : ∀ (p : List Corner) (l : Leaf) (e : Extent) (s : Nat)
    (cells : List LeafData), l.sub p = some (.payload e s cells) → l.follows p x y →
    l.locate x y = p := by
  intro p
  induction p with
  | nil =>
    intro l e s cells hb _
    simp [Leaf.sub] at hb; subst hb; rfl
  | cons k p ih =>
    intro l e s cells hb hf
    cases l with
    | payload e s cells => simp [Leaf.sub] at hb
    | leaf e' s' d ul ur ll lr =>
      simp only [Leaf.follows] at hf
      obtain ⟨hk, hf⟩ := hf
      unfold Leaf.locate
      rw [selectQuadrant_eq, hk]
      cases k <;> simp only [Leaf.sub] at hb <;> simp only [List.cons.injEq, true_and] <;>
        exact ih _ e s cells hb hf

theorem halfway_exact (a b : ℚ) : halfway a b = a + (b - a) / 2 := rfl

theorem halfway_lt_iff (a b : ℚ) : a < halfway a b ↔ a < b := by
  rw [halfway_exact]; constructor <;> intro h <;> linarith

theorem halfway_lt_iff_right (a b : ℚ) : halfway a b < b ↔ a < b := by
  rw [halfway_exact]; constructor <;> intro h <;> linarith

theorem halfway_le_iff (a b : ℚ) : a ≤ halfway a b ↔ a ≤ b := by
  rw [halfway_exact]; constructor <;> intro h <;> linarith

theorem halfway_le_iff_right (a b : ℚ) : halfway a b ≤ b ↔ a ≤ b := by
  rw [halfway_exact]; constructor <;> intro h <;> linarith

theorem pointinside_iff (x y : ℚ) (e : Extent) :
    pointinside x y e = true ↔ e.xmin < x ∧ x < e.xmax ∧ e.ymin < y ∧ y < e.ymax := by
  simp [pointinside, and_assoc]

theorem inside_quarter (x y : ℚ) (e : Extent) (k : Corner)
    (h : pointinside x y (e.quarter k) = true) :
    pointinside x y e = true ∧
      DO_CORNERS x y (halfway e.xmin e.xmax) (halfway e.ymin e.ymax) = k := by
  rw [pointinside_iff] at h
  rw [pointinside_iff]
  cases k <;> simp only [Extent.quarter] at h <;> obtain ⟨h1, h2, h3, h4⟩ := h
  · have hx := (halfway_lt_iff e.xmin e.xmax).mp (lt_trans h1 h2)
    have hy := (halfway_lt_iff e.ymin e.ymax).mp (lt_trans h3 h4)
    have hx' := (halfway_lt_iff_right e.xmin e.xmax).mpr hx
    have hy' := (halfway_lt_iff_right e.ymin e.ymax).mpr hy
    exact ⟨⟨h1, by linarith, h3, by linarith⟩, by simp [DO_CORNERS, h2, h4]⟩
  · have hx := (halfway_lt_iff_right e.xmin e.xmax).mp (lt_trans h1 h2)
    have hy := (halfway_lt_iff e.ymin e.ymax).mp (lt_trans h3 h4)
    have hx' := (halfway_lt_iff e.xmin e.xmax).mpr hx
    have hy' := (halfway_lt_iff_right e.ymin e.ymax).mpr hy
    exact ⟨⟨by linarith, h2, h3, by linarith⟩, by simp [DO_CORNERS, not_lt.mpr h1.le, h4]⟩
  · have hx := (halfway_lt_iff e.xmin e.xmax).mp (lt_trans h1 h2)
    have hy := (halfway_lt_iff_right e.ymin e.ymax).mp (lt_trans h3 h4)
    have hx' := (halfway_lt_iff_right e.xmin e.xmax).mpr hx
    have hy' := (halfway_lt_iff e.ymin e.ymax).mpr hy
    exact ⟨⟨h1, by linarith, by linarith, h4⟩, by simp [DO_CORNERS, h2, not_lt.mpr h3.le]⟩
  · have hx := (halfway_lt_iff_right e.xmin e.xmax).mp (lt_trans h1 h2)
    have hy := (halfway_lt_iff_right e.ymin e.ymax).mp (lt_trans h3 h4)
    have hx' := (halfway_lt_iff e.xmin e.xmax).mpr hx
    have hy' := (halfway_lt_iff e.ymin e.ymax).mpr hy
    exact ⟨⟨by linarith, h2, by linarith, h4⟩,
      by simp [DO_CORNERS, not_lt.mpr h1.le, not_lt.mpr h3.le]⟩

theorem contains_quarter (x y : ℚ) (e : Extent) (k : Corner)
    (h : (e.quarter k).contains x y) : e.contains x y := by
  unfold Extent.contains at *
  cases k <;> simp only [Extent.quarter] at h <;> obtain ⟨h1, h2, h3, h4⟩ := h
  · have hx := (halfway_le_iff e.xmin e.xmax).mp (le_trans h1 h2)
    have hy := (halfway_le_iff e.ymin e.ymax).mp (le_trans h3 h4)
    have hx' := (halfway_le_iff_right e.xmin e.xmax).mpr hx
    have hy' := (halfway_le_iff_right e.ymin e.ymax).mpr hy
    exact ⟨h1, by linarith, h3, by linarith⟩
  · have hx := (halfway_le_iff_right e.xmin e.xmax).mp (le_trans h1 h2)
    have hy := (halfway_le_iff e.ymin e.ymax).mp (le_trans h3 h4)
    have hx' := (halfway_le_iff e.xmin e.xmax).mpr hx
    have hy' := (halfway_le_iff_right e.ymin e.ymax).mpr hy
    exact ⟨by linarith, h2, h3, by linarith⟩
  · have hx := (halfway_le_iff e.xmin e.xmax).mp (le_trans h1 h2)
    have hy := (halfway_le_iff_right e.ymin e.ymax).mp (le_trans h3 h4)
    have hx' := (halfway_le_iff_right e.xmin e.xmax).mpr hx
    have hy' := (halfway_le_iff e.ymin e.ymax).mpr hy
    exact ⟨h1, by linarith, by linarith, h4⟩
  · have hx := (halfway_le_iff_right e.xmin e.xmax).mp (le_trans h1 h2)
    have hy := (halfway_le_iff_right e.ymin e.ymax).mp (le_trans h3 h4)
    have hx' := (halfway_le_iff e.xmin e.xmax).mpr hx
    have hy' := (halfway_le_iff e.ymin e.ymax).mpr hy
    exact ⟨by linarith, h2, by linarith, h4⟩

theorem quarter_of_contains [Midpoint] (x y : ℚ) (e : Extent) (h : e.contains x y) :
    (e.quarter (DO_CORNERS x y (halfway e.xmin e.xmax) (halfway e.ymin e.ymax))).contains
      x y := by
  obtain ⟨h1, h2, h3, h4⟩ := h
  unfold DO_CORNERS
  by_cases hx : x < halfway e.xmin e.xmax <;> by_cases hy : y < halfway e.ymin e.ymax <;>
    simp only [hx, hy, if_true, if_false, Extent.quarter, Extent.contains]
  · exact ⟨h1, hx.le, h3, hy.le⟩
  · exact ⟨h1, hx.le, not_lt.mp hy, h4⟩
  · exact ⟨not_lt.mp hx, h2, h3, hy.le⟩
  · exact ⟨not_lt.mp hx, h2, not_lt.mp hy, h4⟩

theorem follows_of_inside (x y : ℚ) : ∀ (p : List Corner) (l b : Leaf), l.sub p = some b →
    l.WF → pointinside x y b.extents = true →
    l.follows p x y ∧ pointinside x y l.extents = true := by
  intro p
  induction p with
  | nil =>
    intro l b hb _ hi
    simp [Leaf.sub] at hb; subst hb
    exact ⟨by simp [Leaf.follows], hi⟩
  | cons k p ih =>
    intro l b hb hl hi
    cases l with
    | payload e s cells => simp [Leaf.sub] at hb
    | leaf e s d ul ur ll lr =>
      obtain ⟨hs, e1, e2, e3, e4, w1, w2, w3, w4⟩ := hl
      have hmx : ul.extents.xmax = halfway e.xmin e.xmax := by rw [e1]; rfl
      have hmy : ul.extents.ymax = halfway e.ymin e.ymax := by rw [e1]; rfl
      cases k <;> simp only [Leaf.sub] at hb <;> simp only [Leaf.follows]
      · obtain ⟨f, i⟩ := ih _ b hb w1 hi
        rw [e1] at i; obtain ⟨i1, i2⟩ := inside_quarter x y e _ i
        exact ⟨⟨by rw [hmx, hmy]; exact i2, f⟩, i1⟩
      · obtain ⟨f, i⟩ := ih _ b hb w2 hi
        rw [e2] at i; obtain ⟨i1, i2⟩ := inside_quarter x y e _ i
        exact ⟨⟨by rw [hmx, hmy]; exact i2, f⟩, i1⟩
      · obtain ⟨f, i⟩ := ih _ b hb w3 hi
        rw [e3] at i; obtain ⟨i1, i2⟩ := inside_quarter x y e _ i
        exact ⟨⟨by rw [hmx, hmy]; exact i2, f⟩, i1⟩
      · obtain ⟨f, i⟩ := ih _ b hb w4 hi
        rw [e4] at i; obtain ⟨i1, i2⟩ := inside_quarter x y e _ i
        exact ⟨⟨by rw [hmx, hmy]; exact i2, f⟩, i1⟩

theorem contains_of_Within : ∀ (l : Leaf), l.WF → l.Within →
    ∀ c ∈ l.records, l.extents.contains c.x c.y := by
  intro l
  induction l with
  | payload e s cells => intro _ hw c hc; exact hw c hc
  | leaf e s d ul ur ll lr h1 h2 h3 h4 =>
    intro hl hw c hc
    obtain ⟨hs, e1, e2, e3, e4, w1, w2, w3, w4⟩ := hl
    obtain ⟨i1, i2, i3, i4⟩ := hw
    simp only [Leaf.records, List.mem_append] at hc
    simp only [Leaf.extents]
    rcases hc with ((hc | hc) | hc) | hc
    · have := h1 w1 i1 c hc; rw [e1] at this; exact contains_quarter _ _ _ _ this
    · have := h2 w2 i2 c hc; rw [e2] at this; exact contains_quarter _ _ _ _ this
    · have := h3 w3 i3 c hc; rw [e3] at this; exact contains_quarter _ _ _ _ this
    · have := h4 w4 i4 c hc; rw [e4] at this; exact contains_quarter _ _ _ _ this

theorem contains_locate [Midpoint] (x y : ℚ) : ∀ (l b : Leaf), l.WF → l.extents.contains x y →
    l.sub (l.locate x y) = some b → b.extents.contains x y := by
  intro l
  induction l with
  | payload e s cells =>
    intro b _ hc hb
    simp [Leaf.locate, Leaf.sub] at hb; subst hb; exact hc
  | leaf e s d ul ur ll lr h1 h2 h3 h4 =>
    intro b hl hc hb
    obtain ⟨hs, e1, e2, e3, e4, w1, w2, w3, w4⟩ := hl
    have hmx : ul.extents.xmax = halfway e.xmin e.xmax := by rw [e1]; rfl
    have hmy : ul.extents.ymax = halfway e.ymin e.ymax := by rw [e1]; rfl
    have hq := quarter_of_contains x y e hc
    unfold Leaf.locate at hb
    rw [selectQuadrant_eq, hmx, hmy] at hb
    cases hk : DO_CORNERS x y (halfway e.xmin e.xmax) (halfway e.ymin e.ymax) <;>
      rw [hk] at hb hq <;> simp only [Leaf.sub] at hb
    · exact h1 b w1 (by rw [e1]; exact hq) hb
    · exact h2 b w2 (by rw [e2]; exact hq) hb
    · exact h3 b w3 (by rw [e3]; exact hq) hb
    · exact h4 b w4 (by rw [e4]; exact hq) hb

theorem locate_setSub (x y : ℚ) (v : Leaf) : ∀ (p : List Corner) (l : Leaf) (e : Extent)
    (s : Nat) (cells : List LeafData), l.sub p = some (.payload e s cells) →
    v.extents = e →
    (l.setSub p v).locate x y =
      if l.locate x y = p then p ++ v.locate x y else l.locate x y := by
  intro p
  induction p with
  | nil =>
    intro l e s cells hb he
    simp [Leaf.sub] at hb; subst hb
    simp [Leaf.setSub, Leaf.locate]
  | cons k p ih =>
    intro l e s cells hb he
    cases l with
    | payload e s cells => simp [Leaf.sub] at hb
    | leaf e' s' d ul ur ll lr =>
      have hx : ∀ b : Leaf, ul.sub p = some b → v.extents = b.extents →
          (ul.setSub p v).extents = ul.extents := extents_setSub v p ul
      cases k <;> simp only [Leaf.sub] at hb <;> simp only [Leaf.setSub, Leaf.locate]
      · rw [hx _ hb (by simpa [Leaf.extents] using he)]
        cases selectQuadrant x y ul.extents.xmax ul.extents.ymax <;>
          simp [ih _ e s cells hb he]
        split <;> simp_all
      · cases selectQuadrant x y ul.extents.xmax ul.extents.ymax <;>
          simp [ih _ e s cells hb he]
        split <;> simp_all
      · cases selectQuadrant x y ul.extents.xmax ul.extents.ymax <;>
          simp [ih _ e s cells hb he]
        split <;> simp_all
      · cases selectQuadrant x y ul.extents.xmax ul.extents.ymax <;>
          simp [ih _ e s cells hb he]
        split <;> simp_all

/-! ## Insertion -/

theorem addleafdata_eq [Midpoint] (ms md d : Nat) (e : Extent) (s : Nat) (cells : List LeafData)
    (r : LeafData) :
    addleafdata ms md d (.payload e s cells) r = some (grown ms md d e s cells r) := by
  simp only [addleafdata, grown, leafpushdown_eq]
  split <;> rfl

theorem ADD_CORNER_eq [Midpoint] (ms md : Nat) (x y : ℚ) (r : LeafData) : ∀ (l : Leaf) (d : Nat)
    (e : Extent) (s : Nat) (cells : List LeafData), l.WF →
    l.sub (l.locate x y) = some (.payload e s cells) →
    ADD_CORNER ms md x y r d l =
      some (l.setSub (l.locate x y)
        (grown ms md (l.ownerDepth d (l.locate x y)) e s cells r)) := by
  intro l
  induction l with
  | payload e0 s0 cells0 =>
    intro d e s cells hl hb
    simp only [Leaf.WF] at hl
    simp only [Leaf.locate, Leaf.sub, Option.some.injEq, Leaf.payload.injEq] at hb
    obtain ⟨rfl, rfl, rfl⟩ := hb
    simp [ADD_CORNER, hl, addleafdata_eq, Leaf.locate, Leaf.setSub, Leaf.ownerDepth]
  | leaf e0 s0 d0 ul ur ll lr h1 h2 h3 h4 =>
    intro d e s cells hl hb
    obtain ⟨hs, -, -, -, -, w1, w2, w3, w4⟩ := hl
    unfold Leaf.locate at hb ⊢
    simp only [ADD_CORNER, hs, if_true]
    rw [selectQuadrant_eq] at hb ⊢
    cases hk : DO_CORNERS x y ul.extents.xmax ul.extents.ymax <;> rw [hk] at hb <;>
      simp only [Leaf.sub] at hb <;> simp only [Leaf.setSub, Leaf.ownerDepth]
    · rw [h1 d0 e s cells w1 hb]; rfl
    · rw [h2 d0 e s cells w2 hb]; rfl
    · rw [h3 d0 e s cells w3 hb]; rfl
    · rw [h4 d0 e s cells w4 hb]; rfl

theorem grown_extents [Midpoint] (ms md d : Nat) (e : Extent) (s : Nat) (cells : List LeafData)
    (r : LeafData) : (grown ms md d e s cells r).extents = e := by
  unfold grown; split <;> rfl

theorem grown_WF [Midpoint] (ms md d : Nat) (e : Extent) (s : Nat) (cells : List LeafData)
    (r : LeafData) (h : s = cells.length) : (grown ms md d e s cells r).WF := by
  unfold grown; split
  · simp [splitOf, Leaf.WF, Leaf.extents]
  · simp [Leaf.WF, h]

theorem routed_perm (xm ym : ℚ) (cells : List LeafData) :
    List.Perm (routed xm ym .ul cells ++ routed xm ym .ur cells ++ routed xm ym .ll cells ++
      routed xm ym .lr cells) cells := by
  induction cells with
  | nil => simp [routed]
  | cons c cs ih =>
    cases hk : DO_CORNERS c.x c.y xm ym <;> simp only [routed, List.filter_cons, hk] <;>
      simp only [decide_True, decide_False, if_true, Bool.false_eq_true, if_false,
        reduceCtorEq] <;> simp only [routed] at ih
    · simpa using ih.cons c
    · refine List.Perm.trans ?_ (ih.cons c)
      simp only [List.append_assoc, List.cons_append]
      exact List.perm_middle
    · refine List.Perm.trans ?_ (ih.cons c)
      rw [← List.cons_append]
      simp only [List.append_assoc]
      rw [← List.append_assoc]
      exact List.perm_middle.trans (by simp)
    · refine List.Perm.trans ?_ (ih.cons c)
      exact List.perm_middle

theorem splitOf_records_perm [Midpoint] (e : Extent) (cells : List LeafData) (d : Nat) :
    List.Perm (splitOf e cells d).records cells := by
  simp only [splitOf, Leaf.records]
  refine List.Perm.trans ?_ (routed_perm (halfway e.xmin e.xmax) (halfway e.ymin e.ymax) cells)
  exact (((List.reverse_perm _).append (List.reverse_perm _)).append
    (List.reverse_perm _)).append (List.reverse_perm _)

theorem grown_records_perm [Midpoint] (ms md d : Nat) (e : Extent) (s : Nat) (cells : List LeafData)
    (r : LeafData) : List.Perm (grown ms md d e s cells r).records (r :: cells) := by
  unfold grown; split
  · exact splitOf_records_perm e (r :: cells) (d + 1)
  · exact List.Perm.refl _

theorem splitOf_Within [Midpoint] (e : Extent) (cells : List LeafData) (d : Nat)
    (h : ∀ c ∈ cells, e.contains c.x c.y) : (splitOf e cells d).Within := by
  simp only [splitOf, Leaf.Within, List.mem_reverse, routed, List.mem_filter,
    decide_eq_true_eq]
  refine ⟨?_, ?_, ?_, ?_⟩ <;> intro c hc <;>
    have := quarter_of_contains c.x c.y e (h c hc.1) <;> rw [hc.2] at this <;> exact this

theorem grown_Within [Midpoint] (ms md d : Nat) (e : Extent) (s : Nat) (cells : List LeafData)
    (r : LeafData) (hr : e.contains r.x r.y) (h : ∀ c ∈ cells, e.contains c.x c.y) :
    (grown ms md d e s cells r).Within := by
  have h' : ∀ c ∈ r :: cells, e.contains c.x c.y := by
    intro c hc
    rcases List.mem_cons.mp hc with rfl | hc
    · exact hr
    · exact h c hc
  unfold grown; split
  · exact splitOf_Within e _ _ h'
  · exact h'

theorem splitOf_Loc [Midpoint] (e : Extent) (cells : List LeafData) (d : Nat) :
    (splitOf e cells d).Loc := by
  simp only [splitOf, Leaf.Loc, Leaf.records, List.mem_reverse, routed, List.mem_filter,
    decide_eq_true_eq, Leaf.extents, Extent.quarter, and_true]
  exact ⟨fun c hc => hc.2, fun c hc => hc.2, fun c hc => hc.2, fun c hc => hc.2⟩

theorem grown_Loc [Midpoint] (ms md d : Nat) (e : Extent) (s : Nat) (cells : List LeafData)
    (r : LeafData) : (grown ms md d e s cells r).Loc := by
  unfold grown; split
  · exact splitOf_Loc e _ _
  · trivial

theorem splitOf_locate [Midpoint] (e : Extent) (cells : List LeafData) (d : Nat) (r : LeafData)
    (hr : r ∈ cells) :
    ∃ e' s' cells', (splitOf e cells d).sub ((splitOf e cells d).locate r.x r.y) =
      some (.payload e' s' cells') ∧ r ∈ cells' := by
  simp only [splitOf, Leaf.locate, selectQuadrant_eq, Leaf.extents, Extent.quarter]
  cases hk : DO_CORNERS r.x r.y (halfway e.xmin e.xmax) (halfway e.ymin e.ymax) <;>
    simp only [Leaf.sub, Leaf.locate] <;>
    exact ⟨_, _, _, rfl, by simp [routed, hr, hk]⟩

theorem grown_locate [Midpoint] (ms md d : Nat) (e : Extent) (s : Nat) (cells : List LeafData)
    (r : LeafData) :
    ∃ e' s' cells', (grown ms md d e s cells r).sub
        ((grown ms md d e s cells r).locate r.x r.y) = some (.payload e' s' cells') ∧
      r ∈ cells' := by
  unfold grown; split
  · exact splitOf_locate e _ _ r (List.mem_cons_self _ _)
  · exact ⟨_, _, _, rfl, List.mem_cons_self _ _⟩

/-! ## Radius query -/

theorem fsub_exact (x r : ℚ) : fsub x r = x - r := rfl

theorem fadd_exact (x r : ℚ) : fadd x r = x + r := rfl

theorem getdistance_le_exact (x1 y1 x2 y2 r : ℚ) :
    getdistance_le x1 y1 x2 y2 r =
      (decide (0 ≤ r) && decide (getdistanceSq x1 y1 x2 y2 ≤ r * r)) := rfl

theorem overlap_of_near (e : Extent) (x y r cx cy : ℚ) (hc : e.contains cx cy)
    (hn : getdistance_le x y cx cy r = true) :
    overlap e ⟨fsub x r, fsub y r, fadd x r, fadd y r⟩ = true := by
  show overlap e ⟨x - r, y - r, x + r, y + r⟩ = true
  obtain ⟨h1, h2, h3, h4⟩ := hc
  simp only [getdistance_le, getdistanceSq, Bool.and_eq_true, decide_eq_true_eq] at hn
  obtain ⟨hr, hd⟩ := hn
  have hx : (x - cx) * (x - cx) ≤ r * r := by nlinarith [mul_self_nonneg (y - cy)]
  have hy : (y - cy) * (y - cy) ≤ r * r := by nlinarith [mul_self_nonneg (x - cx)]
  have ax := abs_le_of_sq_le_sq' (by simpa [sq] using hx) hr
  have ay := abs_le_of_sq_le_sq' (by simpa [sq] using hy) hr
  simp only [overlap, gt_iff_lt, Bool.not_eq_true', Bool.or_eq_false_iff,
    decide_eq_false_iff_not, not_lt]
  refine ⟨⟨⟨?_, ?_⟩, ?_⟩, ?_⟩ <;> linarith [ax.1, ax.2, ay.1, ay.2]

theorem WF_sub [Midpoint] : ∀ (p : List Corner) (l b : Leaf), l.sub p = some b → l.WF → b.WF := by
  intro p
  induction p with
  | nil => intro l b hb hl; simp [Leaf.sub] at hb; subst hb; exact hl
  | cons k p ih =>
    intro l b hb hl
    cases l with
    | payload e s cells => simp [Leaf.sub] at hb
    | leaf e s d ul ur ll lr =>
      obtain ⟨hs, e1, e2, e3, e4, w1, w2, w3, w4⟩ := hl
      cases k <;> simp only [Leaf.sub] at hb
      · exact ih _ b hb w1
      · exact ih _ b hb w2
      · exact ih _ b hb w3
      · exact ih _ b hb w4

theorem Within_sub : ∀ (p : List Corner) (l b : Leaf), l.sub p = some b → l.Within →
    b.Within := by
  intro p
  induction p with
  | nil => intro l b hb hl; simp [Leaf.sub] at hb; subst hb; exact hl
  | cons k p ih =>
    intro l b hb hl
    cases l with
    | payload e s cells => simp [Leaf.sub] at hb
    | leaf e s d ul ur ll lr =>
      obtain ⟨w1, w2, w3, w4⟩ := hl
      cases k <;> simp only [Leaf.sub] at hb
      · exact ih _ b hb w1
      · exact ih _ b hb w2
      · exact ih _ b hb w3
      · exact ih _ b hb w4

theorem FIND_IN_CORNER_sublist [Midpoint] [Distance] (x y r : ℚ) : ∀ (l : Leaf), l.WF →
    ∃ vis, FIND_IN_CORNER x y r l = some vis ∧
      vis.Sublist (l.records.filter fun cur => getdistance_le x y cur.x cur.y r) := by
  intro l
  induction l with
  | payload e s cells =>
    intro hl
    simp only [Leaf.WF] at hl
    simp only [FIND_IN_CORNER, Leaf.records]
    split
    · cases cells with
      | nil => exact ⟨[], by simp, by simp⟩
      | cons c cs =>
        simp only [List.length_cons] at hl
        exact ⟨_, by simp [hl], List.Sublist.refl _⟩
    · exact ⟨[], rfl, List.nil_sublist _⟩
  | leaf e s d ul ur ll lr h1 h2 h3 h4 =>
    intro hl
    obtain ⟨hs, -, -, -, -, w1, w2, w3, w4⟩ := hl
    obtain ⟨v1, f1, s1⟩ := h1 w1
    obtain ⟨v2, f2, s2⟩ := h2 w2
    obtain ⟨v3, f3, s3⟩ := h3 w3
    obtain ⟨v4, f4, s4⟩ := h4 w4
    simp only [FIND_IN_CORNER, Leaf.records, hs, if_true, f1, f2, f3, f4, Option.some_bind,
      List.filter_append]
    split
    · exact ⟨_, rfl, ((s1.append s2).append s3).append s4⟩
    · exact ⟨[], rfl, List.nil_sublist _⟩

theorem FIND_IN_CORNER_eq (x y r : ℚ) : ∀ (l : Leaf), l.WF → l.Within →
    FIND_IN_CORNER x y r l =
      some (l.records.filter fun cur => getdistance_le x y cur.x cur.y r) := by
  intro l
  induction l with
  | payload e s cells =>
    intro hl hw
    simp only [Leaf.WF] at hl
    simp only [FIND_IN_CORNER, Leaf.records]
    split
    · cases cells with
      | nil => simp
      | cons c cs =>
        simp only [List.length_cons] at hl
        simp [hl]
    · rename_i ho
      simp only [Option.some.injEq]
      symm
      rw [List.filter_eq_nil_iff]
      intro c hc hn
      exact ho (overlap_of_near e x y r c.x c.y (hw c hc) hn)
  | leaf e s d ul ur ll lr h1 h2 h3 h4 =>
    intro hl hw
    have hall := contains_of_Within _ hl hw
    obtain ⟨hs, -, -, -, -, w1, w2, w3, w4⟩ := hl
    obtain ⟨i1, i2, i3, i4⟩ := hw
    simp only [FIND_IN_CORNER, hs, if_true, h1 w1 i1, h2 w2 i2, h3 w3 i3, h4 w4 i4,
      Option.some_bind]
    split
    · simp [Leaf.records]
    · rename_i ho
      simp only [Option.some.injEq]
      symm
      rw [List.filter_eq_nil_iff]
      intro c hc hn
      exact ho (overlap_of_near e x y r c.x c.y (hall c hc) hn)

/-! ## The root node as a slot -/

theorem findleafx_root (E : Extent) (h : Qnode) (x y : ℚ) :
    findleafx h x y = FIND_CORNER x y (Leaf.ofNode E 0 h) := by
  simp only [findleafx, Leaf.ofNode, FIND_CORNER, if_true]
  cases DO_CORNERS x y h.ul.extents.xmax h.ul.extents.ymax <;> rfl

theorem addpointx_root [Midpoint] (E : Extent) (ms md d0 : Nat) (h : Qnode) (x y : ℚ) (r : LeafData) :
    addpointx ms md h x y r =
      (ADD_CORNER ms md x y r d0 (Leaf.ofNode E 0 h)).bind Leaf.toNode := by
  simp only [addpointx, Leaf.ofNode, ADD_CORNER, if_true]
  cases DO_CORNERS x y h.ul.extents.xmax h.ul.extents.ymax <;>
    simp only [Qnode.corner, Qnode.setCorner] <;>
    cases ADD_CORNER ms md x y r h.depth _ <;> simp [Leaf.toNode]

theorem leafAt_root (E : Extent) (h : Qnode) (c : Corner) (p : List Corner) :
    h.leafAt (c :: p) = (Leaf.ofNode E 0 h).sub (c :: p) := by
  cases c <;> rfl

theorem setLeafAt_root (E : Extent) (h : Qnode) (c : Corner) (p : List Corner) (v : Leaf) :
    Leaf.ofNode E 0 (h.setLeafAt (c :: p) v) = (Leaf.ofNode E 0 h).setSub (c :: p) v := by
  cases c <;> rfl

theorem locate_root (E : Extent) (h : Qnode) (x y : ℚ) :
    ∃ c p, (Leaf.ofNode E 0 h).locate x y = c :: p := by
  simp only [Leaf.ofNode, Leaf.locate]
  cases selectQuadrant x y h.ul.extents.xmax h.ul.extents.ymax <;> exact ⟨_, _, rfl⟩

theorem toNode_ofNode (E : Extent) (h : Qnode) : (Leaf.ofNode E 0 h).toNode = some h := rfl

/-! ## The three mutating calls on a well-formed tree -/

theorem addpoint_spec [Midpoint] (qt : QuadTree) (h : Qnode) (x y : ℚ) (data : Nat)
    (hh : qt.head = some h) (hw : (qt.root h).WF) :
    ∃ c p e cells, (qt.root h).locate x y = c :: p ∧
      (qt.root h).sub (c :: p) = some (.payload e cells.length cells) ∧
      addpoint qt x y data =
        some ({ qt with head := some (h.setLeafAt (c :: p)
          (grown qt.maxsize qt.maxdepth ((qt.root h).ownerDepth 0 (c :: p)) e cells.length
            cells ⟨x, y, data⟩)) }, true) := by
  obtain ⟨c, p, hp⟩ := locate_root qt.extents h x y
  obtain ⟨e, s, cells, hb⟩ := locate_payload x y (qt.root h)
  have hs : s = cells.length := WF_sub _ _ _ hb hw
  subst hs
  refine ⟨c, p, e, cells, hp, by rw [← hp]; exact hb, ?_⟩
  have := ADD_CORNER_eq qt.maxsize qt.maxdepth x y ⟨x, y, data⟩ (qt.root h) 0 e _ cells hw hb
  simp only [addpoint, hh, addpointx_root qt.extents qt.maxsize qt.maxdepth 0]
  simp only [QuadTree.root] at this hp
  rw [this, hp, ← setLeafAt_root]
  simp [toNode_ofNode, QuadTree.root]

theorem delscan_some (data : Nat) : ∀ (cells cells' : List LeafData),
    delscan data cells = some cells' →
    ∃ pre c post, cells = pre ++ c :: post ∧ c.data = data ∧
      (∀ c' ∈ pre, c'.data ≠ data) ∧ cells' = pre ++ post := by
  intro cells
  induction cells with
  | nil => intro cells' h; simp [delscan] at h
  | cons c cs ih =>
    intro cells' h
    simp only [delscan] at h
    split at h
    · rename_i hc
      simp only [Option.some.injEq] at h
      exact ⟨[], c, cs, rfl, hc, by simp, by simp [h]⟩
    · rename_i hc
      simp only [Option.map_eq_some'] at h
      obtain ⟨r, hr, rfl⟩ := h
      obtain ⟨pre, c0, post, h1, h2, h3, h4⟩ := ih r hr
      refine ⟨c :: pre, c0, post, by simp [h1], h2, ?_, by simp [h4]⟩
      intro c' hc'
      rcases List.mem_cons.mp hc' with rfl | hc'
      · exact hc
      · exact h3 c' hc'

theorem delscan_none (data : Nat) : ∀ (cells : List LeafData),
    delscan data cells = none ↔ ∀ c ∈ cells, c.data ≠ data := by
  intro cells
  induction cells with
  | nil => simp [delscan]
  | cons c cs ih =>
    simp only [delscan]
    split
    · rename_i hc; simp [hc]
    · rename_i hc; simp [ih, hc]

theorem deletepoint_spec [Midpoint] (qt : QuadTree) (h : Qnode) (x y : ℚ) (data : Nat)
    (hh : qt.head = some h) (hw : (qt.root h).WF) :
    ∃ c p e cells, (qt.root h).locate x y = c :: p ∧
      (qt.root h).sub (c :: p) = some (.payload e cells.length cells) ∧
      deletepoint qt x y data =
        match delscan data cells with
        | some cells' =>
          some ({ qt with head := some (h.setLeafAt (c :: p)
            (.payload e (cells.length - 1) cells')) }, true)
        | none => some (qt, false) := by
  obtain ⟨c, p, hp⟩ := locate_root qt.extents h x y
  obtain ⟨e, s, cells, hb⟩ := locate_payload x y (qt.root h)
  have hs : s = cells.length := WF_sub _ _ _ hb hw
  subst hs
  refine ⟨c, p, e, cells, hp, by rw [← hp]; exact hb, ?_⟩
  have hf := FIND_CORNER_eq x y (qt.root h) hw
  simp only [QuadTree.root] at hf hp hb
  rw [hp] at hf hb
  simp only [deletepoint, hh, findleafx_root qt.extents, hf, leafAt_root qt.extents, hb]
  cases cells with
  | nil => simp [delscan]
  | cons c cs => simp

theorem movescan_inside (ext : Extent) (oldx oldy newx newy : ℚ) (data : Nat)
    (hi : pointinside newx newy ext = true) : ∀ cells : List LeafData,
    movescan ext oldx oldy newx newy data cells =
      (cells.map (moved oldx oldy newx newy data), none) := by
  intro cells
  induction cells with
  | nil => rfl
  | cons c cs ih =>
    simp only [movescan, hi, ih, List.map_cons, moved]
    split <;> simp

theorem movescan_nomatch (ext : Extent) (oldx oldy newx newy : ℚ) (data : Nat) :
    ∀ cells : List LeafData, (∀ c ∈ cells, ¬(data = c.data ∧ oldx = c.x ∧ oldy = c.y)) →
    movescan ext oldx oldy newx newy data cells = (cells, none) := by
  intro cells
  induction cells with
  | nil => intro _; rfl
  | cons c cs ih =>
    intro h
    have h1 := h c (List.mem_cons_self _ _)
    have h2 := ih fun c' hc' => h c' (List.mem_cons_of_mem _ hc')
    simp only [movescan, h1, if_false, h2]

theorem movescan_outside (ext : Extent) (oldx oldy newx newy : ℚ) (data : Nat)
    (hi : pointinside newx newy ext = false) : ∀ cells : List LeafData,
    (∃ c ∈ cells, data = c.data ∧ oldx = c.x ∧ oldy = c.y) →
    ∃ pre post, cells = pre ++ ⟨oldx, oldy, data⟩ :: post ∧
      (∀ c ∈ pre, ¬(data = c.data ∧ oldx = c.x ∧ oldy = c.y)) ∧
      movescan ext oldx oldy newx newy data cells =
        (pre ++ post, some ⟨newx, newy, data⟩) := by
  intro cells
  induction cells with
  | nil => intro h; simp at h
  | cons c cs ih =>
    intro h
    by_cases hc : data = c.data ∧ oldx = c.x ∧ oldy = c.y
    · refine ⟨[], cs, ?_, by simp, ?_⟩
      · obtain ⟨h1, h2, h3⟩ := hc
        cases c; simp_all
      · simp [movescan, hc, hi]
    · have : ∃ c ∈ cs, data = c.data ∧ oldx = c.x ∧ oldy = c.y := by
        obtain ⟨c', hc', hm⟩ := h
        rcases List.mem_cons.mp hc' with rfl | hc'
        · exact absurd hm hc
        · exact ⟨c', hc', hm⟩
      obtain ⟨pre, post, h1, h2, h3⟩ := ih this
      refine ⟨c :: pre, post, by simp [h1], ?_, ?_⟩
      · intro c' hc'
        rcases List.mem_cons.mp hc' with rfl | hc'
        · exact hc
        · exact h2 c' hc'
      · simp [movescan, hc, h3]

theorem setSub_self : ∀ (p : List Corner) (l b : Leaf), l.sub p = some b →
    l.setSub p b = l := by
  intro p
  induction p with
  | nil => intro l b hb; simp [Leaf.sub] at hb; subst hb; simp [Leaf.setSub]
  | cons k p ih =>
    intro l b hb
    cases l with
    | payload e s cells => simp [Leaf.sub] at hb
    | leaf e s d ul ur ll lr =>
      cases k <;> simp only [Leaf.sub] at hb <;> simp only [Leaf.setSub] <;> rw [ih _ b hb]

theorem setLeafAt_self (E : Extent) (h : Qnode) (c : Corner) (p : List Corner) (b : Leaf)
    (hb : (Leaf.ofNode E 0 h).sub (c :: p) = some b) : h.setLeafAt (c :: p) b = h := by
  cases c <;> simp only [Leaf.ofNode, Leaf.sub] at hb <;>
    simp only [Qnode.setLeafAt, Qnode.setCorner, Qnode.corner, setSub_self _ _ _ hb]

theorem movepoint_inside [Midpoint] (qt : QuadTree) (h : Qnode) (oldx oldy newx newy : ℚ) (data : Nat)
    (hh : qt.head = some h) (hw : (qt.root h).WF) (c : Corner) (p : List Corner)
    (e : Extent) (cells : List LeafData)
    (hp : (qt.root h).locate oldx oldy = c :: p)
    (hb : (qt.root h).sub (c :: p) = some (.payload e cells.length cells))
    (hi : pointinside newx newy e = true) :
    movepoint qt oldx oldy newx newy data =
      some ({ qt with head := some (h.setLeafAt (c :: p)
        (.payload e cells.length (cells.map (moved oldx oldy newx newy data)))) },
        false) := by
  have hf := FIND_CORNER_eq oldx oldy (qt.root h) hw
  simp only [QuadTree.root] at hf hp hb
  rw [hp] at hf
  simp only [movepoint, hh, findleafx_root qt.extents, hf, leafAt_root qt.extents, hb,
    movescan_inside e oldx oldy newx newy data hi]
  cases cells with
  | nil =>
    have hs := setLeafAt_self qt.extents h c p _ hb
    simp only [List.length_nil] at hs
    simp only [List.length_nil, if_true, List.map_nil, hs]
    obtain ⟨hd, ms, md, ex⟩ := qt
    simp only at hh
    subst hh
    rfl
  | cons c cs => simp

theorem movepoint_nomatch [Midpoint] (qt : QuadTree) (h : Qnode) (oldx oldy newx newy : ℚ) (data : Nat)
    (hh : qt.head = some h) (hw : (qt.root h).WF) (c : Corner) (p : List Corner)
    (e : Extent) (cells : List LeafData)
    (hp : (qt.root h).locate oldx oldy = c :: p)
    (hb : (qt.root h).sub (c :: p) = some (.payload e cells.length cells))
    (hn : ∀ r ∈ cells, ¬(data = r.data ∧ oldx = r.x ∧ oldy = r.y)) :
    movepoint qt oldx oldy newx newy data = some (qt, false) := by
  have hf := FIND_CORNER_eq oldx oldy (qt.root h) hw
  simp only [QuadTree.root] at hf hp hb
  rw [hp] at hf
  simp only [movepoint, hh, findleafx_root qt.extents, hf, leafAt_root qt.extents, hb,
    movescan_nomatch e oldx oldy newx newy data cells hn]
  have hs := setLeafAt_self qt.extents h c p _ hb
  rw [hs]
  obtain ⟨hd, ms, md, ex⟩ := qt
  simp only at hh
  subst hh
  split <;> rfl

theorem movepoint_outside [Midpoint] (qt : QuadTree) (h : Qnode) (oldx oldy newx newy : ℚ) (data : Nat)
    (hh : qt.head = some h) (hw : (qt.root h).WF) (c : Corner) (p : List Corner)
    (e : Extent) (cells : List LeafData)
    (hp : (qt.root h).locate oldx oldy = c :: p)
    (hb : (qt.root h).sub (c :: p) = some (.payload e cells.length cells))
    (hi : pointinside newx newy e = false)
    (hm : ∃ r ∈ cells, data = r.data ∧ oldx = r.x ∧ oldy = r.y) :
    ∃ pre post, cells = pre ++ ⟨oldx, oldy, data⟩ :: post ∧
      (∀ r ∈ pre, ¬(data = r.data ∧ oldx = r.x ∧ oldy = r.y)) ∧
      movepoint qt oldx oldy newx newy data =
        (addpoint { qt with head := some (h.setLeafAt (c :: p)
          (.payload e (pre ++ post).length (pre ++ post))) } newx newy data) := by
  obtain ⟨pre, post, h1, h2, h3⟩ := movescan_outside e oldx oldy newx newy data hi cells hm
  refine ⟨pre, post, h1, h2, ?_⟩
  have hf := FIND_CORNER_eq oldx oldy (qt.root h) hw
  simp only [QuadTree.root] at hf hp hb
  rw [hp] at hf
  have hl : cells.length - 1 = (pre ++ post).length := by rw [h1]; simp
  have hne : cells.length ≠ 0 := by rw [h1]; simp
  simp only [movepoint, hh, findleafx_root qt.extents, hf, leafAt_root qt.extents, hb, h3,
    hne, if_false, hl, addpoint]

/-! ## Preservation of the invariants by a store into a located bucket -/

theorem Inv_store [Midpoint] (qt : QuadTree) (h : Qnode) (c : Corner) (p : List Corner) (b v : Leaf)
    (hw : (qt.root h).WF) (hl : (qt.root h).Loc)
    (hb : (qt.root h).sub (c :: p) = some b) (ve : v.extents = b.extents) (vw : v.WF)
    (vl : v.Loc) (vf : ∀ r ∈ v.records, (qt.root h).follows (c :: p) r.x r.y) :
    QuadTree.Inv { qt with head := some (h.setLeafAt (c :: p) v) } := by
  refine ⟨_, rfl, ?_, ?_⟩
  · simp only [QuadTree.root] at *
    rw [setLeafAt_root]
    exact WF_setSub v vw _ _ b hb ve hw
  · simp only [QuadTree.root] at *
    rw [setLeafAt_root]
    exact Loc_setSub v vl _ _ b hb ve hl vf

theorem Bounded_store (qt : QuadTree) (h : Qnode) (c : Corner) (p : List Corner) (v : Leaf)
    (hq : (qt.root h).Within) (vq : v.Within) :
    QuadTree.Bounded { qt with head := some (h.setLeafAt (c :: p) v) } := by
  refine ⟨_, rfl, ?_⟩
  simp only [QuadTree.root] at *
  rw [setLeafAt_root]
  exact Within_setSub v vq _ _ hq

theorem records_store (qt : QuadTree) (h : Qnode) (c : Corner) (p : List Corner) (b : Leaf)
    (hh : qt.head = some h) (hb : (qt.root h).sub (c :: p) = some b) :
    ∃ pre post, qt.records = pre ++ b.records ++ post ∧
      ∀ v : Leaf, QuadTree.records { qt with head := some (h.setLeafAt (c :: p) v) } =
        pre ++ v.records ++ post := by
  obtain ⟨pre, post, h1, h2⟩ := records_setSub _ _ b hb
  refine ⟨pre, post, by simp only [QuadTree.records, hh]; exact h1, fun v => ?_⟩
  simp only [QuadTree.records, QuadTree.root] at *
  rw [setLeafAt_root]
  exact h2 v

/-! ## The invariants are kept by every call -/

theorem pointinside_contains (x y : ℚ) (e : Extent) (h : pointinside x y e = true) :
    e.contains x y := by
  rw [pointinside_iff] at h
  exact ⟨h.1.le, h.2.1.le, h.2.2.1.le, h.2.2.2.le⟩

theorem addpoint_Inv [Midpoint] (qt : QuadTree) (x y : ℚ) (data : Nat) (hinv : qt.Inv) :
    ∃ qt', addpoint qt x y data = some (qt', true) ∧ qt'.Inv ∧
      qt'.extents = qt.extents ∧ qt'.maxsize = qt.maxsize ∧ qt'.maxdepth = qt.maxdepth ∧
      List.Perm qt'.records (⟨x, y, data⟩ :: qt.records) ∧
      (qt.Bounded → qt.extents.contains x y → qt'.Bounded) := by
  obtain ⟨h, hh, hw, hl⟩ := hinv
  obtain ⟨c, p, e, cells, hp, hb, hadd⟩ := addpoint_spec qt h x y data hh hw
  refine ⟨_, hadd, ?_, rfl, rfl, rfl, ?_, ?_⟩
  · refine Inv_store qt h c p _ _ hw hl hb (grown_extents _ _ _ _ _ _ _)
      (grown_WF _ _ _ _ _ _ _ rfl) (grown_Loc _ _ _ _ _ _ _) ?_
    intro r hr
    have := (grown_records_perm _ _ _ _ _ _ _).subset hr
    rcases List.mem_cons.mp this with rfl | hm
    · rw [← hp]; exact follows_locate _ _ _
    · exact follows_of_Loc _ _ _ hb hl r hm
  · obtain ⟨pre, post, h1, h2⟩ := records_store qt h c p _ hh hb
    rw [h2, h1]
    simp only [Leaf.records]
    refine List.Perm.trans (List.Perm.append_right post
      (List.Perm.append_left pre (grown_records_perm _ _ _ _ _ _ _))) ?_
    simp only [List.append_assoc, List.cons_append]
    exact List.perm_middle
  · rintro ⟨h0, hh0, hq⟩ hc
    rw [hh] at hh0; cases hh0
    refine Bounded_store qt h c p _ hq ?_
    have hc' : (qt.root h).extents.contains x y := hc
    have hbe := contains_locate x y (qt.root h) _ hw hc' (by rw [hp]; exact hb)
    exact grown_Within _ _ _ _ _ _ _ hbe (Within_sub _ _ _ hb hq)

/-- Removing one record from a located bucket keeps the invariants. -/
theorem unlink_Inv [Midpoint] (qt : QuadTree) (h : Qnode) (c : Corner) (p : List Corner) (e : Extent)
    (pre post : List LeafData) (r : LeafData) (hh : qt.head = some h)
    (hw : (qt.root h).WF) (hl : (qt.root h).Loc)
    (hb : (qt.root h).sub (c :: p) =
      some (.payload e (pre ++ r :: post).length (pre ++ r :: post))) :
    QuadTree.Inv { qt with head := some (h.setLeafAt (c :: p)
        (.payload e (pre ++ post).length (pre ++ post))) } ∧
      (QuadTree.records { qt with head := some (h.setLeafAt (c :: p)
        (.payload e (pre ++ post).length (pre ++ post))) }).length + 1 = qt.records.length ∧
      (qt.Bounded → QuadTree.Bounded { qt with head := some (h.setLeafAt (c :: p)
        (.payload e (pre ++ post).length (pre ++ post))) }) := by
  refine ⟨?_, ?_, ?_⟩
  · refine Inv_store qt h c p _ _ hw hl hb rfl rfl trivial ?_
    intro r' hr'
    refine follows_of_Loc _ _ _ hb hl r' ?_
    simp only [Leaf.records, List.mem_append, List.mem_cons] at hr' ⊢
    tauto
  · obtain ⟨a, b, h1, h2⟩ := records_store qt h c p _ hh hb
    rw [h2, h1]
    simp only [Leaf.records, List.length_append, List.length_cons]
    omega
  · rintro ⟨h0, hh0, hq⟩
    rw [hh] at hh0; cases hh0
    refine Bounded_store qt h c p _ hq ?_
    have := Within_sub _ _ _ hb hq
    intro r' hr'
    refine this r' ?_
    simp only [List.mem_append, List.mem_cons] at hr' ⊢
    tauto

theorem deletepoint_Inv [Midpoint] (qt : QuadTree) (x y : ℚ) (data : Nat) (hinv : qt.Inv) :
    ∃ qt' b, deletepoint qt x y data = some (qt', b) ∧ qt'.Inv ∧
      qt'.extents = qt.extents ∧ qt'.maxsize = qt.maxsize ∧ qt'.maxdepth = qt.maxdepth ∧
      qt'.records.length + (if b then 1 else 0) = qt.records.length ∧
      (qt.Bounded → qt'.Bounded) := by
  obtain ⟨h, hh, hw, hl⟩ := hinv
  obtain ⟨c, p, e, cells, hp, hb, hdel⟩ := deletepoint_spec qt h x y data hh hw
  cases hd : delscan data cells with
  | none =>
    rw [hd] at hdel
    exact ⟨qt, false, hdel, ⟨h, hh, hw, hl⟩, rfl, rfl, rfl, by simp, fun hq => hq⟩
  | some cells' =>
    rw [hd] at hdel
    obtain ⟨pre, r, post, h1, -, -, h4⟩ := delscan_some data cells cells' hd
    subst h1; subst h4
    have hlen : (pre ++ r :: post).length - 1 = (pre ++ post).length := by simp
    rw [hlen] at hdel
    obtain ⟨i1, i2, i3⟩ := unlink_Inv qt h c p e pre post r hh hw hl hb
    exact ⟨_, true, hdel, i1, rfl, rfl, rfl, by simpa using i2, i3⟩

theorem movepoint_Inv (qt : QuadTree) (oldx oldy newx newy : ℚ) (data : Nat)
    (hinv : qt.Inv) :
    ∃ qt' b, movepoint qt oldx oldy newx newy data = some (qt', b) ∧ qt'.Inv ∧
      qt'.extents = qt.extents ∧ qt'.maxsize = qt.maxsize ∧ qt'.maxdepth = qt.maxdepth ∧
      qt'.records.length = qt.records.length ∧
      (qt.Bounded → qt.extents.contains newx newy → qt'.Bounded) := by
  obtain ⟨h, hh, hw, hl⟩ := hinv
  obtain ⟨c, p, hp⟩ := locate_root qt.extents h oldx oldy
  obtain ⟨e, s, cells, hb⟩ := locate_payload oldx oldy (qt.root h)
  have hs : s = cells.length := WF_sub _ _ _ hb hw
  subst hs
  change (qt.root h).locate oldx oldy = c :: p at hp
  rw [hp] at hb
  by_cases hi : pointinside newx newy e = true
  · refine ⟨_, false, movepoint_inside qt h oldx oldy newx newy data hh hw c p e cells hp hb hi,
      ?_, rfl, rfl, rfl, ?_, ?_⟩
    · have hlen : cells.length = (cells.map (moved oldx oldy newx newy data)).length := by simp
      rw [hlen]
      refine Inv_store qt h c p _ _ hw hl hb rfl rfl trivial ?_
      intro r hr
      simp only [Leaf.records, List.mem_map] at hr
      obtain ⟨r0, hr0, rfl⟩ := hr
      unfold moved
      split
      · exact (follows_of_inside newx newy _ _ _ hb hw hi).1
      · exact follows_of_Loc _ _ _ hb hl r0 hr0
    · obtain ⟨a, b, h1, h2⟩ := records_store qt h c p _ hh hb
      rw [h2, h1]
      simp [Leaf.records]
    · rintro ⟨h0, hh0, hq⟩ -
      rw [hh] at hh0; cases hh0
      refine Bounded_store qt h c p _ hq ?_
      have := Within_sub _ _ _ hb hq
      intro r hr
      simp only [List.mem_map] at hr
      obtain ⟨r0, hr0, rfl⟩ := hr
      unfold moved
      split
      · exact pointinside_contains _ _ _ hi
      · exact this r0 hr0
  · by_cases hm : ∃ r ∈ cells, data = r.data ∧ oldx = r.x ∧ oldy = r.y
    · have hi' : pointinside newx newy e = false := by simpa using hi
      obtain ⟨pre, post, h1, -, h3⟩ :=
        movepoint_outside qt h oldx oldy newx newy data hh hw c p e cells hp hb hi' hm
      subst h1
      obtain ⟨i1, i2, i3⟩ := unlink_Inv qt h c p e pre post _ hh hw hl hb
      obtain ⟨qt', a1, a2, a3, a4, a5, a6, a7⟩ := addpoint_Inv _ newx newy data i1
      refine ⟨qt', true, by rw [h3]; exact a1, a2, a3, a4, a5, ?_, ?_⟩
      · rw [a6.length_eq, List.length_cons, i2]
      · intro hq hc
        exact a7 (i3 hq) hc
    · refine ⟨qt, false,
        movepoint_nomatch qt h oldx oldy newx newy data hh hw c p e cells hp hb ?_,
        ⟨h, hh, hw, hl⟩, rfl, rfl, rfl, rfl, fun hq _ => hq⟩
      intro r hr hc
      exact hm ⟨r, hr, hc⟩

theorem newtree_Inv [Midpoint] (ms md : Nat) (e : Extent) : (newtree ms md e).Inv := by
  refine ⟨_, rfl, ?_, ?_⟩
  · simp [newtree, QuadTree.root, Leaf.ofNode, Leaf.WF, Leaf.extents, Extent.quarter]
  · simp [newtree, QuadTree.root, Leaf.ofNode, Leaf.Loc, Leaf.records]

theorem newtree_Bounded [Midpoint] (ms md : Nat) (e : Extent) : (newtree ms md e).Bounded := by
  refine ⟨_, rfl, ?_⟩
  simp [newtree, QuadTree.root, Leaf.ofNode, Leaf.Within]

theorem step_Inv (qt : QuadTree) (op : Op) (hinv : qt.Inv) :
    ∃ qt' b, step qt op = some (qt', b) ∧ qt'.Inv ∧ qt'.extents = qt.extents ∧
      qt'.maxsize = qt.maxsize ∧ qt'.maxdepth = qt.maxdepth ∧
      (qt.Bounded → op.inside qt.extents → qt'.Bounded) := by
  cases op with
  | add x y data =>
    obtain ⟨qt', h1, h2, h3, h4, h5, -, h7⟩ := addpoint_Inv qt x y data hinv
    exact ⟨qt', true, h1, h2, h3, h4, h5, h7⟩
  | move oldx oldy newx newy data =>
    obtain ⟨qt', b, h1, h2, h3, h4, h5, -, h7⟩ :=
      movepoint_Inv qt oldx oldy newx newy data hinv
    exact ⟨qt', b, h1, h2, h3, h4, h5, h7⟩
  | del x y data =>
    obtain ⟨qt', b, h1, h2, h3, h4, h5, -, h7⟩ := deletepoint_Inv qt x y data hinv
    exact ⟨qt', b, h1, h2, h3, h4, h5, fun hq _ => h7 hq⟩

theorem run_Inv : ∀ (ops : List Op) (qt : QuadTree), qt.Inv →
    ∃ qt' res, run qt ops = some (qt', res) ∧ qt'.Inv ∧ qt'.extents = qt.extents ∧
      qt'.maxsize = qt.maxsize ∧ qt'.maxdepth = qt.maxdepth ∧
      (qt.Bounded → (∀ op ∈ ops, op.inside qt.extents) → qt'.Bounded) := by
  intro ops
  induction ops with
  | nil => intro qt hinv; exact ⟨qt, [], rfl, hinv, rfl, rfl, rfl, fun hq _ => hq⟩
  | cons op ops ih =>
    intro qt hinv
    obtain ⟨qt1, b, s1, s2, s3, s4, s5, s6⟩ := step_Inv qt op hinv
    obtain ⟨qt2, res, r1, r2, r3, r4, r5, r6⟩ := ih qt1 s2
    refine ⟨qt2, b :: res, by simp [run, s1, r1], r2, r3.trans s3, r4.trans s4,
      r5.trans s5, ?_⟩
    intro hq hin
    refine r6 (s6 hq (hin op (List.mem_cons_self _ _))) ?_
    intro op' hop'
    rw [s3]
    exact hin op' (List.mem_cons_of_mem _ hop')

/-! ## Radius query on a live tree -/

theorem maptonearby_sublist [Midpoint] [Distance] (qt : QuadTree) (x y r : ℚ) (hinv : qt.Inv) :
    ∃ vis, maptonearby qt x y r = some vis ∧
      vis.Sublist (qt.records.filter fun cur => getdistance_le x y cur.x cur.y r) := by
  obtain ⟨h, hh, hw, -⟩ := hinv
  obtain ⟨-, -, -, -, -, w1, w2, w3, w4⟩ := hw
  obtain ⟨v1, f1, s1⟩ := FIND_IN_CORNER_sublist x y r _ w1
  obtain ⟨v2, f2, s2⟩ := FIND_IN_CORNER_sublist x y r _ w2
  obtain ⟨v3, f3, s3⟩ := FIND_IN_CORNER_sublist x y r _ w3
  obtain ⟨v4, f4, s4⟩ := FIND_IN_CORNER_sublist x y r _ w4
  refine ⟨v1 ++ v2 ++ v3 ++ v4, by simp [maptonearby, hh, maptonearbyx, f1, f2, f3, f4], ?_⟩
  simp only [QuadTree.records, hh, QuadTree.root, Leaf.ofNode, Leaf.records,
    List.filter_append]
  exact ((s1.append s2).append s3).append s4

theorem maptonearby_eq (qt : QuadTree) (x y r : ℚ) (hinv : qt.Inv) (hq : qt.Bounded) :
    maptonearby qt x y r =
      some (qt.records.filter fun cur => getdistance_le x y cur.x cur.y r) := by
  obtain ⟨h, hh, hw, -⟩ := hinv
  obtain ⟨h0, hh0, i1, i2, i3, i4⟩ := hq
  rw [hh] at hh0; cases hh0
  obtain ⟨-, -, -, -, -, w1, w2, w3, w4⟩ := hw
  simp [maptonearby, hh, maptonearbyx, FIND_IN_CORNER_eq x y r _ w1 i1,
    FIND_IN_CORNER_eq x y r _ w2 i2, FIND_IN_CORNER_eq x y r _ w3 i3,
    FIND_IN_CORNER_eq x y r _ w4 i4, QuadTree.records, QuadTree.root, Leaf.ofNode,
    Leaf.records]

theorem getdistance_le_sq (x y cx cy r : ℚ) (hr : 0 ≤ r) :
    getdistance_le x y cx cy r = decide ((x - cx) ^ 2 + (y - cy) ^ 2 ≤ r ^ 2) := by
  simp [getdistance_le, getdistanceSq, hr, sq]

theorem getdistance_le_zero (x y cx cy : ℚ) :
    getdistance_le x y cx cy 0 = true ↔ cx = x ∧ cy = y := by
  simp only [getdistance_le, getdistanceSq, le_refl, decide_True, Bool.true_and, mul_zero,
    decide_eq_true_eq]
  constructor
  · intro h
    have h1 : (x - cx) * (x - cx) = 0 := by nlinarith [mul_self_nonneg (x - cx), mul_self_nonneg (y - cy)]
    have h2 : (y - cy) * (y - cy) = 0 := by nlinarith [mul_self_nonneg (x - cx), mul_self_nonneg (y - cy)]
    have h3 := mul_self_eq_zero.mp h1
    have h4 := mul_self_eq_zero.mp h2
    constructor <;> linarith
  · rintro ⟨rfl, rfl⟩; simp

theorem run_addAll [Midpoint] : ∀ (pts : List LeafData) (qt : QuadTree), qt.Inv →
    ∃ qt' res, run qt (addAll pts) = some (qt', res) ∧ qt'.Inv ∧ qt'.extents = qt.extents ∧
      (∀ p ∈ pts, p ∈ qt'.records) ∧ (∀ p ∈ qt.records, p ∈ qt'.records) ∧
      (qt.Bounded → (∀ p ∈ pts, qt.extents.contains p.x p.y) → qt'.Bounded) := by
  intro pts
  induction pts with
  | nil => intro qt hinv; exact ⟨qt, [], rfl, hinv, rfl, by simp, fun p hp => hp, fun hq _ => hq⟩
  | cons p pts ih =>
    intro qt hinv
    obtain ⟨qt1, a1, a2, a3, -, -, a6, a7⟩ := addpoint_Inv qt p.x p.y p.data hinv
    obtain ⟨qt2, res, r1, r2, r3, r4, r5, r6⟩ := ih qt1 a2
    refine ⟨qt2, true :: res, by simp [addAll, run, step, a1] at r1 ⊢; simp [addAll, r1],
      r2, r3.trans a3, ?_, ?_, ?_⟩
    · intro p' hp'
      rcases List.mem_cons.mp hp' with rfl | hp'
      · exact r5 _ (a6.symm.subset (List.mem_cons_self _ _))
      · exact r4 p' hp'
    · intro p' hp'
      exact r5 _ (a6.symm.subset (List.mem_cons_of_mem _ hp'))
    · intro hq hin
      refine r6 (a7 hq (hin p (List.mem_cons_self _ _))) ?_
      intro p' hp'
      rw [a3]
      exact hin p' (List.mem_cons_of_mem _ hp')

theorem run_count : ∀ (ops : List Op) (qt : QuadTree), qt.Inv →
    ∃ qt' res, run qt ops = some (qt', res) ∧ res.length = ops.length ∧
      qt'.records.length + delHits ops res = qt.records.length + addCalls ops := by
  intro ops
  induction ops with
  | nil => intro qt _; exact ⟨qt, [], rfl, rfl, by simp [delHits, addCalls]⟩
  | cons op ops ih =>
    intro qt hinv
    cases op with
    | add x y data =>
      obtain ⟨qt1, a1, a2, -, -, -, a6, -⟩ := addpoint_Inv qt x y data hinv
      obtain ⟨qt2, res, r1, r2, r3⟩ := ih qt1 a2
      refine ⟨qt2, true :: res, by simp [run, step, a1, r1], by simp [r2], ?_⟩
      have := a6.length_eq
      simp only [List.length_cons] at this
      simp only [delHits, addCalls]
      omega
    | move oldx oldy newx newy data =>
      obtain ⟨qt1, b, a1, a2, -, -, -, a6, -⟩ := movepoint_Inv qt oldx oldy newx newy data hinv
      obtain ⟨qt2, res, r1, r2, r3⟩ := ih qt1 a2
      refine ⟨qt2, b :: res, by simp [run, step, a1, r1], by simp [r2], ?_⟩
      simp only [delHits, addCalls]
      omega
    | del x y data =>
      obtain ⟨qt1, b, a1, a2, -, -, -, a6, -⟩ := deletepoint_Inv qt x y data hinv
      obtain ⟨qt2, res, r1, r2, r3⟩ := ih qt1 a2
      refine ⟨qt2, b :: res, by simp [run, step, a1, r1], by simp [r2], ?_⟩
      cases b <;> simp only [delHits, addCalls] <;> simp at a6 <;> omega

/-! ## Facts that hold for every reading of the arithmetic -/

theorem newtree_Live [Midpoint] (ms md : Nat) (e : Extent) : (newtree ms md e).Live := by
  obtain ⟨h, hh, hw, -⟩ := newtree_Inv ms md e
  exact ⟨h, hh, hw⟩

theorem Live_store [Midpoint] (qt : QuadTree) (h : Qnode) (c : Corner) (p : List Corner)
    (b v : Leaf) (hw : (qt.root h).WF) (hb : (qt.root h).sub (c :: p) = some b)
    (ve : v.extents = b.extents) (vw : v.WF) :
    QuadTree.Live { qt with head := some (h.setLeafAt (c :: p) v) } := by
  refine ⟨_, rfl, ?_⟩
  simp only [QuadTree.root] at *
  rw [setLeafAt_root]
  exact WF_setSub v vw _ _ b hb ve hw

theorem addpoint_Live [Midpoint] (qt : QuadTree) (x y : ℚ) (data : Nat) (hl : qt.Live) :
    ∃ qt', addpoint qt x y data = some (qt', true) ∧ qt'.Live ∧ qt'.extents = qt.extents := by
  obtain ⟨h, hh, hw⟩ := hl
  obtain ⟨c, p, e, cells, -, hb, hadd⟩ := addpoint_spec qt h x y data hh hw
  exact ⟨_, hadd, Live_store qt h c p _ _ hw hb (grown_extents _ _ _ _ _ _ _)
    (grown_WF _ _ _ _ _ _ _ rfl), rfl⟩

theorem step_Live [Midpoint] (qt : QuadTree) (op : Op) (hl : qt.Live) :
    ∃ qt' b, step qt op = some (qt', b) ∧ qt'.Live ∧ qt'.extents = qt.extents := by
  cases op with
  | add x y data =>
    obtain ⟨qt', h1, h2, h3⟩ := addpoint_Live qt x y data hl
    exact ⟨qt', true, h1, h2, h3⟩
  | del x y data =>
    obtain ⟨h, hh, hw⟩ := hl
    obtain ⟨c, p, e, cells, -, hb, hdel⟩ := deletepoint_spec qt h x y data hh hw
    cases hd : delscan data cells with
    | none =>
      rw [hd] at hdel
      exact ⟨qt, false, hdel, ⟨h, hh, hw⟩, rfl⟩
    | some cells' =>
      rw [hd] at hdel
      obtain ⟨pre, r, post, e1, -, -, e4⟩ := delscan_some data cells cells' hd
      have hlen : cells.length - 1 = cells'.length := by rw [e1, e4]; simp
      rw [hlen] at hdel
      exact ⟨_, true, hdel, Live_store qt h c p _ _ hw hb rfl rfl, rfl⟩
  | move oldx oldy newx newy data =>
    obtain ⟨h, hh, hw⟩ := hl
    obtain ⟨c, p, hp⟩ := locate_root qt.extents h oldx oldy
    obtain ⟨e, s, cells, hb⟩ := locate_payload oldx oldy (qt.root h)
    have hs : s = cells.length := WF_sub _ _ _ hb hw
    subst hs
    change (qt.root h).locate oldx oldy = c :: p at hp
    rw [hp] at hb
    by_cases hi : pointinside newx newy e = true
    · refine ⟨_, false,
        movepoint_inside qt h oldx oldy newx newy data hh hw c p e cells hp hb hi, ?_, rfl⟩
      exact Live_store qt h c p _ _ hw hb rfl (by simp [Leaf.WF])
    · by_cases hm : ∃ r ∈ cells, data = r.data ∧ oldx = r.x ∧ oldy = r.y
      · have hi' : pointinside newx newy e = false := by simpa using hi
        obtain ⟨pre, post, h1, -, h3⟩ :=
          movepoint_outside qt h oldx oldy newx newy data hh hw c p e cells hp hb hi' hm
        have i1 := Live_store qt h c p _ (.payload e (pre ++ post).length (pre ++ post))
          hw hb rfl rfl
        obtain ⟨qt', a1, a2, a3⟩ := addpoint_Live _ newx newy data i1
        exact ⟨qt', true, h3.trans a1, a2, a3⟩
      · exact ⟨qt, false,
          movepoint_nomatch qt h oldx oldy newx newy data hh hw c p e cells hp hb
            (fun r hr hc => hm ⟨r, hr, hc⟩), ⟨h, hh, hw⟩, rfl⟩

theorem run_Live [Midpoint] : ∀ (ops : List Op) (qt : QuadTree), qt.Live →
    ∃ qt' res, run qt ops = some (qt', res) ∧ qt'.Live ∧ qt'.extents = qt.extents := by
  intro ops
  induction ops with
  | nil => intro qt hl; exact ⟨qt, [], rfl, hl, rfl⟩
  | cons op ops ih =>
    intro qt hl
    obtain ⟨qt1, b, s1, s2, s3⟩ := step_Live qt op hl
    obtain ⟨qt2, res, r1, r2, r3⟩ := ih qt1 s2
    exact ⟨qt2, b :: res, by simp [run, s1, r1], r2, r3.trans s3⟩

theorem seen_sublist (box : Extent) : ∀ l : Leaf, (l.seen box).Sublist l.records := by
  intro l
  induction l with
  | payload e s cells =>
    simp only [Leaf.seen, Leaf.records]
    split
    · exact List.Sublist.refl _
    · exact List.nil_sublist _
  | leaf e s d ul ur ll lr h1 h2 h3 h4 =>
    simp only [Leaf.seen, Leaf.records]
    split
    · exact ((h1.append h2).append h3).append h4
    · exact List.nil_sublist _

theorem FIND_IN_CORNER_seen [Midpoint] [Distance] (x y r : ℚ) : ∀ (l : Leaf), l.WF →
    FIND_IN_CORNER x y r l =
      some ((l.seen ⟨fsub x r, fsub y r, fadd x r, fadd y r⟩).filter
        fun cur => getdistance_le x y cur.x cur.y r) := by
  intro l
  induction l with
  | payload e s cells =>
    intro hl
    simp only [Leaf.WF] at hl
    simp only [FIND_IN_CORNER, Leaf.seen]
    split
    · cases cells with
      | nil => simp
      | cons c cs =>
        simp only [List.length_cons] at hl
        simp [hl]
    · simp
  | leaf e s d ul ur ll lr h1 h2 h3 h4 =>
    intro hl
    obtain ⟨hs, -, -, -, -, w1, w2, w3, w4⟩ := hl
    simp only [FIND_IN_CORNER, Leaf.seen, hs, if_true, h1 w1, h2 w2, h3 w3, h4 w4,
      Option.some_bind, List.filter_append]
    split <;> simp

theorem maptonearby_seen [Midpoint] [Distance] (qt : QuadTree) (h : Qnode) (x y r : ℚ)
    (hh : qt.head = some h) (hw : (qt.root h).WF) :
    maptonearby qt x y r =
      some ((h.seen ⟨fsub x r, fsub y r, fadd x r, fadd y r⟩).filter
        fun cur => getdistance_le x y cur.x cur.y r) ∧
    (h.seen ⟨fsub x r, fsub y r, fadd x r, fadd y r⟩).Sublist qt.records := by
  obtain ⟨-, -, -, -, -, w1, w2, w3, w4⟩ := hw
  constructor
  · simp [maptonearby, hh, maptonearbyx, FIND_IN_CORNER_seen x y r _ w1,
      FIND_IN_CORNER_seen x y r _ w2, FIND_IN_CORNER_seen x y r _ w3,
      FIND_IN_CORNER_seen x y r _ w4, Qnode.seen]
  · simp only [QuadTree.records, hh, QuadTree.root, Leaf.ofNode, Leaf.records, Qnode.seen]
    exact (((seen_sublist _ _).append (seen_sublist _ _)).append (seen_sublist _ _)).append
      (seen_sublist _ _)

/-! ## Verified claims -/

/-- C2: round trip. After `newtree` and any sequence of `addpoint` calls with points
in the (closed) universe extent, on or off quadrant boundaries, a radius-0 query
centred on any inserted point calls the visitor on the record holding it. -/
theorem roundtrip_radius_zero (ms md : Nat) (e : Extent) (pts : List LeafData)
    (hin : ∀ p ∈ pts, e.contains p.x p.y) (p : LeafData) (hp : p ∈ pts) :
    ∃ qt res vis, run (newtree ms md e) (addAll pts) = some (qt, res) ∧
      maptonearby qt p.x p.y 0 = some vis ∧ p ∈ vis := by
  obtain ⟨qt, res, h1, h2, -, h4, -, h6⟩ := run_addAll pts _ (newtree_Inv ms md e)
  have hq : qt.Bounded := h6 (newtree_Bounded ms md e) hin
  refine ⟨qt, res, _, h1, maptonearby_eq qt p.x p.y 0 h2 hq, ?_⟩
  rw [List.mem_filter]
  exact ⟨h4 p hp, (getdistance_le_zero _ _ _ _).mpr ⟨rfl, rfl⟩⟩

theorem roundtrip_radius_zero_witness :
    ∃ qt res vis,
      run (newtree 2 4 u100) (addAll [⟨10, 10, 1⟩, ⟨20, 20, 2⟩, ⟨30, 70, 3⟩]) =
        some (qt, res) ∧
      maptonearby qt 20 20 0 = some vis ∧ (⟨20, 20, 2⟩ : LeafData) ∈ vis :=
  roundtrip_radius_zero 2 4 u100 [⟨10, 10, 1⟩, ⟨20, 20, 2⟩, ⟨30, 70, 3⟩] (by decide!)
    ⟨20, 20, 2⟩ (by decide!)

/-- C3: count conservation. Every sequence of `addpoint`, `movepoint` and
`deletepoint` calls on a tree made by `newtree` runs to completion, and afterwards the
number of records found by a full traversal plus the number of `deletepoint` calls
that returned true equals the number of `addpoint` calls; `movepoint` calls and splits
do not enter the count. -/
theorem count_conservation (ms md : Nat) (e : Extent) (ops : List Op) :
    ∃ qt res, run (newtree ms md e) ops = some (qt, res) ∧ res.length = ops.length ∧
      qt.records.length + delHits ops res = addCalls ops := by
  obtain ⟨qt, res, h1, h2, h3⟩ := run_count ops _ (newtree_Inv ms md e)
  refine ⟨qt, res, h1, h2, ?_⟩
  simpa [QuadTree.records, newtree, QuadTree.root, Leaf.ofNode, Leaf.records] using h3

theorem sub_setSub_other (v : Leaf) : ∀ (p q : List Corner) (l : Leaf) (e : Extent) (s : Nat)
    (cells : List LeafData) (e' : Extent) (s' : Nat) (cells' : List LeafData),
    l.sub p = some (.payload e s cells) → l.sub q = some (.payload e' s' cells') → q ≠ p →
    (l.setSub p v).sub q = some (.payload e' s' cells') := by
  intro p
  induction p with
  | nil =>
    intro q l e s cells e' s' cells' hp hq hne
    simp [Leaf.sub] at hp; subst hp
    cases q with
    | nil => exact absurd rfl hne
    | cons k q => simp [Leaf.sub] at hq
  | cons c p ih =>
    intro q l e s cells e' s' cells' hp hq hne
    cases l with
    | payload e0 s0 cells0 => simp [Leaf.sub] at hp
    | leaf e0 s0 d ul ur ll lr =>
      cases q with
      | nil => simp [Leaf.sub] at hq
      | cons k q =>
        cases c <;> cases k <;> simp only [Leaf.sub] at hp hq <;>
          simp only [Leaf.setSub, Leaf.sub] <;>
          first
          | exact hq
          | exact ih q _ e s cells e' s' cells' hp hq (fun h => hne (by rw [h]))

theorem findleaf_eq [Midpoint] (qt : QuadTree) (h : Qnode) (x y : ℚ) (hh : qt.head = some h)
    (hw : (qt.root h).WF) : findleaf qt x y = some (some ((qt.root h).locate x y)) := by
  have := FIND_CORNER_eq x y _ hw
  simp only [QuadTree.root] at this ⊢
  simp [findleaf, hh, findleafx_root qt.extents, this]

/-- C4 (the code at the failing input): on a tree holding the single record
`(10, 10, 1)` in the root's UL bucket `(0,0,50,50)`, `movepoint(10,10,20,20,1)`
finds the record, rewrites its coordinates in place and returns `false`. -/
theorem movepoint_in_place_returns_false :
    (run (newtree 4 4 u100) [.add 10 10 1, .move 10 10 20 20 1]).map
        (fun r => (r.1.records, r.2)) =
      some ([⟨20, 20, 1⟩], [true, false]) := by
  decide!

/-- C5: on every tree obtained from `newtree`, `deletepoint(x, y, data)` returns
normally; `findleaf` yields a bucket; the flag is true exactly when that bucket's
chain holds a record with payload `data`; on success the first such record is
unlinked from that bucket, whose size drops by one, and every other bucket is as
before; on failure the tree is unchanged. -/
theorem deletepoint_exact (ms md : Nat) (e : Extent) (ops : List Op) (x y : ℚ) (data : Nat) :
    ∃ qt res h p ext cells qt' b,
      run (newtree ms md e) ops = some (qt, res) ∧ qt.head = some h ∧
      findleaf qt x y = some (some p) ∧
      h.leafAt p = some (.payload ext cells.length cells) ∧
      deletepoint qt x y data = some (qt', b) ∧
      (b = true ↔ ∃ r ∈ cells, r.data = data) ∧
      (b = false → qt' = qt) ∧
      (b = true → ∃ pre r post, cells = pre ++ r :: post ∧ r.data = data ∧
        (∀ r' ∈ pre, r'.data ≠ data) ∧
        qt' = { qt with head := some (h.setLeafAt p
          (.payload ext (cells.length - 1) (pre ++ post))) } ∧
        (h.setLeafAt p (.payload ext (cells.length - 1) (pre ++ post))).leafAt p =
          some (.payload ext (cells.length - 1) (pre ++ post)) ∧
        ∀ q ext' s' cells', q ≠ p → h.leafAt q = some (.payload ext' s' cells') →
          (h.setLeafAt p (.payload ext (cells.length - 1) (pre ++ post))).leafAt q =
            some (.payload ext' s' cells')) := by
  obtain ⟨qt, res, h1, ⟨h, hh, hw, hl⟩, -⟩ := run_Inv ops _ (newtree_Inv ms md e)
  obtain ⟨c, p, ext, cells, hp, hb, hdel⟩ := deletepoint_spec qt h x y data hh hw
  have hfind : findleaf qt x y = some (some (c :: p)) := by
    rw [findleaf_eq qt h x y hh hw, hp]
  have hat : h.leafAt (c :: p) = some (.payload ext cells.length cells) := by
    rw [leafAt_root qt.extents]; exact hb
  cases hd : delscan data cells with
  | none =>
    rw [hd] at hdel
    have hn := (delscan_none data cells).mp hd
    refine ⟨qt, res, h, c :: p, ext, cells, qt, false, h1, hh, hfind, hat, hdel, ?_,
      fun _ => rfl, fun hb' => by cases hb'⟩
    constructor
    · intro hb'; cases hb'
    · rintro ⟨r, hr, hrd⟩; exact absurd hrd (hn r hr)
  | some cells' =>
    rw [hd] at hdel
    obtain ⟨pre, r, post, e1, e2, e3, e4⟩ := delscan_some data cells cells' hd
    subst e4
    refine ⟨qt, res, h, c :: p, ext, cells, _, true, h1, hh, hfind, hat, hdel, ?_,
      (fun hb' => by cases hb'), fun _ => ⟨pre, r, post, e1, e2, e3, rfl, ?_, ?_⟩⟩
    · constructor
      · intro _; exact ⟨r, by rw [e1]; simp, e2⟩
      · intro _; rfl
    · rw [leafAt_root qt.extents, setLeafAt_root]
      exact sub_setSub _ _ _ _ hb
    · intro q ext' s' cells' hne hq
      cases q with
      | nil => simp [Qnode.leafAt] at hq
      | cons k q =>
        rw [leafAt_root qt.extents] at hq
        rw [leafAt_root qt.extents, setLeafAt_root]
        exact sub_setSub_other _ _ _ _ _ _ _ _ _ _ hb hq hne

/-- C7 (the code at the failing input): with the record `(10, 10, 1)` stored twice
in the root's UL bucket, one call `movepoint(10,10,20,20,1)` with new coordinates
strictly inside that bucket rewrites the coordinates of both records (and returns
`false`). -/
theorem movepoint_in_place_rewrites_duplicates :
    (run (newtree 4 4 u100) [.add 10 10 1, .add 10 10 1, .move 10 10 20 20 1]).map
        (fun r => (r.1.records, r.2)) =
      some ([⟨20, 20, 1⟩, ⟨20, 20, 1⟩], [true, true, false]) := by
  decide!

/-- C9: `findleaf` never fails on a live tree. It returns `NULL` exactly when the tree
has no root; and on every tree obtained from `newtree` the root is present and, for
every `(x, y)`, `findleaf` returns the slot reached from the root by repeated quadrant
selection, and that slot is a bucket (also by the source's own size/contents test). -/
theorem findleaf_total :
    (∀ (qt : QuadTree) (x y : ℚ), findleaf qt x y = some none ↔ qt.head = none) ∧
    ∀ (ms md : Nat) (e : Extent) (ops : List Op) (x y : ℚ),
      ∃ qt res h p ext s cells, run (newtree ms md e) ops = some (qt, res) ∧
        qt.head = some h ∧ findleaf qt x y = some (some p) ∧
        p = (qt.root h).locate x y ∧
        h.leafAt p = some (.payload ext s cells) ∧ s = cells.length := by
  constructor
  · intro qt x y
    unfold findleaf
    cases qt.head with
    | none => simp
    | some h => cases findleafx h x y <;> simp
  · intro ms md e ops x y
    obtain ⟨qt, res, h1, ⟨h, hh, hw, hl⟩, -⟩ := run_Inv ops _ (newtree_Inv ms md e)
    obtain ⟨c, p, hp⟩ := locate_root qt.extents h x y
    obtain ⟨ext, s, cells, hb⟩ := locate_payload x y (qt.root h)
    have hs : s = cells.length := WF_sub _ _ _ hb hw
    refine ⟨qt, res, h, _, ext, s, cells, h1, hh, findleaf_eq qt h x y hh hw, rfl, ?_, hs⟩
    change (qt.root h).locate x y = c :: p at hp
    rw [hp, leafAt_root qt.extents, ← hp]
    exact hb

/-- C10: `overlap` is symmetric; an extent with `xmin ≤ xmax` and `ymin ≤ ymax`
overlaps itself; two extents that share a point (in particular only an edge or a
corner) overlap, for instance when `A.xmax = B.xmin` and the y ranges meet; and the
four `testoverlap` cases evaluate as asserted. -/
theorem overlap_symm_touch :
    (∀ A B : Extent, overlap A B = overlap B A) ∧
    (∀ A : Extent, A.xmin ≤ A.xmax → A.ymin ≤ A.ymax → overlap A A = true) ∧
    (∀ (A B : Extent) (x y : ℚ), A.contains x y → B.contains x y → overlap A B = true) ∧
    (∀ A B : Extent, A.xmin ≤ A.xmax → B.xmin ≤ B.xmax → A.xmax = B.xmin →
      A.ymin ≤ B.ymax → B.ymin ≤ A.ymax → overlap A B = true) ∧
    overlap ⟨10, 10, 20, 20⟩ ⟨30, 30, 40, 40⟩ = false ∧
    overlap ⟨30, 30, 40, 40⟩ ⟨10, 10, 20, 20⟩ = false ∧
    overlap ⟨10, 10, 20, 20⟩ ⟨0, 0, 40, 40⟩ = true ∧
    overlap ⟨0, 0, 40, 40⟩ ⟨10, 10, 20, 20⟩ = true := by
  refine ⟨?_, ?_, ?_, ?_, by decide!, by decide!, by decide!, by decide!⟩
  · intro A B
    simp only [overlap, gt_iff_lt]
    cases decide (B.xmax < A.xmin) <;> cases decide (A.xmax < B.xmin) <;>
      cases decide (B.ymax < A.ymin) <;> cases decide (A.ymax < B.ymin) <;> rfl
  · intro A hx hy
    simp [overlap, hx, hy]
  · rintro A B x y ⟨a1, a2, a3, a4⟩ ⟨b1, b2, b3, b4⟩
    simp only [overlap, gt_iff_lt, Bool.not_eq_true', Bool.or_eq_false_iff,
      decide_eq_false_iff_not, not_lt]
    exact ⟨⟨⟨by linarith, by linarith⟩, by linarith⟩, by linarith⟩
  · intro A B ha hb hab h1 h2
    simp only [overlap, gt_iff_lt, Bool.not_eq_true', Bool.or_eq_false_iff,
      decide_eq_false_iff_not, not_lt]
    exact ⟨⟨⟨by linarith, by linarith⟩, h1⟩, h2⟩

theorem overlap_symm_touch_witness :
    overlap ⟨0, 0, 10, 10⟩ ⟨0, 0, 10, 10⟩ = true ∧
      overlap ⟨0, 0, 10, 10⟩ ⟨10, 10, 20, 20⟩ = true ∧
      overlap ⟨0, 0, 10, 10⟩ ⟨10, 5, 20, 20⟩ = true :=
  ⟨overlap_symm_touch.2.1 ⟨0, 0, 10, 10⟩ (by decide!) (by decide!),
    overlap_symm_touch.2.2.1 ⟨0, 0, 10, 10⟩ ⟨10, 10, 20, 20⟩ 10 10 (by decide!) (by decide!),
    overlap_symm_touch.2.2.2.1 ⟨0, 0, 10, 10⟩ ⟨10, 5, 20, 20⟩ (by decide!) (by decide!)
      (by decide!) (by decide!) (by decide!)⟩

theorem sub_append : ∀ (p q : List Corner) (l b : Leaf), l.sub p = some b →
    l.sub (p ++ q) = b.sub q := by
  intro p
  induction p with
  | nil => intro q l b hb; simp [Leaf.sub] at hb; subst hb; rfl
  | cons k p ih =>
    intro q l b hb
    cases l with
    | payload e s cells => simp [Leaf.sub] at hb
    | leaf e s d ul ur ll lr =>
      cases k <;> simp only [Leaf.sub] at hb <;> simp only [List.cons_append, Leaf.sub] <;>
        exact ih q _ b hb

theorem locate_of_mem (l : Leaf) (hl : l.Loc) (p : List Corner) (e : Extent) (s : Nat)
    (cells : List LeafData) (hb : l.sub p = some (.payload e s cells)) (r : LeafData)
    (hr : r ∈ cells) : l.locate r.x r.y = p :=
  locate_of_follows r.x r.y p l e s cells hb (follows_of_Loc p l _ hb hl r hr)

theorem sub_payload_append (l : Leaf) (a t : List Corner) (e : Extent) (s : Nat)
    (cells : List LeafData) (b : Leaf) (ha : l.sub a = some (.payload e s cells))
    (hb : l.sub (a ++ t) = some b) : t = [] := by
  rw [sub_append a t l _ ha] at hb
  cases t with
  | nil => rfl
  | cons k t => simp [Leaf.sub] at hb

theorem grown_locate_nil [Midpoint] (ms md d : Nat) (e : Extent) (s : Nat)
    (cells : List LeafData) (r : LeafData)
    (h : (grown ms md d e s cells r).locate r.x r.y = []) :
    grown ms md d e s cells r = .payload e (s + 1) (r :: cells) := by
  unfold grown at h ⊢
  split
  · rename_i hc
    rw [if_pos hc] at h
    simp only [splitOf, Leaf.locate] at h
    cases hk : selectQuadrant r.x r.y
      (Leaf.payload (e.quarter .ul)
        (routed (halfway e.xmin e.xmax) (halfway e.ymin e.ymax) .ul (r :: cells)).length
        (routed (halfway e.xmin e.xmax) (halfway e.ymin e.ymax) .ul
          (r :: cells)).reverse).extents.xmax
      (Leaf.payload (e.quarter .ul)
        (routed (halfway e.xmin e.xmax) (halfway e.ymin e.ymax) .ul (r :: cells)).length
        (routed (halfway e.xmin e.xmax) (halfway e.ymin e.ymax) .ul
          (r :: cells)).reverse).extents.ymax <;>
      rw [hk] at h <;> simp at h
  · rfl

theorem erase_mid (A pre post B : List LeafData) (r : LeafData) :
    List.Perm ((A ++ (pre ++ r :: post) ++ B).erase r) (A ++ (pre ++ post) ++ B) := by
  have h : List.Perm (A ++ (pre ++ r :: post) ++ B) (r :: (A ++ (pre ++ post) ++ B)) := by
    simp only [List.append_assoc, List.cons_append]
    rw [← List.append_assoc A pre, ← List.append_assoc A pre]
    exact List.perm_middle
  refine (h.erase r).trans ?_
  rw [List.erase_cons_head]

/-- Where `addpoint` puts a record: the bucket the descent ends in is replaced by what
`addleafdata` leaves, and the descent for the new coordinates then ends in a bucket
at or below that slot holding the record. -/
theorem addpoint_where [Midpoint] (qt : QuadTree) (h : Qnode) (x y : ℚ) (data : Nat)
    (hh : qt.head = some h) (hw : (qt.root h).WF) :
    ∃ c q e1 cells1 g t ext' s' cells',
      (qt.root h).sub (c :: q) = some (.payload e1 cells1.length cells1) ∧
      addpoint qt x y data =
        some ({ qt with head := some (h.setLeafAt (c :: q) g) }, true) ∧
      List.Perm g.records (⟨x, y, data⟩ :: cells1) ∧
      findleaf { qt with head := some (h.setLeafAt (c :: q) g) } x y =
        some (some ((c :: q) ++ t)) ∧
      (h.setLeafAt (c :: q) g).leafAt ((c :: q) ++ t) = some (.payload ext' s' cells') ∧
      g.sub t = some (.payload ext' s' cells') ∧
      (⟨x, y, data⟩ : LeafData) ∈ cells' ∧
      (t = [] → g = .payload e1 (cells1.length + 1) (⟨x, y, data⟩ :: cells1)) := by
  obtain ⟨c, q, e1, cells1, hq, hb1, hadd⟩ := addpoint_spec qt h x y data hh hw
  have hge := grown_extents qt.maxsize qt.maxdepth ((qt.root h).ownerDepth 0 (c :: q)) e1
    cells1.length cells1 ⟨x, y, data⟩
  have hgw := grown_WF qt.maxsize qt.maxdepth ((qt.root h).ownerDepth 0 (c :: q)) e1
    cells1.length cells1 ⟨x, y, data⟩ rfl
  have hgp := grown_records_perm qt.maxsize qt.maxdepth ((qt.root h).ownerDepth 0 (c :: q)) e1
    cells1.length cells1 ⟨x, y, data⟩
  have hgn := grown_locate_nil qt.maxsize qt.maxdepth ((qt.root h).ownerDepth 0 (c :: q)) e1
    cells1.length cells1 ⟨x, y, data⟩
  obtain ⟨ext', s', cells', g1, g2⟩ := grown_locate qt.maxsize qt.maxdepth
    ((qt.root h).ownerDepth 0 (c :: q)) e1 cells1.length cells1 ⟨x, y, data⟩
  generalize grown qt.maxsize qt.maxdepth ((qt.root h).ownerDepth 0 (c :: q)) e1
    cells1.length cells1 ⟨x, y, data⟩ = g at hadd hge hgw hgp hgn g1
  have hw' : (QuadTree.root { qt with head := some (h.setLeafAt (c :: q) g) }
      (h.setLeafAt (c :: q) g)).WF := by
    obtain ⟨h', hh', hw'⟩ := Live_store qt h c q _ g hw hb1 hge hgw
    simp only [Option.some.injEq] at hh'
    subst hh'
    exact hw'
  have hloc := locate_setSub x y g (c :: q) _ e1 _ cells1 hb1 hge
  rw [if_pos hq] at hloc
  have hroot := setLeafAt_root qt.extents h c q g
  have hfind := findleaf_eq { qt with head := some (h.setLeafAt (c :: q) g) }
    (h.setLeafAt (c :: q) g) x y rfl hw'
  have hat : (h.setLeafAt (c :: q) g).leafAt ((c :: q) ++ g.locate x y) =
      some (.payload ext' s' cells') := by
    simp only [QuadTree.root] at hb1
    rw [List.cons_append, leafAt_root qt.extents, hroot, ← List.cons_append,
      sub_append _ _ _ _ (sub_setSub _ _ _ _ hb1)]
    exact g1
  refine ⟨c, q, e1, cells1, g, g.locate x y, ext', s', cells', hb1, hadd, hgp, ?_, hat, g1,
    g2, hgn⟩
  rw [hfind]
  simp only [QuadTree.root] at hloc ⊢
  rw [hroot, hloc]

theorem run_append [Midpoint] : ∀ (a b : List Op) (qt : QuadTree),
    run qt (a ++ b) =
      (run qt a).bind fun r => (run r.1 b).map fun r' => (r'.1, r.2 ++ r'.2) := by
  intro a
  induction a with
  | nil => intro b qt; simp [run]
  | cons op a ih =>
    intro b qt
    show run qt (op :: (a ++ b)) = _
    simp only [run]
    cases step qt op with
    | none => rfl
    | some r =>
      simp only [Option.some_bind]
      rw [ih]
      cases run r.1 a with
      | none => rfl
      | some r1 =>
        simp only [Option.some_bind, Option.map_some']
        cases run r1.1 b <;> simp

theorem setCorner_setCorner (h : Qnode) (k : Corner) (a b : Leaf) :
    (h.setCorner k a).setCorner k b = h.setCorner k b := by
  cases k <;> rfl

theorem corner_setCorner (h : Qnode) (k : Corner) (a : Leaf) :
    (h.setCorner k a).corner k = a := by
  cases k <;> rfl

theorem addpoint_root_bucket [Midpoint] (qt : QuadTree) (h : Qnode) (k : Corner) (ek : Extent)
    (cells : List LeafData) (x y : ℚ) (data : Nat) (hh : qt.head = some h)
    (hk : DO_CORNERS x y h.ul.extents.xmax h.ul.extents.ymax = k)
    (hb : h.corner k = .payload ek cells.length cells) :
    addpoint qt x y data =
      some ({ qt with head := some (h.setCorner k
        (grown qt.maxsize qt.maxdepth h.depth ek cells.length cells ⟨x, y, data⟩)) },
        true) := by
  simp only [addpoint, hh, addpointx, hk, hb, ADD_CORNER, addleafdata_eq]
  cases cells <;> simp

theorem run_adds_bucket [Midpoint] (k : Corner) (ek : Extent) : ∀ (pts cells : List LeafData)
    (qt : QuadTree) (h : Qnode), qt.head = some h →
    h.corner k = .payload ek cells.length cells → (h.corner .ul).extents = h.ul.extents →
    (k = .ul → ek = h.ul.extents) →
    (∀ p ∈ pts, DO_CORNERS p.x p.y h.ul.extents.xmax h.ul.extents.ymax = k) →
    (cells.length + pts.length < qt.maxsize ∨ ¬ h.depth < qt.maxdepth) →
    run qt (addAll pts) =
      some ({ qt with head := some (h.setCorner k
        (.payload ek (pts.reverse ++ cells).length (pts.reverse ++ cells))) },
        List.replicate pts.length true) := by
  intro pts
  induction pts with
  | nil =>
    intro cells qt h hh hb _ _ _ _
    have : h.setCorner k (.payload ek cells.length cells) = h := by
      rw [← hb]; cases k <;> rfl
    simp only [addAll, List.map_nil, run, List.reverse_nil, List.nil_append, this,
      List.length_nil, List.replicate_zero]
    obtain ⟨hd, a, b, c⟩ := qt
    simp only at hh
    subst hh
    rfl
  | cons p pts ih =>
    intro cells qt h hh hb hul hek hk hlt
    have hadd := addpoint_root_bucket qt h k ek cells p.x p.y p.data hh
      (hk p (List.mem_cons_self _ _)) hb
    have hg : grown qt.maxsize qt.maxdepth h.depth ek cells.length cells ⟨p.x, p.y, p.data⟩ =
        .payload ek (p :: cells).length (p :: cells) := by
      unfold grown
      rw [if_neg]
      · rfl
      · simp only [List.length_cons] at hlt
        rintro ⟨h1, h2⟩
        rcases hlt with h3 | h3
        · omega
        · exact h3 h2
    rw [hg] at hadd
    have hul' : (h.setCorner k (.payload ek (p :: cells).length (p :: cells))).ul.extents =
        h.ul.extents := by
      cases k
      · simp only [Qnode.setCorner, Leaf.extents]; exact hek rfl
      all_goals rfl
    have := ih (p :: cells)
      { qt with head := some (h.setCorner k (.payload ek (p :: cells).length (p :: cells))) }
      (h.setCorner k (.payload ek (p :: cells).length (p :: cells)))
      rfl (corner_setCorner _ _ _) (by simp only [Qnode.corner])
      (fun hk' => by rw [hul']; exact hek hk')
      (fun p' hp' => by rw [hul']; exact hk p' (List.mem_cons_of_mem _ hp'))
      (by simp only [List.length_cons] at hlt ⊢
          rcases hlt with h3 | h3
          · left; show _ < qt.maxsize; omega
          · right; cases k <;> exact h3)
    simp only [addAll, List.map_cons, run, step, hadd, Option.some_bind] at this ⊢
    rw [this]
    simp [setCorner_setCorner, List.replicate_succ]

theorem routed_reverse (xm ym : ℚ) (c : Corner) (cells : List LeafData) :
    (routed xm ym c cells.reverse).reverse = routed xm ym c cells := by
  simp [routed, List.filter_reverse]

theorem freshRoot_corner [Midpoint] (e : Extent) (k : Corner) :
    (freshRoot e).corner k = .payload (e.quarter k) ([] : List LeafData).length [] := by
  cases k <;> rfl

/-- C8 (refutation): with `halfway` computed in binary32 the records of a split are
not placed by the rule at the true midpoint of the old bucket. On the fresh tree with
universe `(1, 1, 1 + 2^-22, 1 + 2^-22)`, `maxsize = 1` and `maxdepth = 4`,
`addpoint(1,1,5)` selects the root's UL bucket `(1, 1, 1 + 2^-23, 1 + 2^-23)` and
splits it; `halfway` returns `1` on both axes, so the new UL bucket is `(1,1,1,1)`
and the record sits in the new LR bucket, whereas the quadrant-selection rule at the
true midpoint `1 + 2^-24` of the old bucket selects UL. -/
theorem split_not_at_true_midpoint :
    @run binary32Midpoint (@newtree binary32Midpoint 1 4 narrowUniverse) [.add 1 1 5] =
      some (narrowSplitTree, [true]) ∧
    DO_CORNERS 1 1 (@halfway binary32Midpoint narrowUniverse.xmin narrowUniverse.xmax)
      (@halfway binary32Midpoint narrowUniverse.ymin narrowUniverse.ymax) = .ul ∧
    @Extent.quarter binary32Midpoint narrowUniverse .ul = adjacentExtent ∧
    selectQuadrant 1 1 (adjacentExtent.xmin + (adjacentExtent.xmax - adjacentExtent.xmin) / 2)
      (adjacentExtent.ymin + (adjacentExtent.ymax - adjacentExtent.ymin) / 2) = .ul := by
  refine ⟨by decide!, by decide!, by decide!, by decide!⟩

/-- C8 (amended): split trigger relative to the computed midpoint. For every reading
of `halfway`, on a fresh tree with `maxsize = n ≥ 1`, inserting `n` points that all
select the same root quadrant `k`: after each of the first `n - 1` inserts the tree
is the fresh root with slot `k` a bucket holding the points inserted so far (no node
created); if `maxdepth ≥ 2` the `n`-th insert turns slot `k` into a branch to one new
node of depth 2 whose four buckets cut the old bucket at `(xm, ym)`, the values
`halfway` returns for the old bucket's extent, and hold the `n` records as
`DO_CORNERS` selects them at `(xm, ym)`, with no further split however they fall; if
`maxdepth = 1` slot `k` stays a single bucket with all `n` records. -/
theorem split_trigger [Midpoint] (n md : Nat) (e : Extent) (k : Corner) (pts : List LeafData)
    (hn : 1 ≤ n) (hlen : pts.length = n)
    (hk : ∀ p ∈ pts,
      DO_CORNERS p.x p.y (halfway e.xmin e.xmax) (halfway e.ymin e.ymax) = k) :
    (∀ j, j < n → run (newtree n md e) (addAll (pts.take j)) =
      some (⟨some ((freshRoot e).setCorner k
          (.payload (e.quarter k) j (pts.take j).reverse)), n, md, e⟩,
        List.replicate j true)) ∧
    (2 ≤ md → run (newtree n md e) (addAll pts) =
      some (⟨some ((freshRoot e).setCorner k
          (.leaf (e.quarter k) 0 2
            (.payload ((e.quarter k).quarter .ul)
              (routed (halfway (e.quarter k).xmin (e.quarter k).xmax)
                (halfway (e.quarter k).ymin (e.quarter k).ymax) .ul pts).length
              (routed (halfway (e.quarter k).xmin (e.quarter k).xmax)
                (halfway (e.quarter k).ymin (e.quarter k).ymax) .ul pts))
            (.payload ((e.quarter k).quarter .ur)
              (routed (halfway (e.quarter k).xmin (e.quarter k).xmax)
                (halfway (e.quarter k).ymin (e.quarter k).ymax) .ur pts).length
              (routed (halfway (e.quarter k).xmin (e.quarter k).xmax)
                (halfway (e.quarter k).ymin (e.quarter k).ymax) .ur pts))
            (.payload ((e.quarter k).quarter .ll)
              (routed (halfway (e.quarter k).xmin (e.quarter k).xmax)
                (halfway (e.quarter k).ymin (e.quarter k).ymax) .ll pts).length
              (routed (halfway (e.quarter k).xmin (e.quarter k).xmax)
                (halfway (e.quarter k).ymin (e.quarter k).ymax) .ll pts))
            (.payload ((e.quarter k).quarter .lr)
              (routed (halfway (e.quarter k).xmin (e.quarter k).xmax)
                (halfway (e.quarter k).ymin (e.quarter k).ymax) .lr pts).length
              (routed (halfway (e.quarter k).xmin (e.quarter k).xmax)
                (halfway (e.quarter k).ymin (e.quarter k).ymax) .lr pts)))), n, md, e⟩,
        List.replicate n true)) ∧
    (md = 1 → run (newtree n md e) (addAll pts) =
      some (⟨some ((freshRoot e).setCorner k (.payload (e.quarter k) n pts.reverse)),
        n, md, e⟩, List.replicate n true)) := by
  have hbase : ∀ (qs : List LeafData), (∀ p ∈ qs, p ∈ pts) →
      (qs.length < n ∨ ¬ 1 < md) →
      run (newtree n md e) (addAll qs) =
        some (⟨some ((freshRoot e).setCorner k
            (.payload (e.quarter k) qs.length qs.reverse)), n, md, e⟩,
          List.replicate qs.length true) := by
    intro qs hqs hlt
    have := run_adds_bucket k (e.quarter k) qs [] (newtree n md e) (freshRoot e) rfl
      (freshRoot_corner e k) rfl (fun hk' => by subst hk'; rfl)
      (fun p hp => hk p (hqs p hp))
      (by rcases hlt with h | h
          · left; simpa using h
          · right; exact h)
    simpa using this
  refine ⟨?_, ?_, ?_⟩
  · intro j hj
    have hl : (pts.take j).length = j := by
      rw [List.length_take, hlen]; omega
    have := hbase (pts.take j) (fun p hp => List.mem_of_mem_take hp) (Or.inl (by omega))
    rw [hl] at this
    exact this
  · intro hmd
    have hne : pts ≠ [] := by
      intro h0; rw [h0] at hlen; simp at hlen; omega
    obtain ⟨init, last, rfl⟩ : ∃ init last, pts = init ++ [last] :=
      ⟨pts.dropLast, pts.getLast hne, (List.dropLast_append_getLast hne).symm⟩
    have hil : init.length + 1 = n := by simpa using hlen
    have h1 := hbase init (fun p hp => List.mem_append_left _ hp) (Or.inl (by omega))
    have hadd := addpoint_root_bucket
      ⟨some ((freshRoot e).setCorner k
          (.payload (e.quarter k) init.length init.reverse)), n, md, e⟩
      ((freshRoot e).setCorner k (.payload (e.quarter k) init.length init.reverse))
      k (e.quarter k) init.reverse last.x last.y last.data rfl
      (by
        have := hk last (by simp)
        cases k <;> exact this)
      (by rw [corner_setCorner, List.length_reverse])
    have hg : grown n md 1 (e.quarter k) init.reverse.length init.reverse
        ⟨last.x, last.y, last.data⟩ =
        splitOf (e.quarter k) (last :: init.reverse) 2 := by
      unfold grown
      rw [if_pos]
      simp only [List.length_reverse]
      exact ⟨by omega, by omega⟩
    have hd : ((freshRoot e).setCorner k
        (.payload (e.quarter k) init.length init.reverse)).depth = 1 := by
      cases k <;> rfl
    simp only [hd, hg, setCorner_setCorner] at hadd
    have hsplit : splitOf (e.quarter k) (last :: init.reverse) 2 =
        splitOf (e.quarter k) (init ++ [last]).reverse 2 := by simp
    rw [hsplit] at hadd
    simp only [addAll, List.map_append, List.map_cons, List.map_nil] at h1 ⊢
    rw [run_append, h1]
    simp only [Option.some_bind, run, step, hadd, Option.map_some']
    simp only [splitOf, List.length_reverse, ← hil, List.replicate_succ',
      routed, List.filter_reverse, List.reverse_reverse]
  · intro hmd
    have := hbase pts (fun p hp => hp) (Or.inr (by omega))
    rw [hlen] at this
    exact this

theorem split_trigger_witness :
    @run binary32Midpoint (@newtree binary32Midpoint 1 4 narrowUniverse)
        (addAll [⟨1, 1, 5⟩]) =
      some (⟨some ((@freshRoot binary32Midpoint narrowUniverse).setCorner .ul
        (.leaf adjacentExtent 0 2
          (.payload ⟨1, 1, 1, 1⟩ 0 [])
          (.payload ⟨1, 1, 1 + 1 / 8388608, 1⟩ 0 [])
          (.payload ⟨1, 1, 1, 1 + 1 / 8388608⟩ 0 [])
          (.payload adjacentExtent 1 [⟨1, 1, 5⟩]))), 1, 4, narrowUniverse⟩, [true]) :=
  ((@split_trigger binary32Midpoint 1 4 narrowUniverse .ul [⟨1, 1, 5⟩] (by decide!)
    (by decide!) (by decide!)).2.1 (by decide!)).trans (by decide!)

/-! ## Worked scenario and split redistribution -/

/-- C11: the worked scenario with `maxsize = 2`, `maxdepth = 4`, universe
`(0,0,100,100)`. After `addpoint(10,10,1)` and `addpoint(20,20,2)` the root's UL slot
is a Branch to a depth-2 node whose four extents meet at `(25,25)` and whose UL
bucket holds both records with size 2; the radius query centred `(15,15)` with
radius 10 visits exactly the two records; `deletepoint(10,10,1)` returns true and
leaves that bucket with size 1 under the same depth-2 node; `movepoint(20,20,60,60,2)`
then returns true and leaves the record alone in the root's LR bucket (size 1) with the
depth-2 UL bucket empty. -/
theorem worked_scenario :
    run (newtree 2 4 u100) [.add 10 10 1, .add 20 20 2] = some (scenarioAB, [true, true]) ∧
    maptonearby scenarioAB 15 15 10 = some [⟨10, 10, 1⟩, ⟨20, 20, 2⟩] ∧
    deletepoint scenarioAB 10 10 1 = some (scenarioB, true) ∧
    movepoint scenarioB 20 20 60 60 2 = some (scenarioMoved, true) := by
  refine ⟨by decide!, by decide!, by decide!, by decide!⟩

/-- C12 (refutation): with `halfway` computed in binary32, `leafpushdown` does not
split at the true midpoint. For the bucket with extent `(1, 1, 1 + 2^-23, 1 + 2^-23)`
holding the record `(1, 1, 5)`, `halfway` returns `1` on both axes: the new UL bucket
is `(1,1,1,1)` and the record goes to the LR bucket, whereas the quadrant-selection
rule at the true midpoint `1 + 2^-24` of the extent selects UL. -/
theorem leafpushdown_not_at_true_midpoint :
    @leafpushdown binary32Midpoint (.payload adjacentExtent 1 [⟨1, 1, 5⟩]) 2 =
      some (.leaf adjacentExtent 0 2
        (.payload ⟨1, 1, 1, 1⟩ 0 [])
        (.payload ⟨1, 1, 1 + 1 / 8388608, 1⟩ 0 [])
        (.payload ⟨1, 1, 1, 1 + 1 / 8388608⟩ 0 [])
        (.payload ⟨1, 1, 1 + 1 / 8388608, 1 + 1 / 8388608⟩ 1 [⟨1, 1, 5⟩])) ∧
    selectQuadrant 1 1 (adjacentExtent.xmin + (adjacentExtent.xmax - adjacentExtent.xmin) / 2)
      (adjacentExtent.ymin + (adjacentExtent.ymax - adjacentExtent.ymin) / 2) = .ul := by
  refine ⟨by decide!, by decide!⟩

/-- C12 (amended): split redistribution relative to the computed midpoint. For every
reading of `halfway`, `leafpushdown` on a bucket with extent `E` and chain `R` at new
depth `d` returns normally and leaves a Branch with size 0 to a node of depth `d`
whose four buckets have the extents cutting `E` at `(xm, ym)`, where
`xm = halfway(E.xmin, E.xmax)` and `ym = halfway(E.ymin, E.ymax)` are the values
`halfway` returns; each new chain holds exactly the records of `R` that quadrant
selection at `(xm, ym)` sends to its corner; each new size is the length of its
chain; the four sizes sum to `|R|` and the four chains together are a permutation of
`R`. `addleafdata` calls it on the chain with the new record in front. -/
theorem leafpushdown_redistributes [Midpoint] (E : Extent) (s : Nat) (R : List LeafData)
    (d : Nat) :
    ∃ l1 l2 l3 l4 : List LeafData,
      leafpushdown (.payload E s R) d =
        some (.leaf E 0 d
          (.payload ⟨E.xmin, E.ymin, halfway E.xmin E.xmax, halfway E.ymin E.ymax⟩
            l1.length l1)
          (.payload ⟨halfway E.xmin E.xmax, E.ymin, E.xmax, halfway E.ymin E.ymax⟩
            l2.length l2)
          (.payload ⟨E.xmin, halfway E.ymin E.ymax, halfway E.xmin E.xmax, E.ymax⟩
            l3.length l3)
          (.payload ⟨halfway E.xmin E.xmax, halfway E.ymin E.ymax, E.xmax, E.ymax⟩
            l4.length l4)) ∧
      (∀ r, r ∈ l1 ↔ r ∈ R ∧
        selectQuadrant r.x r.y (halfway E.xmin E.xmax) (halfway E.ymin E.ymax) = .ul) ∧
      (∀ r, r ∈ l2 ↔ r ∈ R ∧
        selectQuadrant r.x r.y (halfway E.xmin E.xmax) (halfway E.ymin E.ymax) = .ur) ∧
      (∀ r, r ∈ l3 ↔ r ∈ R ∧
        selectQuadrant r.x r.y (halfway E.xmin E.xmax) (halfway E.ymin E.ymax) = .ll) ∧
      (∀ r, r ∈ l4 ↔ r ∈ R ∧
        selectQuadrant r.x r.y (halfway E.xmin E.xmax) (halfway E.ymin E.ymax) = .lr) ∧
      l1.length + l2.length + l3.length + l4.length = R.length ∧
      List.Perm (l1 ++ l2 ++ l3 ++ l4) R ∧
      ∀ (ms md dd : Nat) (r : LeafData), s + 1 ≥ ms → dd < md →
        addleafdata ms md dd (.payload E s R) r =
          leafpushdown (.payload E (s + 1) (r :: R)) (dd + 1) := by
  have hp := splitOf_records_perm E R d
  refine ⟨(routed (halfway E.xmin E.xmax) (halfway E.ymin E.ymax) .ul R).reverse,
    (routed (halfway E.xmin E.xmax) (halfway E.ymin E.ymax) .ur R).reverse,
    (routed (halfway E.xmin E.xmax) (halfway E.ymin E.ymax) .ll R).reverse,
    (routed (halfway E.xmin E.xmax) (halfway E.ymin E.ymax) .lr R).reverse,
    ?_, ?_, ?_, ?_, ?_, ?_, hp, ?_⟩
  · rw [leafpushdown_eq]
    simp only [splitOf, Extent.quarter, List.length_reverse]
  · intro r; simp [routed, selectQuadrant_eq]
  · intro r; simp [routed, selectQuadrant_eq]
  · intro r; simp [routed, selectQuadrant_eq]
  · intro r; simp [routed, selectQuadrant_eq]
  · have := hp.length_eq
    simpa [splitOf, Leaf.records, Nat.add_assoc] using this
  · intro ms md dd r h1 h2
    simp [addleafdata, h1, h2]

theorem leafpushdown_redistributes_witness :
    @addleafdata binary32Midpoint 2 4 1 (.payload adjacentExtent 1 [⟨1, 1, 5⟩])
        ⟨1 + 1 / 8388608, 1, 6⟩ =
      @leafpushdown binary32Midpoint
        (.payload adjacentExtent 2 [⟨1 + 1 / 8388608, 1, 6⟩, ⟨1, 1, 5⟩]) 2 := by
  obtain ⟨_, _, _, _, _, _, _, _, _, _, _, h⟩ :=
    @leafpushdown_redistributes binary32Midpoint adjacentExtent 1 [⟨1, 1, 5⟩] 2
  exact h 2 4 1 ⟨1 + 1 / 8388608, 1, 6⟩ (by decide) (by decide)

/-! ## Every call is a sequence of elementary mutations -/

theorem step_Mut (qt : QuadTree) (op : Op) (hinv : qt.Inv) :
    ∃ qt' b, step qt op = some (qt', b) ∧ qt'.Inv ∧ Relation.ReflTransGen Mut qt qt' := by
  cases op with
  | add x y data =>
    obtain ⟨qt', a1, a2, -⟩ := addpoint_Inv qt x y data hinv
    obtain ⟨h, hh, hw, hl⟩ := hinv
    obtain ⟨c, p, e, cells, hp, hb, hadd⟩ := addpoint_spec qt h x y data hh hw
    rw [hadd] at a1
    simp only [Option.some.injEq, Prod.mk.injEq, and_true] at a1
    subst a1
    exact ⟨_, true, hadd, a2, Relation.ReflTransGen.single (Mut.grow qt h c p e _ cells _ hh hb)⟩
  | del x y data =>
    obtain ⟨qt', b, a1, a2, -⟩ := deletepoint_Inv qt x y data hinv
    refine ⟨qt', b, a1, a2, ?_⟩
    obtain ⟨h, hh, hw, hl⟩ := hinv
    obtain ⟨c, p, e, cells, hp, hb, hdel⟩ := deletepoint_spec qt h x y data hh hw
    rw [hdel] at a1
    cases hd : delscan data cells with
    | none =>
      rw [hd] at a1
      simp only [Option.some.injEq, Prod.mk.injEq] at a1
      rw [← a1.1]
    | some cells' =>
      rw [hd] at a1
      simp only [Option.some.injEq, Prod.mk.injEq] at a1
      rw [← a1.1]
      obtain ⟨pre, r, post, e1, -, -, e4⟩ := delscan_some data cells cells' hd
      have hlen : cells.length - 1 = cells'.length := by rw [e1, e4]; simp
      rw [hlen]
      exact Relation.ReflTransGen.single (Mut.bucket qt h c p e _ cells cells' hh hb)
  | move oldx oldy newx newy data =>
    obtain ⟨qt', b, a1, a2, -⟩ := movepoint_Inv qt oldx oldy newx newy data hinv
    refine ⟨qt', b, a1, a2, ?_⟩
    obtain ⟨h, hh, hw, hl⟩ := hinv
    obtain ⟨c, p, hp⟩ := locate_root qt.extents h oldx oldy
    obtain ⟨e, s, cells, hb⟩ := locate_payload oldx oldy (qt.root h)
    have hs : s = cells.length := WF_sub _ _ _ hb hw
    subst hs
    change (qt.root h).locate oldx oldy = c :: p at hp
    rw [hp] at hb
    by_cases hi : pointinside newx newy e = true
    · rw [movepoint_inside qt h oldx oldy newx newy data hh hw c p e cells hp hb hi] at a1
      simp only [Option.some.injEq, Prod.mk.injEq] at a1
      rw [← a1.1]
      have hlen : cells.length = (cells.map (moved oldx oldy newx newy data)).length := by simp
      rw [hlen]
      exact Relation.ReflTransGen.single (Mut.bucket qt h c p e _ cells _ hh hb)
    · by_cases hm : ∃ r ∈ cells, data = r.data ∧ oldx = r.x ∧ oldy = r.y
      · have hi' : pointinside newx newy e = false := by simpa using hi
        obtain ⟨pre, post, h1, -, h3⟩ :=
          movepoint_outside qt h oldx oldy newx newy data hh hw c p e cells hp hb hi' hm
        subst h1
        obtain ⟨i1, -, -⟩ := unlink_Inv qt h c p e pre post _ hh hw hl hb
        have m1 := Mut.bucket qt h c p e _ _ (pre ++ post) hh hb
        obtain ⟨h1, hh1, hw1, hl1⟩ := i1
        obtain ⟨c', q, e', cells1, hq, hb1, hadd⟩ := addpoint_spec _ h1 newx newy data hh1 hw1
        rw [h3, hadd] at a1
        simp only [Option.some.injEq, Prod.mk.injEq] at a1
        rw [← a1.1]
        exact (Relation.ReflTransGen.single m1).tail (Mut.grow _ h1 c' q e' _ cells1 _ hh1 hb1)
      · rw [movepoint_nomatch qt h oldx oldy newx newy data hh hw c p e cells hp hb
          (fun r hr hc => hm ⟨r, hr, hc⟩)] at a1
        simp only [Option.some.injEq, Prod.mk.injEq] at a1
        rw [← a1.1]

theorem run_Mut : ∀ (ops : List Op) (qt : QuadTree), qt.Inv →
    ∃ qt' res, run qt ops = some (qt', res) ∧ qt'.Inv ∧ Relation.ReflTransGen Mut qt qt' := by
  intro ops
  induction ops with
  | nil => intro qt hinv; exact ⟨qt, [], rfl, hinv, Relation.ReflTransGen.refl⟩
  | cons op ops ih =>
    intro qt hinv
    obtain ⟨qt1, b, s1, s2, s3⟩ := step_Mut qt op hinv
    obtain ⟨qt2, res, r1, r2, r3⟩ := ih qt1 s2
    exact ⟨qt2, b :: res, by simp [run, s1, r1], r2, s3.trans r3⟩

theorem Mut_fields [Midpoint] (qt qt' : QuadTree) (hm : Mut qt qt') :
    qt'.extents = qt.extents ∧ qt'.maxsize = qt.maxsize ∧ qt'.maxdepth = qt.maxdepth := by
  cases hm <;> exact ⟨rfl, rfl, rfl⟩

/-! ## Shapes only grow -/

theorem Grows_extents : ∀ (l l' : Leaf), l.Grows l' → l'.extents = l.extents := by
  intro l l' h
  cases l with
  | payload e s cells => exact h
  | leaf e s d ul ur ll lr =>
    cases l' with
    | payload e' s' cells' => exact absurd h (by simp [Leaf.Grows])
    | leaf e' s' d' ul' ur' ll' lr' => exact h.1

theorem Grows_refl : ∀ l : Leaf, l.Grows l := by
  intro l
  induction l with
  | payload e s cells => rfl
  | leaf e s d ul ur ll lr h1 h2 h3 h4 => exact ⟨rfl, rfl, h1, h2, h3, h4⟩

theorem Grows_trans : ∀ (a b c : Leaf), a.Grows b → b.Grows c → a.Grows c := by
  intro a
  induction a with
  | payload e s cells =>
    intro b c hab hbc
    have h1 := Grows_extents _ _ hbc
    simp only [Leaf.Grows] at hab ⊢
    rw [h1, hab]
  | leaf e s d ul ur ll lr h1 h2 h3 h4 =>
    intro b c hab hbc
    cases b with
    | payload e' s' cells' => exact absurd hab (by simp [Leaf.Grows])
    | leaf e' s' d' ul' ur' ll' lr' =>
      cases c with
      | payload e'' s'' cells'' => exact absurd hbc (by simp [Leaf.Grows])
      | leaf e'' s'' d'' ul'' ur'' ll'' lr'' =>
        obtain ⟨a1, a2, a3, a4, a5, a6⟩ := hab
        obtain ⟨b1, b2, b3, b4, b5, b6⟩ := hbc
        exact ⟨b1.trans a1, b2.trans a2, h1 _ _ a3 b3, h2 _ _ a4 b4, h3 _ _ a5 b5,
          h4 _ _ a6 b6⟩

theorem Grows_setSub (v : Leaf) : ∀ (p : List Corner) (l : Leaf) (e : Extent) (s : Nat)
    (cells : List LeafData), l.sub p = some (.payload e s cells) → v.extents = e →
    l.Grows (l.setSub p v) := by
  intro p
  induction p with
  | nil =>
    intro l e s cells hb hv
    simp [Leaf.sub] at hb; subst hb
    simpa [Leaf.setSub, Leaf.Grows] using hv
  | cons k p ih =>
    intro l e s cells hb hv
    cases l with
    | payload e0 s0 cells0 => simp [Leaf.sub] at hb
    | leaf e0 s0 d ul ur ll lr =>
      cases k <;> simp only [Leaf.sub] at hb <;> simp only [Leaf.setSub, Leaf.Grows]
      · exact ⟨trivial, trivial, ih _ e s cells hb hv, Grows_refl _, Grows_refl _, Grows_refl _⟩
      · exact ⟨trivial, trivial, Grows_refl _, ih _ e s cells hb hv, Grows_refl _, Grows_refl _⟩
      · exact ⟨trivial, trivial, Grows_refl _, Grows_refl _, ih _ e s cells hb hv, Grows_refl _⟩
      · exact ⟨trivial, trivial, Grows_refl _, Grows_refl _, Grows_refl _, ih _ e s cells hb hv⟩

theorem Grows_sub : ∀ (p : List Corner) (l l' b : Leaf), l.Grows l' → l.sub p = some b →
    ∃ b', l'.sub p = some b' ∧ b.Grows b' := by
  intro p
  induction p with
  | nil =>
    intro l l' b hg hb
    simp [Leaf.sub] at hb; subst hb
    exact ⟨l', by simp [Leaf.sub], hg⟩
  | cons k p ih =>
    intro l l' b hg hb
    cases l with
    | payload e s cells => simp [Leaf.sub] at hb
    | leaf e s d ul ur ll lr =>
      cases l' with
      | payload e' s' cells' => exact absurd hg (by simp [Leaf.Grows])
      | leaf e' s' d' ul' ur' ll' lr' =>
        obtain ⟨-, -, g1, g2, g3, g4⟩ := hg
        cases k <;> simp only [Leaf.sub] at hb ⊢
        · exact ih _ _ b g1 hb
        · exact ih _ _ b g2 hb
        · exact ih _ _ b g3 hb
        · exact ih _ _ b g4 hb

theorem Grows_locate (x y : ℚ) : ∀ (l l' : Leaf), l.Grows l' →
    l.locate x y <+: l'.locate x y := by
  intro l
  induction l with
  | payload e s cells => intro l' _; simp [Leaf.locate]
  | leaf e s d ul ur ll lr h1 h2 h3 h4 =>
    intro l' hg
    cases l' with
    | payload e' s' cells' => exact absurd hg (by simp [Leaf.Grows])
    | leaf e' s' d' ul' ur' ll' lr' =>
      obtain ⟨-, -, g1, g2, g3, g4⟩ := hg
      simp only [Leaf.locate, Grows_extents _ _ g1]
      cases selectQuadrant x y ul.extents.xmax ul.extents.ymax <;>
        simp only [List.prefix_cons_inj]
      · exact h1 _ g1
      · exact h2 _ g2
      · exact h3 _ g3
      · exact h4 _ g4

theorem Mut_Grows [Midpoint] (qt qt' : QuadTree) (hm : Mut qt qt') (h : Qnode) (hh : qt.head = some h) :
    ∃ h', qt'.head = some h' ∧ (qt.root h).Grows (qt'.root h') := by
  cases hm with
  | bucket h0 c p e s cells cells' hh0 hb =>
    rw [hh] at hh0; cases hh0
    refine ⟨_, rfl, ?_⟩
    simp only [QuadTree.root] at hb ⊢
    rw [setLeafAt_root]
    exact Grows_setSub _ _ _ e s cells hb rfl
  | grow h0 c p e s cells r hh0 hb =>
    rw [hh] at hh0; cases hh0
    refine ⟨_, rfl, ?_⟩
    simp only [QuadTree.root] at hb ⊢
    rw [setLeafAt_root]
    exact Grows_setSub _ _ _ e s cells hb (grown_extents _ _ _ _ _ _ _)

theorem Muts_Grows [Midpoint] (qt qt' : QuadTree) (hm : Relation.ReflTransGen Mut qt qt') (h : Qnode)
    (hh : qt.head = some h) :
    ∃ h', qt'.head = some h' ∧ (qt.root h).Grows (qt'.root h') := by
  induction hm with
  | refl => exact ⟨h, hh, Grows_refl _⟩
  | tail _ hstep ih =>
    obtain ⟨h1, hh1, g1⟩ := ih
    obtain ⟨h2, hh2, g2⟩ := Mut_Grows _ _ hstep h1 hh1
    refine ⟨h2, hh2, ?_⟩
    have he := (Mut_fields _ _ hstep).1
    simp only [QuadTree.root] at g1 g2 ⊢
    rw [he] at g2 ⊢
    exact Grows_trans _ _ _ g1 g2

theorem skeleton_setSub (e' : Extent) (s' : Nat) (cells' : List LeafData) :
    ∀ (p : List Corner) (l : Leaf) (s : Nat) (cells : List LeafData),
    l.sub p = some (.payload e' s cells) →
    (l.setSub p (.payload e' s' cells')).skeleton = l.skeleton := by
  intro p
  induction p with
  | nil =>
    intro l s cells hb
    simp [Leaf.sub] at hb; subst hb
    simp [Leaf.setSub, Leaf.skeleton]
  | cons k p ih =>
    intro l s cells hb
    cases l with
    | payload e0 s0 cells0 => simp [Leaf.sub] at hb
    | leaf e0 s0 d ul ur ll lr =>
      cases k <;> simp only [Leaf.sub] at hb <;> simp only [Leaf.setSub, Leaf.skeleton] <;>
        rw [ih _ s cells hb]

/-- C13: no merge-up and no node removal. On every tree obtained from `newtree`:
`deletepoint` returns normally and leaves the shape of the tree (every slot's kind
and extent, every node's depth) as it was; and after any further sequence of
`addpoint` / `movepoint` / `deletepoint` calls every slot that was a Branch is still
a Branch with the same extent, to a node of the same depth whose four slots have the
same extents, and `findleaf` still descends along its old path. In the worked
scenario the depth-2 node stays after both records are deleted. -/
theorem no_merge_up (ms md : Nat) (e : Extent) (ops : List Op) :
    ∃ qt res h, run (newtree ms md e) ops = some (qt, res) ∧ qt.head = some h ∧
      (∀ (x y : ℚ) (data : Nat), ∃ qt' b h', deletepoint qt x y data = some (qt', b) ∧
        qt'.head = some h' ∧ qt'.extents = qt.extents ∧
        (qt'.root h').skeleton = (qt.root h).skeleton) ∧
      (∀ ops' : List Op, ∃ qt' res' h', run qt ops' = some (qt', res') ∧
        qt'.head = some h' ∧
        (∀ p ext s d ul ur ll lr, h.leafAt p = some (.leaf ext s d ul ur ll lr) →
          ∃ ul' ur' ll' lr', h'.leafAt p = some (.leaf ext 0 d ul' ur' ll' lr') ∧
            ul'.extents = ul.extents ∧ ur'.extents = ur.extents ∧
            ll'.extents = ll.extents ∧ lr'.extents = lr.extents) ∧
        (∀ x y : ℚ, ∃ p p', findleaf qt x y = some (some p) ∧
          findleaf qt' x y = some (some p') ∧ p <+: p')) ∧
      run scenarioAB [.del 10 10 1, .del 20 20 2] = some (scenarioEmptied, [true, true]) ∧
      findleaf scenarioEmptied 10 10 = some (some [.ul, .ul]) := by
  obtain ⟨qt, res, h1, ⟨h, hh, hw, hl⟩, -⟩ := run_Inv ops _ (newtree_Inv ms md e)
  refine ⟨qt, res, h, h1, hh, ?_, ?_, by decide!, by decide!⟩
  · intro x y data
    obtain ⟨c, p, ext, cells, hp, hb, hdel⟩ := deletepoint_spec qt h x y data hh hw
    cases hd : delscan data cells with
    | none =>
      rw [hd] at hdel
      exact ⟨qt, false, h, hdel, hh, rfl, rfl⟩
    | some cells' =>
      rw [hd] at hdel
      refine ⟨_, true, _, hdel, rfl, rfl, ?_⟩
      simp only [QuadTree.root] at hb ⊢
      rw [setLeafAt_root]
      exact skeleton_setSub ext _ cells' _ _ _ cells hb
  · intro ops'
    obtain ⟨qt', res', r1, ⟨h', hh', hw', hl'⟩, r3⟩ := run_Mut ops' qt ⟨h, hh, hw, hl⟩
    obtain ⟨h'', hh'', hg⟩ := Muts_Grows qt qt' r3 h hh
    rw [hh'] at hh''; cases hh''
    refine ⟨qt', res', h', r1, hh', ?_, ?_⟩
    · intro p ext s d ul ur ll lr hb
      cases p with
      | nil => simp [Qnode.leafAt] at hb
      | cons c p =>
        rw [leafAt_root qt.extents] at hb
        obtain ⟨b', hb', hgb⟩ := Grows_sub _ _ _ _ hg hb
        have hwb := WF_sub _ _ _ hb' hw'
        cases b' with
        | payload e' s' cells' => exact absurd hgb (by simp [Leaf.Grows])
        | leaf e' s' d' ul' ur' ll' lr' =>
          obtain ⟨g1, g2, g3, g4, g5, g6⟩ := hgb
          subst g1; subst g2
          have hs := hwb.1
          subst hs
          refine ⟨ul', ur', ll', lr', ?_, Grows_extents _ _ g3, Grows_extents _ _ g4,
            Grows_extents _ _ g5, Grows_extents _ _ g6⟩
          rw [leafAt_root qt'.extents]
          exact hb'
    · intro x y
      exact ⟨_, _, findleaf_eq qt h x y hh hw, findleaf_eq qt' h' x y hh' hw',
        Grows_locate x y _ _ hg⟩

theorem DepthOK_setSub (M : Nat) (v : Leaf) : ∀ (p : List Corner) (l b : Leaf) (d : Nat),
    l.sub p = some b → l.DepthOK M d → v.DepthOK M (l.ownerDepth d p) →
    (l.setSub p v).DepthOK M d := by
  intro p
  induction p with
  | nil =>
    intro l b d _ _ hv
    cases l <;> simpa [Leaf.setSub, Leaf.ownerDepth] using hv
  | cons k p ih =>
    intro l b d hb hl hv
    cases l with
    | payload e s cells => simp [Leaf.sub] at hb
    | leaf e s d' ul ur ll lr =>
      obtain ⟨h1, h2, w1, w2, w3, w4⟩ := hl
      cases k <;> simp only [Leaf.sub] at hb <;> simp only [Leaf.ownerDepth] at hv <;>
        simp only [Leaf.setSub, Leaf.DepthOK]
      · exact ⟨h1, h2, ih _ b _ hb w1 hv, w2, w3, w4⟩
      · exact ⟨h1, h2, w1, ih _ b _ hb w2 hv, w3, w4⟩
      · exact ⟨h1, h2, w1, w2, ih _ b _ hb w3 hv, w4⟩
      · exact ⟨h1, h2, w1, w2, w3, ih _ b _ hb w4 hv⟩

theorem DepthOK_sub (M : Nat) : ∀ (p : List Corner) (l b : Leaf) (d : Nat),
    l.sub p = some b → l.DepthOK M d → b.DepthOK M (l.ownerDepth d p) := by
  intro p
  induction p with
  | nil =>
    intro l b d hb hl
    simp [Leaf.sub] at hb; subst hb
    cases l <;> simpa [Leaf.ownerDepth] using hl
  | cons k p ih =>
    intro l b d hb hl
    cases l with
    | payload e s cells => simp [Leaf.sub] at hb
    | leaf e s d' ul ur ll lr =>
      obtain ⟨h1, h2, w1, w2, w3, w4⟩ := hl
      cases k <;> simp only [Leaf.sub] at hb <;> simp only [Leaf.ownerDepth]
      · exact ih _ b _ hb w1
      · exact ih _ b _ hb w2
      · exact ih _ b _ hb w3
      · exact ih _ b _ hb w4

theorem ownerDepth_snoc (c : Corner) : ∀ (q : List Corner) (l : Leaf) (d : Nat) (e : Extent)
    (s d' : Nat) (ul ur ll lr : Leaf), l.sub q = some (.leaf e s d' ul ur ll lr) →
    l.ownerDepth d (q ++ [c]) = d' := by
  intro q
  induction q with
  | nil =>
    intro l d e s d' ul ur ll lr hb
    simp [Leaf.sub] at hb; subst hb
    cases c <;> simp [Leaf.ownerDepth]
  | cons k q ih =>
    intro l d e s d' ul ur ll lr hb
    cases l with
    | payload e0 s0 cells0 => simp [Leaf.sub] at hb
    | leaf e0 s0 d0 ul0 ur0 ll0 lr0 =>
      cases k <;> simp only [Leaf.sub] at hb <;>
        simp only [List.cons_append, Leaf.ownerDepth] <;>
        exact ih _ _ e s d' ul ur ll lr hb

theorem grown_DepthOK [Midpoint] (M ms md d : Nat) (e : Extent) (s : Nat) (cells : List LeafData)
    (r : LeafData) (hM : md ≤ M) : (grown ms md d e s cells r).DepthOK M d := by
  unfold grown
  split
  · rename_i hc
    simp only [splitOf, Leaf.DepthOK, and_true, true_and]
    omega
  · trivial

theorem Mut_DepthInv [Midpoint] (qt qt' : QuadTree) (hm : Mut qt qt') (hd : qt.DepthInv) :
    qt'.DepthInv := by
  obtain ⟨h, hh, hdep⟩ := hd
  cases hm with
  | bucket h0 c p e s cells cells' hh0 hb =>
    rw [hh] at hh0; cases hh0
    refine ⟨_, rfl, ?_⟩
    simp only [QuadTree.root] at hb hdep ⊢
    rw [setLeafAt_root]
    exact DepthOK_setSub _ _ _ _ _ _ hb hdep trivial
  | grow h0 c p e s cells r hh0 hb =>
    rw [hh] at hh0; cases hh0
    refine ⟨_, rfl, ?_⟩
    simp only [QuadTree.root] at hb hdep ⊢
    rw [setLeafAt_root]
    exact DepthOK_setSub _ _ _ _ _ _ hb hdep (grown_DepthOK _ _ _ _ _ _ _ _ (le_max_left _ _))

theorem Muts_DepthInv [Midpoint] (qt qt' : QuadTree) (hm : Relation.ReflTransGen Mut qt qt')
    (hd : qt.DepthInv) : qt'.DepthInv := by
  induction hm with
  | refl => exact hd
  | tail _ hstep ih => exact Mut_DepthInv _ _ hstep ih

theorem newtree_DepthInv [Midpoint] (ms md : Nat) (e : Extent) : (newtree ms md e).DepthInv := by
  refine ⟨_, rfl, ?_⟩
  simp [newtree, QuadTree.root, Leaf.ofNode, Leaf.DepthOK]

/-- C15: depth invariant. On every tree obtained from `newtree`: the root node has
depth 1; the node below a Branch slot of the root has depth `root depth + 1`, and the
node below a Branch slot owned by any other node has depth one more than that node;
and when `maxdepth ≥ 1` neither the root nor any other node has depth above
`maxdepth`. -/
theorem depth_invariant (ms md : Nat) (e : Extent) (ops : List Op) :
    ∃ qt res h, run (newtree ms md e) ops = some (qt, res) ∧ qt.head = some h ∧
      qt.maxdepth = md ∧ h.depth = 1 ∧
      (∀ c ext s d ul ur ll lr, h.leafAt [c] = some (.leaf ext s d ul ur ll lr) →
        d = h.depth + 1) ∧
      (∀ q c ext s d ul ur ll lr ext' s' d' ul' ur' ll' lr',
        h.leafAt q = some (.leaf ext s d ul ur ll lr) →
        h.leafAt (q ++ [c]) = some (.leaf ext' s' d' ul' ur' ll' lr') → d' = d + 1) ∧
      (1 ≤ md → h.depth ≤ md ∧
        ∀ q ext s d ul ur ll lr, h.leafAt q = some (.leaf ext s d ul ur ll lr) → d ≤ md) := by
  obtain ⟨qt, res, h1, ⟨h, hh, hw, hl⟩, hm⟩ := run_Mut ops _ (newtree_Inv ms md e)
  obtain ⟨h', hh', hd⟩ := Muts_DepthInv _ _ hm (newtree_DepthInv ms md e)
  rw [hh] at hh'; cases hh'
  have hmd : qt.maxdepth = md := by
    obtain ⟨qt2, res2, r1, -, -, -, r5, -⟩ := run_Inv ops _ (newtree_Inv ms md e)
    rw [h1] at r1
    simp only [Option.some.injEq, Prod.mk.injEq] at r1
    rw [r1.1]; exact r5
  have hroot : (qt.root h).sub [] = some (.leaf qt.extents 0 h.depth h.ul h.ur h.ll h.lr) := by
    simp [QuadTree.root, Leaf.ofNode, Leaf.sub]
  have hd0 := hd
  obtain ⟨r1, r2, -⟩ := hd0
  have hdepth : h.depth = 1 := by simpa using r1
  refine ⟨qt, res, h, h1, hh, hmd, hdepth, ?_, ?_, ?_⟩
  · intro c ext s d ul ur ll lr hb
    rw [leafAt_root qt.extents] at hb
    have h2 := DepthOK_sub _ _ _ _ _ hb hd
    have h3 := ownerDepth_snoc c [] (qt.root h) 0 _ _ _ _ _ _ _ hroot
    simp only [List.nil_append] at h3
    simp only [QuadTree.root] at h2 h3
    rw [h3] at h2
    exact h2.1
  · intro q c ext s d ul ur ll lr ext' s' d' ul' ur' ll' lr' hq hqc
    cases q with
    | nil => simp [Qnode.leafAt] at hq
    | cons k q =>
      rw [leafAt_root qt.extents] at hq
      rw [List.cons_append, leafAt_root qt.extents, ← List.cons_append] at hqc
      have h2 := DepthOK_sub _ _ _ _ _ hqc hd
      have h3 := ownerDepth_snoc c (k :: q) (qt.root h) 0 _ _ _ _ _ _ _ hq
      simp only [QuadTree.root] at h2 h3
      rw [h3] at h2
      exact h2.1
  · intro hmd1
    have hmax : max qt.maxdepth 1 = md := by rw [hmd]; exact max_eq_left hmd1
    refine ⟨by rw [hdepth]; exact hmd1, ?_⟩
    intro q ext s d ul ur ll lr hq
    cases q with
    | nil => simp [Qnode.leafAt] at hq
    | cons k q =>
      rw [leafAt_root qt.extents] at hq
      have h2 := DepthOK_sub _ _ _ _ _ hq hd
      rw [hmax] at h2
      exact h2.2.1

theorem depth_invariant_witness :
    ∃ qt res h, run (newtree 2 4 u100) [.add 10 10 1, .add 20 20 2] = some (qt, res) ∧
      qt.head = some h ∧ h.depth ≤ 4 := by
  obtain ⟨qt, res, h, h1, h2, -, -, -, -, h7⟩ :=
    depth_invariant 2 4 u100 [.add 10 10 1, .add 20 20 2]
  exact ⟨qt, res, h, h1, h2, (h7 (by decide)).1⟩

/-! ## Teardown, locatability, discriminant -/

theorem deleteleaf_eq [Midpoint] : ∀ (l : Leaf), l.WF → deleteleaf true l = some l.records := by
  intro l
  induction l with
  | payload e s cells =>
    intro hl
    simp only [Leaf.WF] at hl
    cases cells with
    | nil => simp [deleteleaf, hl, Leaf.records]
    | cons c cs => simp [deleteleaf, hl, Leaf.records]
  | leaf e s d ul ur ll lr h1 h2 h3 h4 =>
    intro hl
    obtain ⟨hs, -, -, -, -, w1, w2, w3, w4⟩ := hl
    simp [deleteleaf, hs, h1 w1, h2 w2, h3 w3, h4 w4, Leaf.records]

/-- C16: teardown visits everything once. On every tree obtained from `newtree`,
`deletetree` with a non-null visitor returns normally, the visitor is called on
exactly the records stored in the tree (the full traversal list, so each record as
often as it is stored and nothing else), and afterwards `head` is `NULL`, so that
`findleaf` returns `NULL`. -/
theorem deletetree_visits_all (ms md : Nat) (e : Extent) (ops : List Op) :
    ∃ qt res qt' vis, run (newtree ms md e) ops = some (qt, res) ∧
      deletetree qt true = some (qt', vis) ∧ vis = qt.records ∧
      (∀ c, vis.count c = qt.records.count c) ∧
      qt'.head = none ∧ ∀ x y : ℚ, findleaf qt' x y = some none := by
  obtain ⟨qt, res, h1, ⟨h, hh, hw, hl⟩, -⟩ := run_Inv ops _ (newtree_Inv ms md e)
  obtain ⟨-, -, -, -, -, w1, w2, w3, w4⟩ := hw
  refine ⟨qt, res, { qt with head := none }, qt.records, h1, ?_, rfl, fun _ => rfl, rfl,
    fun x y => rfl⟩
  simp [deletetree, hh, deleteqnode, deleteleaf_eq _ w1, deleteleaf_eq _ w2,
    deleteleaf_eq _ w3, deleteleaf_eq _ w4, QuadTree.records, QuadTree.root, Leaf.ofNode,
    Leaf.records]

/-- C19: the implicit discriminant is never ambiguous. On every tree obtained from
`newtree`, for every slot: a bucket's `size` is the length of its chain, so an empty
bucket has a `NULL` chain and a non-empty one a non-zero size; and the source's test
`size == 0 && contents.leaf` holds exactly for the Branch slots. Accordingly
`findleaf`, `addpoint`, `maptonearby` and `deletetree` all return normally, never
reading a chain as a node or a node as a chain. -/
theorem discriminant_unambiguous (ms md : Nat) (e : Extent) (ops : List Op) :
    ∃ qt res h, run (newtree ms md e) ops = some (qt, res) ∧ qt.head = some h ∧
      (∀ p slot, h.leafAt p = some slot →
        (∀ ext s cells, slot = .payload ext s cells →
          s = cells.length ∧ (s = 0 ↔ cells = [])) ∧
        (slot.branchTest = true ↔ slot.isBranch = true)) ∧
      (∀ x y : ℚ, ∃ p, findleaf qt x y = some (some p)) ∧
      (∀ (x y : ℚ) (data : Nat), ∃ qt', addpoint qt x y data = some (qt', true)) ∧
      (∀ x y r : ℚ, ∃ vis, maptonearby qt x y r = some vis) ∧
      (∃ qt' vis, deletetree qt true = some (qt', vis)) := by
  obtain ⟨qt, res, h1, ⟨h, hh, hw, hl⟩, -⟩ := run_Inv ops _ (newtree_Inv ms md e)
  refine ⟨qt, res, h, h1, hh, ?_, ?_, ?_, ?_, ?_⟩
  · intro p slot hb
    cases p with
    | nil => simp [Qnode.leafAt] at hb
    | cons c p =>
      rw [leafAt_root qt.extents] at hb
      have hws := WF_sub _ _ _ hb hw
      cases slot with
      | payload ext s cells =>
        simp only [Leaf.WF] at hws
        refine ⟨?_, ?_⟩
        · intro ext' s' cells' heq
          simp only [Leaf.payload.injEq] at heq
          obtain ⟨-, rfl, rfl⟩ := heq
          exact ⟨hws, (by rw [hws]; exact List.length_eq_zero)⟩
        · cases cells <;> simp_all [Leaf.branchTest, Leaf.isBranch, Leaf.size,
            Leaf.contentsNonNull]
      | leaf ext s d ul ur ll lr =>
        refine ⟨fun _ _ _ heq => (by cases heq), ?_⟩
        simp [Leaf.branchTest, Leaf.isBranch, Leaf.size, Leaf.contentsNonNull, hws.1]
  · intro x y
    exact ⟨_, findleaf_eq qt h x y hh hw⟩
  · intro x y data
    obtain ⟨qt', a1, -⟩ := addpoint_Inv qt x y data ⟨h, hh, hw, hl⟩
    exact ⟨qt', a1⟩
  · intro x y r
    obtain ⟨vis, hv, -⟩ := maptonearby_sublist qt x y r ⟨h, hh, hw, hl⟩
    exact ⟨vis, hv⟩
  · obtain ⟨-, -, -, -, -, w1, w2, w3, w4⟩ := hw
    exact ⟨{ qt with head := none },
      h.ul.records ++ h.ur.records ++ h.ll.records ++ h.lr.records, by
      simp [deletetree, hh, deleteqnode, deleteleaf_eq _ w1, deleteleaf_eq _ w2,
        deleteleaf_eq _ w3, deleteleaf_eq _ w4]⟩

/-- C20: a point outside the universe is accepted but lost to queries. With universe
`(0,0,100,100)`, `addpoint(-10,-10,1)` returns true and stores the record in the
root's UL bucket `(0,0,50,50)`, whose closed extent does not contain it; `findleaf`
at the point still returns that bucket, but its extent does not overlap the query box
of `maptonearby` centred on the point with radius 0, and the visitor is called on
nothing. -/
theorem outside_point_lost :
    addpoint (newtree 2 4 u100) (-10) (-10) 1 = some (outsideTree, true) ∧
    ¬ u100.contains (-10) (-10) ∧
    findleaf outsideTree (-10) (-10) = some (some [.ul]) ∧
    (outsideTree.head.bind fun h => h.leafAt [.ul]) =
      some (.payload ⟨0, 0, 50, 50⟩ 1 [⟨-10, -10, 1⟩]) ∧
    ¬ (⟨0, 0, 50, 50⟩ : Extent).contains (-10) (-10) ∧
    overlap ⟨0, 0, 50, 50⟩ ⟨-10 - 0, -10 - 0, -10 + 0, -10 + 0⟩ = false ∧
    maptonearby outsideTree (-10) (-10) 0 = some [] := by
  refine ⟨by decide!, by decide!, by decide!, by decide!, by decide!, by decide!, by decide!⟩

/-! ## Boundary points -/

theorem getdistance_le_self (x y : ℚ) : getdistance_le x y x y 0 = true :=
  (getdistance_le_zero x y x y).mpr ⟨rfl, rfl⟩

theorem mem_records_bucket : ∀ (l : Leaf) (r : LeafData), r ∈ l.records →
    ∃ p e s cells, l.sub p = some (.payload e s cells) ∧ r ∈ cells := by
  intro l
  induction l with
  | payload e s cells => intro r hr; exact ⟨[], e, s, cells, rfl, hr⟩
  | leaf e s d ul ur ll lr h1 h2 h3 h4 =>
    intro r hr
    simp only [Leaf.records, List.mem_append] at hr
    rcases hr with ((hr | hr) | hr) | hr
    · obtain ⟨p, e', s', cells, hb, hm⟩ := h1 r hr
      exact ⟨.ul :: p, e', s', cells, hb, hm⟩
    · obtain ⟨p, e', s', cells, hb, hm⟩ := h2 r hr
      exact ⟨.ur :: p, e', s', cells, hb, hm⟩
    · obtain ⟨p, e', s', cells, hb, hm⟩ := h3 r hr
      exact ⟨.ll :: p, e', s', cells, hb, hm⟩
    · obtain ⟨p, e', s', cells, hb, hm⟩ := h4 r hr
      exact ⟨.lr :: p, e', s', cells, hb, hm⟩

theorem contains_of_sub (x y : ℚ) : ∀ (p : List Corner) (l b : Leaf), l.sub p = some b →
    l.WF → b.extents.contains x y → l.extents.contains x y := by
  intro p
  induction p with
  | nil => intro l b hb _ hc; simp [Leaf.sub] at hb; subst hb; exact hc
  | cons k p ih =>
    intro l b hb hl hc
    cases l with
    | payload e s cells => simp [Leaf.sub] at hb
    | leaf e s d ul ur ll lr =>
      obtain ⟨hs, e1, e2, e3, e4, w1, w2, w3, w4⟩ := hl
      cases k <;> simp only [Leaf.sub] at hb
      · have := ih _ b hb w1 hc; rw [e1] at this; exact contains_quarter _ _ _ _ this
      · have := ih _ b hb w2 hc; rw [e2] at this; exact contains_quarter _ _ _ _ this
      · have := ih _ b hb w3 hc; rw [e3] at this; exact contains_quarter _ _ _ _ this
      · have := ih _ b hb w4 hc; rw [e4] at this; exact contains_quarter _ _ _ _ this

theorem reach_leaf (x y : ℚ) : ∀ (l : Leaf), l.WF → l.extents.contains x y →
    ∀ (vis : List LeafData), FIND_IN_CORNER x y 0 l = some vis →
    ∀ (r : LeafData) (e : Extent) (s : Nat) (cells : List LeafData),
    l.sub (l.locate x y) = some (.payload e s cells) → r ∈ cells → r.x = x → r.y = y →
    r ∈ vis := by
  intro l
  induction l with
  | payload e0 s0 cells0 =>
    intro hl hc vis hv r e s cells hb hr hx hy
    simp only [Leaf.WF] at hl
    simp only [Leaf.locate, Leaf.sub, Option.some.injEq, Leaf.payload.injEq] at hb
    obtain ⟨-, -, rfl⟩ := hb
    have ho := overlap_of_near e0 x y 0 x y hc (getdistance_le_self x y)
    have hne : cells0 ≠ [] := List.ne_nil_of_mem hr
    have hpos : s0 > 0 := by
      rw [hl]; exact List.length_pos.mpr hne
    have hnz : ¬ s0 = 0 := by omega
    simp only [FIND_IN_CORNER, ho, if_true, hne, ne_eq, not_false_eq_true, hnz, and_false,
      if_false, hpos, and_self, Option.some.injEq] at hv
    rw [← hv, List.mem_filter]
    exact ⟨hr, by rw [hx, hy]; exact getdistance_le_self x y⟩
  | leaf e0 s0 d ul ur ll lr h1 h2 h3 h4 =>
    intro hl hc vis hv r e s cells hb hr hx hy
    obtain ⟨hs, e1, e2, e3, e4, w1, w2, w3, w4⟩ := hl
    have ho := overlap_of_near e0 x y 0 x y hc (getdistance_le_self x y)
    have hmx : ul.extents.xmax = halfway e0.xmin e0.xmax := by rw [e1]; rfl
    have hmy : ul.extents.ymax = halfway e0.ymin e0.ymax := by rw [e1]; rfl
    have hq := quarter_of_contains x y e0 hc
    simp only [FIND_IN_CORNER, ho, if_true, hs] at hv
    cases f1 : FIND_IN_CORNER x y 0 ul with
    | none => rw [f1] at hv; simp at hv
    | some v1 =>
      cases f2 : FIND_IN_CORNER x y 0 ur with
      | none => rw [f1, f2] at hv; simp at hv
      | some v2 =>
        cases f3 : FIND_IN_CORNER x y 0 ll with
        | none => rw [f1, f2, f3] at hv; simp at hv
        | some v3 =>
          cases f4 : FIND_IN_CORNER x y 0 lr with
          | none => rw [f1, f2, f3, f4] at hv; simp at hv
          | some v4 =>
            rw [f1, f2, f3, f4] at hv
            simp only [Option.some_bind, Option.some.injEq] at hv
            rw [← hv]
            unfold Leaf.locate at hb
            rw [selectQuadrant_eq, hmx, hmy] at hb
            cases hk : DO_CORNERS x y (halfway e0.xmin e0.xmax) (halfway e0.ymin e0.ymax) <;>
              rw [hk] at hb hq <;> simp only [Leaf.sub] at hb <;>
              simp only [List.mem_append]
            · exact Or.inl (Or.inl (Or.inl
                (h1 w1 (by rw [e1]; exact hq) v1 f1 r e s cells hb hr hx hy)))
            · exact Or.inl (Or.inl (Or.inr
                (h2 w2 (by rw [e2]; exact hq) v2 f2 r e s cells hb hr hx hy)))
            · exact Or.inl (Or.inr
                (h3 w3 (by rw [e3]; exact hq) v3 f3 r e s cells hb hr hx hy))
            · exact Or.inr (h4 w4 (by rw [e4]; exact hq) v4 f4 r e s cells hb hr hx hy)

theorem reach_zero (qt : QuadTree) (h : Qnode) (r : LeafData) (hh : qt.head = some h)
    (hw : (qt.root h).WF) (hl : (qt.root h).Loc) (hr : r ∈ qt.records)
    (hc : qt.extents.contains r.x r.y) :
    (∃ vis, maptonearby qt r.x r.y 0 = some vis ∧ r ∈ vis) ∧
    (∃ p e s cells, findleaf qt r.x r.y = some (some p) ∧
      h.leafAt p = some (.payload e s cells) ∧ r ∈ cells) := by
  have hr' : r ∈ (qt.root h).records := by simpa [QuadTree.records, hh] using hr
  obtain ⟨p, e, s, cells, hb, hm⟩ := mem_records_bucket _ r hr'
  have hp := locate_of_mem _ hl _ _ _ _ hb r hm
  constructor
  · obtain ⟨vis, hv, -⟩ := maptonearby_sublist qt r.x r.y 0 ⟨h, hh, hw, hl⟩
    refine ⟨vis, hv, ?_⟩
    have ho := overlap_of_near qt.extents r.x r.y 0 r.x r.y hc (getdistance_le_self _ _)
    have hf : FIND_IN_CORNER r.x r.y 0 (qt.root h) = some vis := by
      rw [← hv]
      simp [QuadTree.root, Leaf.ofNode, FIND_IN_CORNER, ho, maptonearby, hh, maptonearbyx]
    exact reach_leaf r.x r.y _ hw hc vis hf r e s cells (by rw [hp]; exact hb) hm rfl rfl
  · cases p with
    | nil => simp [QuadTree.root, Leaf.ofNode, Leaf.sub] at hb
    | cons c p =>
      refine ⟨c :: p, e, s, cells, by rw [findleaf_eq qt h _ _ hh hw, hp], ?_, hm⟩
      rw [leafAt_root qt.extents]
      exact hb

end Quadtree
